import Mathlib

/-!
# The pipeline package: stages, wiring, emission

A shallow embedding of `pipeline.go`.

* The sequential API (`New`, `OnError`, `Next`, `mustHaveStages`, `Emit`,
  `EmitWithDelay`) is embedded as functions on a `Pipeline` value and a `World`
  (the channels made so far and the goroutines started so far).
* The goroutines (`stage.Run` workers and closer, the feeder of an emission
  call, and the caller ranging over the sink) are embedded as an interleaving
  semantics: `step` moves one goroutine, `run` follows a schedule from any
  state of the process, also between two calls of the sequential API. The
  theorems about a fed pipeline follow the schedule from the emission call:
  with positive worker counts no goroutine can move earlier, since a worker
  waits on an empty open channel and a closer on its workers.

Conventions: Go's `int` arguments that make the runtime panic when negative
(`make(chan, n)`, `wg.Add(n)`) are `Nat`; function values are total Lean
functions, except that a value of type `errFunc` may be `nil`; `(res, err)`
results are pairs whose second component is `none` for a `nil` error; a
`time.Duration` is an `Int`. A panic stops the process: no goroutine moves
after it.
-/

namespace GoPipeline

variable {V E : Type}

/-! ## Data model -/

/-- The type `stageFunc`: `func(interface{}) (interface{}, error)`. -/
abbrev stageFunc (V E : Type) := V → V × Option E

/-- A function value of type `errFunc`: the package's `defaultErrFunc` or a
function supplied by the client. -/
inductive Handler where
  | defaultErrFunc
  | callback (name : Nat)
deriving DecidableEq, Repr

/-- The type `errFunc`, `func(error)`: `nil` (here `none`) or a function value. -/
abbrev errFunc := Option Handler

/-- The struct `stage`; `inp` is the field `in`. A channel is named by the
number `make` gave it. -/
structure stage (V E : Type) where
  workerCount : Nat
  cancelOnError : Bool
  fn : stageFunc V E
  errFn : errFunc
  inp : Nat
  out : Nat

/-- The struct `Pipeline`. -/
structure Pipeline (V E : Type) where
  source : Nat
  sink : Nat
  cancelChan : Option Nat
  errFn : errFunc
  stages : List (stage V E)
  bufSize : Nat

/-- The struct `PipelineOpts`. -/
structure PipelineOpts where
  ChanBufSize : Nat

/-- The function `WithDefault`. -/
def WithDefault : PipelineOpts := { ChanBufSize := 1024 }

/-! ## Runtime state -/

/-- A channel: capacity, buffered values (oldest first), closed flag. -/
structure Chan (V : Type) where
  cap : Nat
  buf : List V
  closed : Bool

/-- Program counter of one worker goroutine of `stage.Run`:
at the receive of `for v := range s.in`, before `s.out <- res`,
before `s.errFn(err)`, or past the loop (after `wg.Done()`). -/
inductive Worker (V E : Type) where
  | recv
  | send (res : V)
  | fail (err : E)
  | done

/-- The goroutines of one `stage.Run` call: the workers, and whether the
goroutine `wg.Wait(); close(s.out)` has performed its close. -/
structure Pool (V E : Type) where
  workers : List (Worker V E)
  closed : Bool

/-- One operation of a feeder goroutine. -/
inductive FeedOp (V : Type) where
  | wait (dur : Int)
  | send (v : V)
  | close

/-- The process: the channels made so far, the goroutines started so far
(pool `i` was started by the `i`-th `Next` call), the error callbacks invoked
so far, what the caller has received from the sink, and whether a goroutine
panicked. -/
structure World (V E : Type) where
  next : Nat
  chan : Nat → Chan V
  pools : List (Pool V E)
  feeders : List (List (FeedOp V))
  calls : List (Handler × E)
  received : List V
  sawClose : Bool
  panicked : Bool

/-- The process before any call into the package. -/
def World.init : World V E :=
  { next := 0, chan := fun _ => { cap := 0, buf := [], closed := false }, pools := [],
    feeders := [], calls := [], received := [], sawClose := false, panicked := false }

/-- The allocation `make(chan interface{}, cap)`. -/
def World.make (w : World V E) (cap : Nat) : Nat × World V E :=
  (w.next, { w with next := w.next + 1,
                    chan := Function.update w.chan w.next { cap := cap, buf := [], closed := false } })

/-- The statement `go func() { ... }()` of an emission call. -/
def World.go (w : World V E) (script : List (FeedOp V)) : World V E :=
  { w with feeders := w.feeders ++ [script] }

/-! ## The sequential API -/

/-- The function `New`. -/
def New (opts : PipelineOpts) (w : World V E) : Pipeline V E × World V E :=
  let a := w.make opts.ChanBufSize
  let b := a.2.make opts.ChanBufSize
  ({ source := a.1, sink := b.1, cancelChan := none, errFn := some Handler.defaultErrFunc,
     stages := [], bufSize := opts.ChanBufSize }, b.2)

/-- The method `OnError`: stores its argument, `nil` included. -/
def OnError (fn : errFunc) (pw : Pipeline V E × World V E) : Pipeline V E × World V E :=
  ({ pw.1 with errFn := fn }, pw.2)

/-- The method `stage.Run`: starts `workerCount` workers and the closer. -/
def stage.Run (s : stage V E) (w : World V E) : World V E :=
  { w with pools := w.pools ++ [{ workers := List.replicate s.workerCount Worker.recv,
                                  closed := false }] }

/-- The assignment `last.out = join` on `last := p.stages[len(p.stages)-1]`. -/
def setLastOut : List (stage V E) → Nat → List (stage V E)
  | [], _ => []
  | [s], join => [{ s with out := join }]
  | s :: t :: rest, join => s :: setLastOut (t :: rest) join

/-- The method `Next`. -/
def Next (fn : stageFunc V E) (routineCount : Nat) (pw : Pipeline V E × World V E) :
    Pipeline V E × World V E :=
  if pw.1.stages.length = 0 then
    let st : stage V E :=
      { workerCount := routineCount, cancelOnError := false, fn := fn, errFn := none,
        inp := pw.1.source, out := pw.1.sink }
    ({ pw.1 with stages := pw.1.stages ++ [st] }, st.Run pw.2)
  else
    let m := pw.2.make pw.1.bufSize
    let st : stage V E :=
      { workerCount := routineCount, cancelOnError := false, fn := fn, errFn := none,
        inp := m.1, out := pw.1.sink }
    ({ pw.1 with stages := setLastOut pw.1.stages m.1 ++ [st] }, st.Run m.2)

/-- The process exit of `log.Fatalln("no processing stages in pipeline")`. -/
inductive Fatal where
  | noStages
deriving DecidableEq, Repr

/-- The method `mustHaveStages`. -/
def mustHaveStages (p : Pipeline V E) : Except Fatal (Pipeline V E) :=
  if p.stages.length = 0 then Except.error Fatal.noStages
  else Except.ok { p with stages := p.stages.map fun s => { s with errFn := p.errFn } }

/-- The feeder goroutine of `Emit`: send each value, then the deferred close. -/
def emitFeeder (values : List V) : List (FeedOp V) :=
  values.map FeedOp.send ++ [FeedOp.close]

/-- The feeder goroutine of `EmitWithDelay`: for each value wait for
`time.After(dur)`, then send; then the deferred close. -/
def delayFeeder (dur : Int) (values : List V) : List (FeedOp V) :=
  (values.map fun v => [FeedOp.wait dur, FeedOp.send v]).flatten ++ [FeedOp.close]

/-- The method `Emit`: the pipeline and process after the call, and the returned sink. -/
def Emit (values : List V) (pw : Pipeline V E × World V E) :
    Except Fatal ((Pipeline V E × World V E) × Nat) :=
  match mustHaveStages pw.1 with
  | Except.error e => Except.error e
  | Except.ok p => Except.ok ((p, pw.2.go (emitFeeder values)), p.sink)

/-- The method `EmitWithDelay`. -/
def EmitWithDelay (dur : Int) (values : List V) (pw : Pipeline V E × World V E) :
    Except Fatal ((Pipeline V E × World V E) × Nat) :=
  match mustHaveStages pw.1 with
  | Except.error e => Except.error e
  | Except.ok p => Except.ok ((p, pw.2.go (delayFeeder dur values)), p.sink)

/-! ## Goroutine steps -/

/-- A goroutine: feeder `k`, worker `j` of stage `i`, the closer of stage `i`,
or the caller ranging over the sink. -/
inductive Actor where
  | feeder (k : Nat)
  | worker (i j : Nat)
  | closer (i : Nat)
  | consumer
deriving DecidableEq, Repr

/-- A scheduling decision: one goroutine moves, or a blocked sender hands its
value directly to a receiver waiting on the same empty channel. -/
inductive Action where
  | solo (a : Actor)
  | handoff (snd rcv : Actor)
deriving DecidableEq, Repr

def World.setChan (w : World V E) (id : Nat) (c : Chan V) : World V E :=
  { w with chan := Function.update w.chan id c }

def World.panic (w : World V E) : World V E :=
  { w with panicked := true }

def World.setWorker (w : World V E) (i j : Nat) (wk : Worker V E) : World V E :=
  match w.pools[i]? with
  | some pool => { w with pools := w.pools.set i { pool with workers := pool.workers.set j wk } }
  | none => w

/-- The statement `ch <- v`: panics on a closed channel; when `bounded`, blocks
(`none`) while the buffer is full. -/
def World.sendOn (bounded : Bool) (w : World V E) (id : Nat) (v : V) : Option (World V E) :=
  if (w.chan id).closed then some w.panic
  else if bounded && decide ((w.chan id).cap ≤ (w.chan id).buf.length) then none
  else some (w.setChan id { w.chan id with buf := (w.chan id).buf ++ [v] })

/-- The statement `close(ch)`: panics on a closed channel. -/
def World.closeChan (w : World V E) (id : Nat) : World V E :=
  if (w.chan id).closed then w.panic
  else w.setChan id { w.chan id with closed := true }

def Worker.isDone : Worker V E → Bool
  | Worker.done => true
  | _ => false

/-- One operation of feeder `k`, which sends on and closes `p.source`. A send
on the closed source panics, and the deferred `close(p.source)` runs while the
goroutine unwinds: the feeder is then at its end. -/
def feederMove (bounded : Bool) (p : Pipeline V E) (w : World V E) (k : Nat) :
    Option (World V E) :=
  match w.feeders[k]? with
  | some (op :: rest) =>
    let w1 := { w with feeders := w.feeders.set k rest }
    match op with
    | FeedOp.wait _ => some w1
    | FeedOp.send v =>
      if (w.chan p.source).closed then some ({ w with feeders := w.feeders.set k [] }.panic)
      else w1.sendOn bounded p.source v
    | FeedOp.close => some (w1.closeChan p.source)
  | _ => none

/-- One step of worker `j` of stage `i`, the loop body of `stage.Run`: a
receive and the call of `s.fn`, the send of the result, or the call
`s.errFn(err)`, which panics when the callback is `nil` (the deferred
`wg.Done()` of the panicking worker changes nothing: no goroutine moves after
a panic). -/
def workerMove (bounded : Bool) (p : Pipeline V E) (w : World V E) (i j : Nat) :
    Option (World V E) :=
  match p.stages[i]?, w.pools[i]? with
  | some s, some pool =>
    match pool.workers[j]? with
    | some Worker.recv =>
      match (w.chan s.inp).buf with
      | v :: rest =>
        let w1 := w.setChan s.inp { w.chan s.inp with buf := rest }
        match (s.fn v).2 with
        | none => some (w1.setWorker i j (Worker.send (s.fn v).1))
        | some err => some (w1.setWorker i j (Worker.fail err))
      | [] => if (w.chan s.inp).closed then some (w.setWorker i j Worker.done) else none
    | some (Worker.send res) => (w.setWorker i j Worker.recv).sendOn bounded s.out res
    | some (Worker.fail err) =>
      match s.errFn with
      | some f => some ({ w with calls := w.calls ++ [(f, err)] }.setWorker i j Worker.recv)
      | none => some w.panic
    | _ => none
  | _, _ => none

/-- The goroutine `wg.Wait(); close(s.out)` of stage `i`. -/
def closerMove (p : Pipeline V E) (w : World V E) (i : Nat) : Option (World V E) :=
  match p.stages[i]?, w.pools[i]? with
  | some s, some pool =>
    if pool.closed then none
    else if pool.workers.all Worker.isDone then
      some ({ w with pools := w.pools.set i { pool with closed := true } }.closeChan s.out)
    else none
  | _, _ => none

/-- The caller's `for v := range sink`. -/
def consumerMove (p : Pipeline V E) (w : World V E) : Option (World V E) :=
  if w.sawClose then none
  else
    match (w.chan p.sink).buf with
    | v :: rest =>
      some ({ w with received := w.received ++ [v] }.setChan p.sink
              { w.chan p.sink with buf := rest })
    | [] => if (w.chan p.sink).closed then some { w with sawClose := true } else none

/-- One move of one goroutine; nothing moves after a panic. -/
def move (bounded : Bool) (p : Pipeline V E) (w : World V E) : Actor → Option (World V E)
  | Actor.feeder k => if w.panicked then none else feederMove bounded p w k
  | Actor.worker i j => if w.panicked then none else workerMove bounded p w i j
  | Actor.closer i => if w.panicked then none else closerMove p w i
  | Actor.consumer => if w.panicked then none else consumerMove p w

/-- The channel a goroutine is about to send on, if its next operation is a send. -/
def sendTarget (p : Pipeline V E) (w : World V E) : Actor → Option Nat
  | Actor.feeder k =>
    match w.feeders[k]? with
    | some (FeedOp.send _ :: _) => some p.source
    | _ => none
  | Actor.worker i j =>
    match p.stages[i]?, w.pools[i]? with
    | some s, some pool =>
      match pool.workers[j]? with
      | some (Worker.send _) => some s.out
      | _ => none
    | _, _ => none
  | _ => none

/-- The channel a goroutine is waiting to receive from, if it is at a receive. -/
def recvSource (p : Pipeline V E) (w : World V E) : Actor → Option Nat
  | Actor.worker i j =>
    match p.stages[i]?, w.pools[i]? with
    | some s, some pool =>
      match pool.workers[j]? with
      | some Worker.recv => some s.inp
      | _ => none
    | _, _ => none
  | Actor.consumer => if w.sawClose then none else some p.sink
  | _ => none

/-- One scheduling decision. A solo send needs room in the buffer; a handoff
needs sender and receiver on the same open channel with an empty buffer (the
only way through a channel of capacity 0). -/
def step (p : Pipeline V E) (w : World V E) : Action → Option (World V E)
  | Action.solo a => move true p w a
  | Action.handoff snd rcv =>
    match sendTarget p w snd, recvSource p w rcv with
    | some c, some c' =>
      if c = c' ∧ (w.chan c).buf.isEmpty = true ∧ (w.chan c).closed = false then
        (move false p w snd).bind fun w1 => move true p w1 rcv
      else none
    | _, _ => none

/-- Follow a schedule. -/
def run (p : Pipeline V E) : World V E → List Action → Option (World V E)
  | w, [] => some w
  | w, a :: rest => (step p w a).bind fun w1 => run p w1 rest

/-- The pipeline and process after `New(opts)` and the `Next` calls of `specs`, in order. -/
def build (opts : PipelineOpts) (specs : List (stageFunc V E × Nat)) : Pipeline V E × World V E :=
  specs.foldl (fun pw sp => Next sp.1 sp.2 pw) (New opts World.init)

/-! ## Closed form of the wiring -/

/-- Closed form of the stages wired by `Next`. -/
def wiredFrom (inp join sink : Nat) : List (stageFunc V E × Nat) → List (stage V E)
  | [] => []
  | [sp] => [{ workerCount := sp.2, cancelOnError := false, fn := sp.1, errFn := none,
               inp := inp, out := sink }]
  | sp :: sq :: rest =>
    { workerCount := sp.2, cancelOnError := false, fn := sp.1, errFn := none,
      inp := inp, out := join } :: wiredFrom join (join + 1) sink (sq :: rest)

/-- Closed form of the pipeline after `New` and the `Next` calls of `specs`. -/
def builtPipeline (opts : PipelineOpts) (specs : List (stageFunc V E × Nat)) : Pipeline V E :=
  { source := 0, sink := 1, cancelChan := none, errFn := some Handler.defaultErrFunc,
    stages := wiredFrom 0 2 1 specs, bufSize := opts.ChanBufSize }

/-- Closed form of the process after `New` and the `Next` calls of `specs`. -/
def builtWorld (opts : PipelineOpts) (specs : List (stageFunc V E × Nat)) : World V E :=
  { next := 2 + (specs.length - 1),
    chan := fun id =>
      { cap := if id < 2 + (specs.length - 1) then opts.ChanBufSize else 0, buf := [],
        closed := false },
    pools := specs.map fun sp => { workers := List.replicate sp.2 Worker.recv, closed := false },
    feeders := [], calls := [], received := [], sawClose := false, panicked := false }

/-! ## Calls made before emission -/

/-- One call made on a pipeline before emission. -/
inductive Setup (V E : Type) where
  | next (fn : stageFunc V E) (routineCount : Nat)
  | onError (fn : errFunc)

/-- The pipeline and process after `New(opts)` and the calls `cs`, in order. -/
def setup (opts : PipelineOpts) (cs : List (Setup V E)) : Pipeline V E × World V E :=
  cs.foldl (fun pw c =>
    match c with
    | Setup.next fn n => Next fn n pw
    | Setup.onError fn => OnError fn pw) (New opts World.init)

/-- The argument of an `OnError` call. -/
def Setup.onErrorArg : Setup V E → Option errFunc
  | Setup.onError fn => some fn
  | Setup.next _ _ => none

/-- The argument of the most recent `OnError` call among `cs`, or the package
default when there is none. -/
def lastOnError (cs : List (Setup V E)) : errFunc :=
  (cs.filterMap Setup.onErrorArg).getLast?.getD (some Handler.defaultErrFunc)

/-- The arguments of a `Next` call. -/
def Setup.nextArg : Setup V E → Option (stageFunc V E × Nat)
  | Setup.next fn n => some (fn, n)
  | Setup.onError _ => none

/-- The stage functions and worker counts registered by `cs`, in order. -/
def registered (cs : List (Setup V E)) : List (stageFunc V E × Nat) :=
  cs.filterMap Setup.nextArg

/-! ## The chain view of a running pipeline

Proof device: the same process, read along the chain source, stage 0, its
outbound queue, stage 1, ..., sink. A `Link` is a stage together with its pool
and the contents of its outbound queue; the inbound queue of a link is the
outbound queue of the link before it, or the source. -/

/-- A stage with its pool and the state of its outbound queue. -/
structure Link (V E : Type) where
  fn : stageFunc V E
  errFn : errFunc
  pool : Pool V E
  out : Chan V

/-- What a goroutine step does besides changing channels and pools: the error
callbacks it invoked and whether it panicked. -/
structure Eff (E : Type) where
  calls : List (Handler × E)
  panic : Bool

/-- The running pipeline along its chain. -/
structure Chain (V E : Type) where
  feeders : List (List (FeedOp V))
  source : Chan V
  links : List (Link V E)
  calls : List (Handler × E)
  received : List V
  sawClose : Bool
  panicked : Bool

def Link.setWorker (l : Link V E) (j : Nat) (wk : Worker V E) : Link V E :=
  { l with pool := { l.pool with workers := l.pool.workers.set j wk } }

/-- The links of `stages` with `pools`, reading queue contents from `chan`. -/
def linksOf (chan : Nat → Chan V) : List (stage V E) → List (Pool V E) → List (Link V E)
  | s :: stages, pool :: pools =>
    { fn := s.fn, errFn := s.errFn, pool := pool, out := chan s.out } :: linksOf chan stages pools
  | _, _ => []

/-- The chain view of a process running pipeline `p`. -/
def chainOf (p : Pipeline V E) (w : World V E) : Chain V E :=
  { feeders := w.feeders, source := w.chan p.source, links := linksOf w.chan p.stages w.pools,
    calls := w.calls, received := w.received, sawClose := w.sawClose, panicked := w.panicked }

/-- Run a step of one link at position `i`; the step sees the link and its inbound queue. -/
def atLink (f : Chan V → Link V E → Option (Chan V × Link V E × Eff E)) :
    Chan V → List (Link V E) → Nat → Option (Chan V × List (Link V E) × Eff E)
  | _, [], _ => none
  | inp, l :: rest, 0 => (f inp l).map fun r => (r.1, r.2.1 :: rest, r.2.2)
  | inp, l :: rest, i + 1 =>
    (atLink f l.out rest i).map fun r => (inp, { l with out := r.1 } :: r.2.1, r.2.2)

/-- Run a step of the reader of the last queue of the chain. -/
def atSink {α : Type} (g : Chan V → Option (Chan V × α)) :
    Chan V → List (Link V E) → Option (Chan V × List (Link V E) × α)
  | inp, [] => (g inp).map fun r => (r.1, [], r.2)
  | inp, l :: rest =>
    (atSink g l.out rest).map fun r => (inp, { l with out := r.1 } :: r.2.1, r.2.2)

/-- The loop body of a worker, on its link and inbound queue. -/
def workerLocal (bounded : Bool) (j : Nat) (inp : Chan V) (l : Link V E) :
    Option (Chan V × Link V E × Eff E) :=
  match l.pool.workers[j]? with
  | some Worker.recv =>
    match inp.buf with
    | v :: rest =>
      match (l.fn v).2 with
      | none => some ({ inp with buf := rest }, l.setWorker j (Worker.send (l.fn v).1),
                      { calls := [], panic := false })
      | some err => some ({ inp with buf := rest }, l.setWorker j (Worker.fail err),
                          { calls := [], panic := false })
    | [] =>
      if inp.closed then some (inp, l.setWorker j Worker.done, { calls := [], panic := false })
      else none
  | some (Worker.send res) =>
    if l.out.closed then some (inp, l.setWorker j Worker.recv, { calls := [], panic := true })
    else if bounded && decide (l.out.cap ≤ l.out.buf.length) then none
    else some (inp, { l.setWorker j Worker.recv with out := { l.out with buf := l.out.buf ++ [res] } },
               { calls := [], panic := false })
  | some (Worker.fail err) =>
    match l.errFn with
    | some f => some (inp, l.setWorker j Worker.recv, { calls := [(f, err)], panic := false })
    | none => some (inp, l, { calls := [], panic := true })
  | _ => none

/-- The closer of a link. -/
def closerLocal (inp : Chan V) (l : Link V E) : Option (Chan V × Link V E × Eff E) :=
  if l.pool.closed then none
  else if l.pool.workers.all Worker.isDone then
    if l.out.closed then
      some (inp, { l with pool := { l.pool with closed := true } }, { calls := [], panic := true })
    else
      some (inp, { l with pool := { l.pool with closed := true },
                          out := { l.out with closed := true } },
            { calls := [], panic := false })
  else none

/-- The caller's receive on the sink: the value taken, or `none` for the
end of the range loop. -/
def consumerLocal (ch : Chan V) : Option (Chan V × Option V) :=
  match ch.buf with
  | v :: rest => some ({ ch with buf := rest }, some v)
  | [] => if ch.closed then some (ch, none) else none

/-- One operation of a feeder on the source. -/
def feederLocal (bounded : Bool) (src : Chan V) :
    List (FeedOp V) → Option (Chan V × List (FeedOp V) × Bool)
  | FeedOp.wait _ :: rest => some (src, rest, false)
  | FeedOp.send v :: rest =>
    if src.closed then some (src, [], true)
    else if bounded && decide (src.cap ≤ src.buf.length) then none
    else some ({ src with buf := src.buf ++ [v] }, rest, false)
  | FeedOp.close :: rest =>
    if src.closed then some (src, rest, true)
    else some ({ src with closed := true }, rest, false)
  | [] => none

/-- The chain after a step of one of its links. -/
def Chain.afterLink (c : Chain V E) (r : Chan V × List (Link V E) × Eff E) : Chain V E :=
  { c with source := r.1, links := r.2.1, calls := c.calls ++ r.2.2.calls,
           panicked := r.2.2.panic }

/-- One move of one goroutine, on the chain. -/
def Chain.move (bounded : Bool) (c : Chain V E) : Actor → Option (Chain V E)
  | Actor.feeder k =>
    if c.panicked then none
    else
      match c.feeders[k]? with
      | some script =>
        (feederLocal bounded c.source script).map fun r =>
          { c with feeders := c.feeders.set k r.2.1, source := r.1, panicked := r.2.2 }
      | none => none
  | Actor.worker i j =>
    if c.panicked then none
    else
      (atLink (workerLocal bounded j) c.source c.links i).map c.afterLink
  | Actor.closer i =>
    if c.panicked then none
    else
      (atLink closerLocal c.source c.links i).map c.afterLink
  | Actor.consumer =>
    if c.panicked then none
    else if c.sawClose then none
    else
      (atSink consumerLocal c.source c.links).map fun r =>
        match r.2.2 with
        | some v => { c with source := r.1, links := r.2.1, received := c.received ++ [v] }
        | none => { c with source := r.1, links := r.2.1, sawClose := true }

/-- The queue at a position of the chain: 0 is the source, `i + 1` the
outbound queue of link `i`. -/
def Chain.queue (c : Chain V E) : Nat → Option (Chan V)
  | 0 => some c.source
  | i + 1 => c.links[i]?.map fun l => l.out

/-- Position of the queue a goroutine is about to send on. -/
def Chain.sendTarget (c : Chain V E) : Actor → Option Nat
  | Actor.feeder k =>
    match c.feeders[k]? with
    | some (FeedOp.send _ :: _) => some 0
    | _ => none
  | Actor.worker i j =>
    match c.links[i]? with
    | some l =>
      match l.pool.workers[j]? with
      | some (Worker.send _) => some (i + 1)
      | _ => none
    | none => none
  | _ => none

/-- Position of the queue a goroutine is waiting to receive from. -/
def Chain.recvSource (c : Chain V E) : Actor → Option Nat
  | Actor.worker i j =>
    match c.links[i]? with
    | some l =>
      match l.pool.workers[j]? with
      | some Worker.recv => some i
      | _ => none
    | none => none
  | Actor.consumer => if c.sawClose then none else some c.links.length
  | _ => none

/-- One scheduling decision, on the chain. -/
def Chain.step (c : Chain V E) : Action → Option (Chain V E)
  | Action.solo a => c.move true a
  | Action.handoff snd rcv =>
    match c.sendTarget snd, c.recvSource rcv with
    | some a, some b =>
      match c.queue a with
      | some ch =>
        if a = b ∧ ch.buf.isEmpty = true ∧ ch.closed = false then
          (c.move false snd).bind fun c1 => c1.move true rcv
        else none
      | none => none
    | _, _ => none

/-- Each stage reads the queue the stage before it writes; the first reads `src`. -/
def Linked : Nat → List (stage V E) → Prop
  | _, [] => True
  | src, s :: rest => s.inp = src ∧ Linked s.out rest

/-- The wiring `Next` establishes: an unbroken chain from source to sink over
pairwise distinct queues, with at least one stage. -/
structure Wired (p : Pipeline V E) : Prop where
  linked : Linked p.source p.stages
  nodup : (p.source :: p.stages.map fun s => s.out).Nodup
  last : p.stages.getLast?.map (fun s => s.out) = some p.sink

/-- The queue at a position of the chain of `p`: 0 is the source, `i + 1` the
outbound queue of stage `i`. -/
def chainId (p : Pipeline V E) (i : Nat) : Option Nat :=
  (p.source :: p.stages.map fun s => s.out)[i]?

/-- Follow a schedule on the chain. -/
def Chain.run : Chain V E → List Action → Option (Chain V E)
  | c, [] => some c
  | c, a :: rest => (c.step a).bind fun c1 => c1.run rest

/-! ## The ledger of a running pipeline

Every emitted value has one fate: the result of the last stage, or the error
of the first stage that fails on it. The ledger lists the fates of all values,
from those already settled to those still in the feeder. -/

/-- The fate of a value that still has to pass the stages `fns`. -/
def through : List (stageFunc V E) → V → Except E V
  | [], v => Except.ok v
  | f :: fs, v =>
    match (f v).2 with
    | some err => Except.error err
    | none => through fs (f v).1

/-- The composition of the stage functions in registration order, for
functions that do not fail. -/
def compose (fns : List (stageFunc V E)) (v : V) : V :=
  fns.foldl (fun x f => (f x).1) v

/-- The stage functions of a chain, in order. -/
def fnsOf (links : List (Link V E)) : List (stageFunc V E) :=
  links.map fun l => l.fn

/-- The fate of what a worker holds, `fns` being the stages after it. -/
def Worker.pending (fns : List (stageFunc V E)) : Worker V E → List (Except E V)
  | Worker.send res => [through fns res]
  | Worker.fail err => [Except.error err]
  | _ => []

/-- The fates of the values in the queues and workers of a chain, downstream first. -/
def pendLinks : Chan V → List (Link V E) → List (Except E V)
  | inp, [] => inp.buf.map Except.ok
  | inp, l :: rest =>
    pendLinks l.out rest ++ l.pool.workers.flatMap (Worker.pending (fnsOf rest)) ++
      inp.buf.map (through (l.fn :: fnsOf rest))

/-- The fate of the value a feeder operation will send. -/
def FeedOp.pending (fns : List (stageFunc V E)) : FeedOp V → List (Except E V)
  | FeedOp.send v => [through fns v]
  | _ => []

/-- The ledger: errors handed to the callback, values received by the
caller, values in flight, values not yet sent. -/
def Chain.ledger (c : Chain V E) : List (Except E V) :=
  c.calls.map (fun x => Except.error x.2) ++ c.received.map Except.ok ++
    pendLinks c.source c.links ++
    c.feeders.flatMap fun script => script.flatMap (FeedOp.pending (fnsOf c.links))

/-- Two ledgers agree: as multisets, and when `exact` also in order. -/
def Rel {α : Type} (exact : Bool) (x y : List α) : Prop :=
  (exact = true → x = y) ∧ x.Perm y

/-- A link that keeps order: at most one worker, a function that never fails,
no worker about to report an error. -/
def Link.Lane (l : Link V E) : Prop :=
  l.pool.workers.length ≤ 1 ∧ (∀ v, (l.fn v).2 = none) ∧
    ∀ wk ∈ l.pool.workers, ∀ err, wk ≠ Worker.fail err

/-- A chain that keeps order: one feeder at most, every link a lane. -/
def Chain.Lane (c : Chain V E) : Prop :=
  c.feeders.length ≤ 1 ∧ ∀ l ∈ c.links, l.Lane

/-! ## The closing discipline -/

/-- A queue that is closed and drained. -/
def Chan.finished (ch : Chan V) : Prop :=
  ch.closed = true ∧ ch.buf = []

/-- The state of a link is consistent with its inbound queue `inp`: its
outbound queue is closed exactly when its closer has run, the closer runs only
after every worker has left its loop, a worker leaves its loop only when the
inbound queue is closed and drained; the link has an error callback and at
least one worker. -/
def Link.OK (inp : Chan V) (l : Link V E) : Prop :=
  l.out.closed = l.pool.closed ∧
  (l.pool.closed = true → ∀ wk ∈ l.pool.workers, wk.isDone = true) ∧
  ((∃ wk ∈ l.pool.workers, wk.isDone = true) → inp.finished) ∧
  l.errFn ≠ none ∧ l.pool.workers ≠ []

/-- Every link of the chain is consistent. -/
def LinksOK : Chan V → List (Link V E) → Prop
  | _, [] => True
  | inp, l :: rest => l.OK inp ∧ LinksOK l.out rest

/-- The last queue of the chain. -/
def sinkOf : Chan V → List (Link V E) → Chan V
  | inp, [] => inp
  | _, l :: rest => sinkOf l.out rest

def FeedOp.isClose : FeedOp V → Bool
  | FeedOp.close => true
  | _ => false

/-- The script of a feeder: waits and sends, then one close; or nothing left. -/
def FeedShape : List (FeedOp V) → Prop
  | [] => True
  | [op] => op.isClose = true
  | op :: next :: rest => op.isClose = false ∧ FeedShape (next :: rest)

/-- The invariant of a pipeline fed by one emission call. -/
def Chain.OK (c : Chain V E) : Prop :=
  c.panicked = false ∧ LinksOK c.source c.links ∧
  (∃ script, c.feeders = [script] ∧ FeedShape script ∧
    (c.source.closed = true ↔ script = [])) ∧
  (c.sawClose = true → (sinkOf c.source c.links).finished)

/-! ## A bound on the number of steps -/

/-- Steps a worker can still take, counting those of the value it holds;
`m` is the number of stages after the worker's own. -/
def Worker.weight (m : Nat) : Worker V E → Nat
  | Worker.recv => 1
  | Worker.send _ => 2 * m + 3
  | Worker.fail _ => 2
  | Worker.done => 0

/-- Steps the links can still take, counting those of the values in their
outbound queues. -/
def muRest : List (Link V E) → Nat
  | [] => 0
  | l :: rest =>
    (l.pool.workers.map (Worker.weight rest.length)).sum + (if l.pool.closed then 0 else 1) +
      l.out.buf.length * (2 * rest.length + 1) + muRest rest

/-- The part of the measure a link step can change. -/
def localMu (m : Nat) (inp : Chan V) (l : Link V E) : Nat :=
  inp.buf.length * (2 * m + 3) + (l.pool.workers.map (Worker.weight m)).sum +
    (if l.pool.closed then 0 else 1) + l.out.buf.length * (2 * m + 1)

/-- Steps a feeder operation stands for, counting those of the value it sends
through `n` stages. -/
def FeedOp.weight (n : Nat) : FeedOp V → Nat
  | FeedOp.send _ => 2 * n + 2
  | _ => 1

/-- An upper bound on the number of steps the chain can still take. -/
def Chain.mu (c : Chain V E) : Nat :=
  (if c.panicked then 0 else 1) + (if c.sawClose then 0 else 1) +
    (c.feeders.map fun script => (script.map (FeedOp.weight c.links.length)).sum).sum +
    c.source.buf.length * (2 * c.links.length + 1) + muRest c.links

/-! ## Absence of deadlock -/

/-- The same goroutine, named from one link further up the chain. -/
def Actor.shift : Actor → Actor
  | Actor.worker i j => Actor.worker (i + 1) j
  | Actor.closer i => Actor.closer (i + 1)
  | a => a

def Action.shift : Action → Action
  | Action.solo a => Action.solo a.shift
  | Action.handoff snd rcv => Action.handoff snd.shift rcv.shift

/-- A goroutine other than a feeder. -/
def Actor.internal : Actor → Bool
  | Actor.feeder _ => false
  | _ => true

def Action.internal : Action → Bool
  | Action.solo a => a.internal
  | Action.handoff snd rcv => snd.internal && rcv.internal

/-- The chain `sub` with the link `l` put before it, `inp` being the new source. -/
def Chain.under (l : Link V E) (inp : Chan V) (sub : Chain V E) : Chain V E :=
  { sub with source := inp, links := { l with out := sub.source } :: sub.links }

/-- The part of a chain after its first link. -/
def Chain.tail (c : Chain V E) (l : Link V E) (rest : List (Link V E)) : Chain V E :=
  { c with source := l.out, links := rest }

/-- The goroutine `rcv` is waiting at the source of the chain and will take
whatever arrives there. -/
def Chain.Ready (c : Chain V E) (rcv : Actor) : Prop :=
  rcv.internal = true ∧ c.recvSource rcv = some 0 ∧
    ∀ c' : Chain V E, c'.links = c.links → c'.sawClose = c.sawClose → c'.panicked = false →
      c'.source.buf ≠ [] → (c'.move true rcv).isSome = true

/-! ## The process right after an emission call -/

/-- The assignment `stage.errFn = p.errFn` of `mustHaveStages`, on every stage. -/
def armed (e : errFunc) (stages : List (stage V E)) : List (stage V E) :=
  stages.map fun s => { s with errFn := e }

/-- Closed form of the pipeline and process after `New`, the `Next` calls of
`specs`, `OnError(e)` and an emission call whose feeder runs `script`. -/
def launched (opts : PipelineOpts) (e : errFunc) (specs : List (stageFunc V E × Nat))
    (script : List (FeedOp V)) : Pipeline V E × World V E :=
  ({ source := 0, sink := 1, cancelChan := none, errFn := e,
     stages := armed e (wiredFrom 0 2 1 specs), bufSize := opts.ChanBufSize },
   (builtWorld opts specs).go script)

/-- The links of a pipeline that has not yet received a value. -/
def initLinks (cap : Nat) (e : errFunc) (specs : List (stageFunc V E × Nat)) :
    List (Link V E) :=
  specs.map fun sp =>
    { fn := sp.1, errFn := e,
      pool := { workers := List.replicate sp.2 Worker.recv, closed := false },
      out := { cap := cap, buf := [], closed := false } }

/-- The chain view right after an emission call. -/
def initChain (cap : Nat) (e : errFunc) (specs : List (stageFunc V E × Nat))
    (script : List (FeedOp V)) : Chain V E :=
  { feeders := [script], source := { cap := cap, buf := [], closed := false },
    links := initLinks cap e specs, calls := [], received := [], sawClose := false,
    panicked := false }

/-- The result a fate delivers to the sink, if any. -/
def okOf : Except E V → Option V
  | Except.ok v => some v
  | Except.error _ => none

/-- The error a fate hands to the callback, if any. -/
def errOf : Except E V → Option E
  | Except.ok _ => none
  | Except.error err => some err

/-- Every link calls `e` on an error, and every call so far was made to `e`. -/
def Chain.CallsBy (e : Handler) (c : Chain V E) : Prop :=
  (∀ l ∈ c.links, l.errFn = some e) ∧ ∀ x ∈ c.calls, x.1 = e

/-- The number of workers of each stage, in stage order. -/
def poolSizes (w : World V E) : List Nat :=
  w.pools.map fun q => q.workers.length

/-- The completion barrier of one stage `s` with goroutines `pool`: the
outbound queue is closed exactly when the closer has run; the closer has run
only if every worker has left its loop; a worker has left its loop only if the
inbound queue is closed and drained; a worker about to send has an open
outbound queue. -/
def Barrier (w : World V E) (s : stage V E) (pool : Pool V E) : Prop :=
  (w.chan s.out).closed = pool.closed ∧
  (pool.closed = true → ∀ wk ∈ pool.workers, wk.isDone = true) ∧
  (∀ wk ∈ pool.workers, wk.isDone = true →
    (w.chan s.inp).closed = true ∧ (w.chan s.inp).buf = []) ∧
  (∀ res, Worker.send res ∈ pool.workers → (w.chan s.out).closed = false)

/-! ## Emission calls -/

/-- A call of one of the two emission methods, with its arguments. -/
inductive EmitCall (V : Type) where
  | emit (values : List V)
  | emitWithDelay (dur : Int) (values : List V)

/-- Make the call on a pipeline. -/
def EmitCall.apply (c : EmitCall V) (pw : Pipeline V E × World V E) :
    Except Fatal ((Pipeline V E × World V E) × Nat) :=
  match c with
  | EmitCall.emit values => Emit values pw
  | EmitCall.emitWithDelay dur values => EmitWithDelay dur values pw

/-- The feeder goroutine the call starts. -/
def EmitCall.feeder (c : EmitCall V) : List (FeedOp V) :=
  match c with
  | EmitCall.emit values => emitFeeder values
  | EmitCall.emitWithDelay dur values => delayFeeder dur values

/-- The state of the feeders of a process with respect to the queue `src` they
all send on and close: every feeder ends with one close, and as long as nothing
has panicked, no feeder has run to its end while `src` is open and at most one
feeder has run to its end. -/
def SingleUse (src : Nat) (w : World V E) : Prop :=
  (∀ f ∈ w.feeders, FeedShape f) ∧
  (w.panicked = false →
    ((w.chan src).closed = false → ∀ f ∈ w.feeders, f ≠ []) ∧
    ∀ i j : Nat, w.feeders[i]? = some [] → w.feeders[j]? = some [] → i = j)

/-- The pipeline with the error callback `e` on the pipeline and on every stage. -/
def Pipeline.rearm (e : errFunc) (p : Pipeline V E) : Pipeline V E :=
  { p with errFn := e, stages := armed e p.stages }

/-- No worker holds an error it has yet to hand to the callback. -/
def NoFail (w : World V E) : Prop :=
  ∀ pool ∈ w.pools, ∀ err, Worker.fail err ∉ pool.workers

/-- The goroutine `a` is not a worker about to call the error callback. -/
def Calm (w : World V E) (a : Actor) : Prop :=
  ∀ i j, a = Actor.worker i j → ∀ pool, w.pools[i]? = some pool →
    ∀ err, pool.workers[j]? ≠ some (Worker.fail err)

/-! ## The feeder's program and a logical clock

`time.After(dur)` arms a timer when it is evaluated and delivers on its channel
`dur` later. A feeder evaluates it after its previous operation, so the step
that completes `<-time.After(dur)` is taken no earlier than `dur` after the
feeder's previous step (after the emission call, for its first step). -/

/-- The value an operation sends on the source queue. -/
def FeedOp.sent : FeedOp V → Option V
  | FeedOp.send v => some v
  | _ => none

/-- The values a feeder sends on the source queue, in order. -/
def pushed (script : List (FeedOp V)) : List V :=
  script.filterMap FeedOp.sent

/-- The time an operation waits before it completes. -/
def FeedOp.pause : FeedOp V → Int
  | FeedOp.wait dur => dur
  | _ => 0

/-- The waits of a feeder, in order. -/
def waits (script : List (FeedOp V)) : List Int :=
  script.filterMap fun op =>
    match op with
    | FeedOp.wait dur => some dur
    | _ => none

/-- The feeder that moves in a scheduling decision, if one does. -/
def Action.feeder? : Action → Option Nat
  | Action.solo (Actor.feeder k) => some k
  | Action.handoff (Actor.feeder k) _ => some k
  | _ => none

/-- The time the next operation of feeder `k` waits. -/
def nextPause (w : World V E) (k : Nat) : Int :=
  match w.feeders[k]? with
  | some (op :: _) => op.pause
  | _ => 0

/-- A process with a clock: the time of the latest step, and for each feeder
the time of its latest step (of the emission call, before its first). -/
structure Clocked (V E : Type) where
  world : World V E
  now : Int
  last : Nat → Int

/-- The process right after an emission call, the clock at 0. -/
def Clocked.start (w : World V E) : Clocked V E :=
  { world := w, now := 0, last := fun _ => 0 }

/-- One scheduling decision taken at time `x.2`: time does not run backwards,
and a feeder completes an operation no earlier than the operation's pause
after its previous step. -/
def tick (p : Pipeline V E) (st : Clocked V E) (x : Action × Int) : Option (Clocked V E) :=
  if x.2 < st.now then none
  else
    match x.1.feeder? with
    | some k =>
      if x.2 < st.last k + nextPause st.world k then none
      else (step p st.world x.1).map fun w' =>
        { world := w', now := x.2, last := Function.update st.last k x.2 }
    | none => (step p st.world x.1).map fun w' => { st with world := w', now := x.2 }

/-- Follow a schedule with time stamps. -/
def timedRun (p : Pipeline V E) : Clocked V E → List (Action × Int) → Option (Clocked V E)
  | st, [] => some st
  | st, x :: rest => (tick p st x).bind fun st1 => timedRun p st1 rest

/-! ## Concrete pipelines used to instantiate the theorems -/

/-- A stage function that never fails. -/
def demoInc : stageFunc Nat String := fun v => (v + 1, none)

/-- A stage function that never fails. -/
def demoDouble : stageFunc Nat String := fun v => (2 * v, none)

/-- A stage function that fails on odd values. -/
def demoFailOdd : stageFunc Nat String := fun v =>
  if v % 2 = 1 then (0, some "odd") else (v, none)

/-- The stage function of `TestDumpsErrors`: fails on `nil`, here `none`. -/
def testFailNil : stageFunc (Option String) String := fun i =>
  match i with
  | none => (none, some "test")
  | some _ => (i, none)

/-- Three stages with worker counts 2, 1, 3, as in `TestEmitManyStages`. -/
def demoSpecs : List (stageFunc Nat String × Nat) :=
  [(demoInc, 2), (demoDouble, 1), (demoInc, 3)]

/-- Two single-worker stages. -/
def laneCalls : List (Setup Nat String) := [Setup.next demoInc 1, Setup.next demoDouble 1]

/-- A complete execution of `laneCalls` fed two values: the feeder, then each
stage in turn, then the caller. -/
def laneSched : List Action :=
  List.replicate 3 (Action.solo (Actor.feeder 0)) ++
    List.replicate 5 (Action.solo (Actor.worker 0 0)) ++ [Action.solo (Actor.closer 0)] ++
    List.replicate 5 (Action.solo (Actor.worker 1 0)) ++ [Action.solo (Actor.closer 1)] ++
    List.replicate 3 (Action.solo Actor.consumer)

/-- The calls registering `demoSpecs`. -/
def demoCalls : List (Setup Nat String) :=
  [Setup.next demoInc 2, Setup.next demoDouble 1, Setup.next demoInc 3]

/-- A complete execution of `demoCalls` fed two values in which the second
worker of the first stage overtakes the first. -/
def demoSched : List Action :=
  List.replicate 3 (Action.solo (Actor.feeder 0)) ++
    [Action.solo (Actor.worker 0 0), Action.solo (Actor.worker 0 1),
     Action.solo (Actor.worker 0 1), Action.solo (Actor.worker 0 0),
     Action.solo (Actor.worker 0 0), Action.solo (Actor.worker 0 1),
     Action.solo (Actor.closer 0)] ++
    List.replicate 5 (Action.solo (Actor.worker 1 0)) ++ [Action.solo (Actor.closer 1)] ++
    List.replicate 5 (Action.solo (Actor.worker 2 0)) ++
    [Action.solo (Actor.worker 2 1), Action.solo (Actor.worker 2 2),
     Action.solo (Actor.closer 2)] ++
    List.replicate 3 (Action.solo Actor.consumer)

/-- The calls of `TestDumpsErrors`. -/
def dumpCalls : List (Setup (Option String) String) :=
  [Setup.onError (some (Handler.callback 0)), Setup.next testFailNil 1]

/-- A complete execution of `TestDumpsErrors`. -/
def dumpSched : List Action :=
  List.replicate 4 (Action.solo (Actor.feeder 0)) ++
    List.replicate 7 (Action.solo (Actor.worker 0 0)) ++ [Action.solo (Actor.closer 0)] ++
    List.replicate 3 (Action.solo Actor.consumer)

/-- A complete execution of `laneCalls` fed two values with a delay: the
feeder waits before each send. -/
def delaySched : List Action :=
  List.replicate 5 (Action.solo (Actor.feeder 0)) ++
    List.replicate 5 (Action.solo (Actor.worker 0 0)) ++ [Action.solo (Actor.closer 0)] ++
    List.replicate 5 (Action.solo (Actor.worker 1 0)) ++ [Action.solo (Actor.closer 1)] ++
    List.replicate 3 (Action.solo Actor.consumer)

/-- The execution `delaySched` with time stamps in milliseconds: the feeder
completes its waits at 250 and 500. -/
def delayTimed : List (Action × Int) :=
  delaySched.zip ([250, 250, 500, 500, 500] ++ List.replicate 15 500)

/-- An execution of `OnError(nil)`, `Next(fn, 1)`, `Emit("one", "two", nil)`:
the feeder sends the three values and closes the source, the worker forwards
the first two, the caller receives them, and the worker takes the third, on
which the stage fails, and calls the callback. -/
def nilSched : List Action :=
  List.replicate 4 (Action.solo (Actor.feeder 0)) ++
    List.replicate 4 (Action.solo (Actor.worker 0 0)) ++
    List.replicate 2 (Action.solo Actor.consumer) ++
    List.replicate 2 (Action.solo (Actor.worker 0 0))

/-! ## The wiring built by `New` and `Next` -/

theorem wiredFrom_length (inp join sink : Nat) (specs : List (stageFunc V E × Nat)) :
    (wiredFrom inp join sink specs).length = specs.length := by
  induction specs generalizing inp join with
  | nil => rfl
  | cons sp rest ih =>
    cases rest with
    | nil => rfl
    | cons sq rest => simp only [wiredFrom, List.length_cons, ih]

theorem wiredFrom_snoc (inp join sink : Nat) (specs : List (stageFunc V E × Nat))
    (sp : stageFunc V E × Nat) (h : specs ≠ []) :
    wiredFrom inp join sink (specs ++ [sp]) =
      setLastOut (wiredFrom inp join sink specs) (join + (specs.length - 1)) ++
        [{ workerCount := sp.2, cancelOnError := false, fn := sp.1, errFn := none,
           inp := join + (specs.length - 1), out := sink }] := by
  induction specs generalizing inp join with
  | nil => exact absurd rfl h
  | cons sq rest ih =>
    cases rest with
    | nil => simp [wiredFrom, setLastOut]
    | cons sr rest =>
      have := ih join (join + 1) (by simp)
      simp only [List.cons_append, wiredFrom, List.length_cons, List.append_eq] at this ⊢
      rw [this]
      have e : join + 1 + (rest.length + 1 - 1) = join + (rest.length + 1 + 1 - 1) := by omega
      rw [e]
      cases hw : wiredFrom join (join + 1) sink (sr :: rest) with
      | nil =>
        have := congrArg List.length hw
        rw [wiredFrom_length] at this
        simp at this
      | cons a b => simp [setLastOut]

theorem build_snoc (opts : PipelineOpts) (specs : List (stageFunc V E × Nat))
    (sp : stageFunc V E × Nat) :
    build opts (specs ++ [sp]) = Next sp.1 sp.2 (build opts specs) := by
  simp [build, List.foldl_append]

theorem build_eq (opts : PipelineOpts) (specs : List (stageFunc V E × Nat)) :
    build opts specs = (builtPipeline opts specs, builtWorld opts specs) := by
  induction specs using List.reverseRecOn with
  | nil =>
    simp only [build, List.foldl_nil, New, World.make, World.init, builtPipeline, builtWorld,
      wiredFrom, List.length_nil, List.map_nil]
    refine Prod.ext rfl ?_
    simp only [World.mk.injEq, and_true, true_and]
    funext id
    by_cases h1 : id = 1
    · subst h1; simp
    · by_cases h0 : id = 0
      · subst h0; simp
      · have : ¬ id < 2 := by omega
        simp [Function.update, h1, h0, this]
  | append_singleton specs sp ih =>
    rw [build_snoc, ih]
    cases specs with
    | nil =>
      simp [Next, builtPipeline, builtWorld, wiredFrom, stage.Run]
    | cons sq rest =>
      have hl : (wiredFrom (V := V) (E := E) 0 2 1 (sq :: rest)).length ≠ 0 := by
        simp [wiredFrom_length]
      simp only [Next, builtPipeline, hl, if_false]
      rw [wiredFrom_snoc 0 2 1 (sq :: rest) sp (by simp)]
      simp only [builtWorld, World.make, stage.Run, List.length_cons, List.length_append,
        List.length_nil, List.map_append, List.map_cons, List.map_nil]
      refine Prod.ext ?_ ?_
      · simp
      · simp only [World.mk.injEq, and_true, true_and]
        refine ⟨by omega, ?_⟩
        funext id
        by_cases h : id = 2 + (rest.length + 1 - 1)
        · subst h; simp
        · rw [Function.update_noteq h]
          simp only [Chan.mk.injEq, and_true]
          split <;> split <;> first | rfl | omega

theorem wiredFrom_specs (inp join sink : Nat) (specs : List (stageFunc V E × Nat)) :
    (wiredFrom inp join sink specs).map (fun s => (s.fn, s.workerCount)) = specs := by
  induction specs generalizing inp join with
  | nil => rfl
  | cons sp rest ih =>
    cases rest with
    | nil => rfl
    | cons sq rest => simp only [wiredFrom, List.map_cons, ih]

theorem wiredFrom_head (inp join sink : Nat) (specs : List (stageFunc V E × Nat)) :
    (wiredFrom inp join sink specs).head?.map (fun s => s.inp) = specs.head?.map fun _ => inp := by
  cases specs with
  | nil => rfl
  | cons sp rest => cases rest <;> rfl

theorem wiredFrom_last (inp join sink : Nat) (specs : List (stageFunc V E × Nat)) :
    (wiredFrom inp join sink specs).getLast?.map (fun s => s.out) =
      specs.getLast?.map fun _ => sink := by
  induction specs generalizing inp join with
  | nil => rfl
  | cons sp rest ih =>
    cases rest with
    | nil => rfl
    | cons sq rest =>
      have h := ih join (join + 1)
      cases hw : wiredFrom join (join + 1) sink (sq :: rest) with
      | nil =>
        have := congrArg List.length hw
        rw [wiredFrom_length] at this
        simp at this
      | cons a b =>
        rw [hw] at h
        simp only [wiredFrom, hw, List.getLast?_cons_cons]
        rw [h]

theorem wiredFrom_tail_inp (inp join sink : Nat) (specs : List (stageFunc V E × Nat)) :
    (wiredFrom inp join sink specs).tail.map (fun s => s.inp) =
      List.range' join (specs.length - 1) := by
  induction specs generalizing inp join with
  | nil => rfl
  | cons sp rest ih =>
    cases rest with
    | nil => rfl
    | cons sq rest =>
      have h := ih join (join + 1)
      simp only [wiredFrom, List.tail_cons, List.length_cons, Nat.add_sub_cancel] at h ⊢
      cases rest with
      | nil => simp [wiredFrom, List.range']
      | cons sr rest =>
        simp only [wiredFrom, List.tail_cons, List.map_cons, List.length_cons,
          Nat.add_sub_cancel] at h ⊢
        rw [h]
        simp [List.range']

theorem wiredFrom_link (inp join sink : Nat) (specs : List (stageFunc V E × Nat))
    (i : Nat) (s t : stage V E) (hs : (wiredFrom inp join sink specs)[i]? = some s)
    (ht : (wiredFrom inp join sink specs)[i + 1]? = some t) : s.out = t.inp := by
  induction specs generalizing inp join i with
  | nil => simp [wiredFrom] at hs
  | cons sp rest ih =>
    cases rest with
    | nil => simp [wiredFrom] at ht
    | cons sq rest =>
      simp only [wiredFrom] at hs ht
      cases i with
      | zero =>
        simp only [List.getElem?_cons_zero, Option.some.injEq, List.getElem?_cons_succ,
          Nat.zero_add] at hs ht
        subst hs
        have h := wiredFrom_head join (join + 1) sink (sq :: rest)
        rw [List.head?_eq_getElem?, ht] at h
        simpa using h.symm
      | succ i =>
        simp only [List.getElem?_cons_succ] at hs ht
        exact ih join (join + 1) i hs ht

/-! ## Claim C8: the chain built by `Next` -/

theorem setLastOut_eq (l : List (stage V E)) (last : stage V E) (join : Nat)
    (h : l.getLast? = some last) :
    setLastOut l join = l.dropLast ++ [{ last with out := join }] := by
  induction l with
  | nil => simp at h
  | cons a rest ih =>
    cases rest with
    | nil =>
      simp only [List.getLast?_singleton, Option.some.injEq] at h
      subst h
      rfl
    | cons b rest =>
      rw [List.getLast?_cons_cons] at h
      simp only [setLastOut, List.dropLast_cons₂, List.cons_append, ih h]

theorem wiredFrom_ids (inp join sink : Nat) (specs : List (stageFunc V E × Nat))
    (s : stage V E) (hs : s ∈ wiredFrom inp join sink specs) :
    (s.inp = inp ∨ (join ≤ s.inp ∧ s.inp < join + (specs.length - 1))) ∧
      (s.out = sink ∨ (join ≤ s.out ∧ s.out < join + (specs.length - 1))) := by
  induction specs generalizing inp join with
  | nil => simp [wiredFrom] at hs
  | cons sp rest ih =>
    cases rest with
    | nil =>
      simp only [wiredFrom, List.mem_singleton] at hs
      subst hs
      simp
    | cons sq rest =>
      simp only [wiredFrom, List.mem_cons] at hs
      rcases hs with rfl | hs
      · simp
      · have h := ih join (join + 1) (by simpa [wiredFrom] using hs)
        simp only [List.length_cons, Nat.add_sub_cancel] at h ⊢
        rcases h with ⟨h1 | h1, h2 | h2⟩ <;> constructor <;> omega

/-- C8. After `New` and n ≥ 1 `Next` calls the stage list has length n in
registration order, the first stage reads the source, every stage's outbound
queue is the next stage's inbound queue, the last stage writes the sink, the
n-1 join queues are pairwise distinct and distinct from source and sink and
have the configured capacity; a further `Next` call allocates a channel that
did not exist, rewrites only the `out` field of the previously last stage and
appends the new stage. -/
theorem next_chain_unbroken (opts : PipelineOpts) (specs : List (stageFunc V E × Nat))
    (hne : specs ≠ []) :
    ∃ p w, build opts specs = (p, w) ∧
      p.stages.length = specs.length ∧
      p.stages.map (fun s => (s.fn, s.workerCount)) = specs ∧
      p.stages.head?.map (fun s => s.inp) = some p.source ∧
      (∀ i s t, p.stages[i]? = some s → p.stages[i + 1]? = some t → s.out = t.inp) ∧
      p.stages.getLast?.map (fun s => s.out) = some p.sink ∧
      (p.source :: p.sink :: p.stages.tail.map fun s => s.inp).Nodup ∧
      (p.stages.tail.map fun s => s.inp).length = specs.length - 1 ∧
      p.bufSize = opts.ChanBufSize ∧
      (w.chan p.source).cap = opts.ChanBufSize ∧ (w.chan p.sink).cap = opts.ChanBufSize ∧
      (∀ s ∈ p.stages.tail, s.inp < w.next ∧ (w.chan s.inp).cap = p.bufSize) ∧
      ∀ fn n, ∃ last, p.stages.getLast? = some last ∧
        (∀ s ∈ p.stages, s.inp ≠ w.next ∧ s.out ≠ w.next) ∧
        (Next fn n (p, w)).1.stages =
          p.stages.dropLast ++
            [{ last with out := w.next },
             { workerCount := n, cancelOnError := false, fn := fn, errFn := none,
               inp := w.next, out := p.sink }] := by
  refine ⟨builtPipeline opts specs, builtWorld opts specs, build_eq opts specs, ?_⟩
  have hlen : 1 ≤ specs.length := by
    cases specs with
    | nil => exact absurd rfl hne
    | cons a b => simp
  obtain ⟨sp0, rest0, rfl⟩ := List.exists_cons_of_ne_nil hne
  have hti := wiredFrom_tail_inp (V := V) (E := E) 0 2 1 (sp0 :: rest0)
  refine ⟨wiredFrom_length _ _ _ _, wiredFrom_specs _ _ _ _, ?_, ?_, ?_, ?_, ?_, rfl, ?_, ?_, ?_, ?_⟩
  · simp [builtPipeline, wiredFrom_head]
  · intro i s t hs ht
    exact wiredFrom_link 0 2 1 _ i s t hs ht
  · simp only [builtPipeline, wiredFrom_last]
    cases h : (sp0 :: rest0).getLast? with
    | none => simp at h
    | some x => rfl
  · simp only [builtPipeline, hti]
    simp only [List.nodup_cons, List.mem_cons, List.mem_range', List.nodup_range', and_true]
    refine ⟨?_, ?_, ?_⟩
    · rintro (h | ⟨i, _, h⟩) <;> omega
    · rintro ⟨i, _, h⟩
      omega
    · exact List.nodup_range' _ _
  · simp [builtPipeline, hti]
  · simp [builtPipeline, builtWorld]
  · simp only [builtPipeline, builtWorld, List.length_cons]
    rw [if_pos (by omega)]
  · intro s hs
    have hm : s.inp ∈ (wiredFrom (V := V) (E := E) 0 2 1 (sp0 :: rest0)).tail.map fun s => s.inp :=
      List.mem_map_of_mem _ hs
    rw [hti, List.mem_range'] at hm
    obtain ⟨i, hi, he⟩ := hm
    have : s.inp < 2 + ((sp0 :: rest0).length - 1) := by omega
    simp only [builtPipeline, builtWorld]
    rw [if_pos this]
    exact ⟨this, rfl⟩
  · intro fn n
    have hl := wiredFrom_last (V := V) (E := E) 0 2 1 (sp0 :: rest0)
    cases hg : (wiredFrom (V := V) (E := E) 0 2 1 (sp0 :: rest0)).getLast? with
    | none =>
      have := congrArg List.length (List.getLast?_eq_none_iff.mp hg)
      rw [wiredFrom_length] at this
      simp at this
    | some last =>
      refine ⟨last, hg, ?_, ?_⟩
      · intro s hs
        have h := wiredFrom_ids 0 2 1 _ s hs
        simp only [builtWorld]
        rcases h with ⟨h1 | h1, h2 | h2⟩ <;> constructor <;> omega
      · have hb := build_snoc opts (sp0 :: rest0) (fn, n)
        rw [build_eq, build_eq] at hb
        have hb1 : wiredFrom 0 2 1 (sp0 :: rest0 ++ [(fn, n)]) =
            (Next fn n (builtPipeline opts (sp0 :: rest0), builtWorld opts (sp0 :: rest0))).1.stages :=
          congrArg (fun x => x.1.stages) hb
        rw [← hb1, wiredFrom_snoc 0 2 1 _ _ hne, setLastOut_eq _ last _ hg]
        simp [builtWorld, builtPipeline]

/-! ## Claims C4 and C6: `mustHaveStages` -/

theorem Next_errFn (fn : stageFunc V E) (n : Nat) (pw : Pipeline V E × World V E) :
    (Next fn n pw).1.errFn = pw.1.errFn := by
  unfold Next
  split <;> rfl

theorem setup_errFn (opts : PipelineOpts) (cs : List (Setup V E)) :
    (setup opts cs).1.errFn = lastOnError cs := by
  induction cs using List.reverseRecOn with
  | nil => rfl
  | append_singleton cs c ih =>
    have hs : setup opts (cs ++ [c]) =
        (match c with
          | Setup.next fn n => Next fn n (setup opts cs)
          | Setup.onError fn => OnError fn (setup opts cs)) := by
      simp [setup, List.foldl_append]
    rw [hs]
    cases c with
    | next fn n =>
      simp only [Next_errFn, ih, lastOnError, List.filterMap_append, List.filterMap_cons,
        Setup.onErrorArg, List.filterMap_nil, List.append_nil]
    | onError fn =>
      simp [OnError, lastOnError, List.filterMap_append, Setup.onErrorArg]

theorem mustHaveStages_ok (p : Pipeline V E) (h : p.stages ≠ []) :
    mustHaveStages p =
      Except.ok { p with stages := p.stages.map fun s => { s with errFn := p.errFn } } := by
  have : p.stages.length ≠ 0 := by
    intro h0
    exact h (List.length_eq_zero.mp h0)
  simp [mustHaveStages, this]

theorem mustHaveStages_fatal (p : Pipeline V E) (h : p.stages = []) :
    mustHaveStages p = Except.error Fatal.noStages := by
  simp [mustHaveStages, h]

/-- C4. `mustHaveStages`, `Emit` and `EmitWithDelay` end in the fatal exit
exactly when the pipeline has no stage; the fatal result carries no process
and no sink (no feeder was started, nothing is returned), and with at least one
stage `mustHaveStages` returns. -/
theorem fatal_on_empty (p : Pipeline V E) (w : World V E) (values : List V) (dur : Int) :
    (mustHaveStages p = Except.error Fatal.noStages ↔ p.stages = []) ∧
    (Emit values (p, w) = Except.error Fatal.noStages ↔ p.stages = []) ∧
    (EmitWithDelay dur values (p, w) = Except.error Fatal.noStages ↔ p.stages = []) ∧
    ((∃ p', mustHaveStages p = Except.ok p') ↔ p.stages ≠ []) ∧
    ((∃ r, Emit values (p, w) = Except.ok r) ↔ p.stages ≠ []) ∧
    ((∃ r, EmitWithDelay dur values (p, w) = Except.ok r) ↔ p.stages ≠ []) := by
  by_cases h : p.stages = []
  · simp [Emit, EmitWithDelay, mustHaveStages_fatal p h, h]
  · simp [Emit, EmitWithDelay, mustHaveStages_ok p h, h]

/-- C6. On a pipeline with at least one stage, `mustHaveStages` (so `Emit` and
`EmitWithDelay`, which start their feeder only after it) sets the error
callback of every registered stage to the pipeline's current callback (`nil`
when that is what `OnError` was given) and changes no other field of a stage
or of the pipeline; and after `New` and any sequence of `Next` and `OnError`
calls, in any order, the pipeline's current callback is the argument of the
most recent `OnError`, or the default. -/
theorem emit_propagates_error_callback (p : Pipeline V E) (w : World V E) (values : List V)
    (dur : Int) (hne : p.stages ≠ []) :
    ∃ p', mustHaveStages p = Except.ok p' ∧
      Emit values (p, w) = Except.ok ((p', w.go (emitFeeder values)), p.sink) ∧
      EmitWithDelay dur values (p, w) =
        Except.ok ((p', w.go (delayFeeder dur values)), p.sink) ∧
      (∀ s ∈ p'.stages, s.errFn = p.errFn) ∧
      p'.stages.length = p.stages.length ∧
      (∀ (i : Nat) (s s' : stage V E), p.stages[i]? = some s → p'.stages[i]? = some s' →
        s'.workerCount = s.workerCount ∧ s'.cancelOnError = s.cancelOnError ∧
        s'.fn = s.fn ∧ s'.inp = s.inp ∧ s'.out = s.out) ∧
      p'.source = p.source ∧ p'.sink = p.sink ∧ p'.cancelChan = p.cancelChan ∧
      p'.errFn = p.errFn ∧ p'.bufSize = p.bufSize ∧
      ∀ (opts : PipelineOpts) (cs : List (Setup V E)),
        (setup opts cs).1.errFn = lastOnError cs := by
  refine ⟨_, mustHaveStages_ok p hne, ?_, ?_, ?_, ?_, ?_, rfl, rfl, rfl, rfl, rfl, setup_errFn⟩
  · simp [Emit, mustHaveStages_ok p hne]
  · simp [EmitWithDelay, mustHaveStages_ok p hne]
  · intro s hs
    simp only [List.mem_map] at hs
    obtain ⟨a, _, rfl⟩ := hs
    rfl
  · simp
  · intro i s s' hs hs'
    rw [List.getElem?_map, hs] at hs'
    simp only [Option.map_some', Option.some.injEq] at hs'
    subst hs'
    exact ⟨rfl, rfl, rfl, rfl, rfl⟩

/-! ## The chain view simulates the process -/

theorem linksOf_congr (chan chan' : Nat → Chan V) (stages : List (stage V E))
    (pools : List (Pool V E)) (h : ∀ s ∈ stages, chan' s.out = chan s.out) :
    linksOf chan' stages pools = linksOf chan stages pools := by
  induction stages generalizing pools with
  | nil => rfl
  | cons s rest ih =>
    cases pools with
    | nil => rfl
    | cons pool pools =>
      simp only [linksOf]
      rw [h s (List.mem_cons_self _ _), ih pools fun t ht => h t (List.mem_cons_of_mem _ ht)]

theorem linksOf_getElem? (chan : Nat → Chan V) (stages : List (stage V E))
    (pools : List (Pool V E)) (i : Nat) :
    (linksOf chan stages pools)[i]? =
      match stages[i]?, pools[i]? with
      | some s, some pool => some { fn := s.fn, errFn := s.errFn, pool := pool, out := chan s.out }
      | _, _ => none := by
  induction stages generalizing pools i with
  | nil => simp [linksOf]
  | cons s rest ih =>
    cases pools with
    | nil =>
      simp only [linksOf, List.getElem?_nil]
      split <;> simp_all
    | cons pool pools =>
      cases i with
      | zero => simp [linksOf]
      | succ i => simp only [linksOf, List.getElem?_cons_succ, ih]

theorem atLink_none (f : Chan V → Link V E → Option (Chan V × Link V E × Eff E))
    (inp : Chan V) (links : List (Link V E)) (i : Nat) (h : links[i]? = none) :
    atLink f inp links i = none := by
  induction links generalizing inp i with
  | nil => rfl
  | cons l rest ih =>
    cases i with
    | zero => simp at h
    | succ i =>
      simp only [List.getElem?_cons_succ] at h
      simp [atLink, ih l.out i h]

theorem Linked.inp_mem {src : Nat} {stages : List (stage V E)} (h : Linked src stages)
    {s : stage V E} (hs : s ∈ stages) : s.inp = src ∨ s.inp ∈ stages.map fun t => t.out := by
  induction stages generalizing src with
  | nil => simp at hs
  | cons a rest ih =>
    rcases List.mem_cons.mp hs with rfl | hs
    · exact Or.inl h.1
    · rcases ih h.2 hs with h1 | h1
      · right
        simp [h1]
      · right
        simp only [List.map_cons, List.mem_cons]
        exact Or.inr h1

theorem atLink_linksOf (f : Chan V → Link V E → Option (Chan V × Link V E × Eff E))
    (chan chan' : Nat → Chan V) (src : Nat) (stages : List (stage V E))
    (pools : List (Pool V E)) (i : Nat) (s : stage V E) (pool : Pool V E)
    (inp' : Chan V) (l' : Link V E) (eff : Eff E)
    (hl : Linked src stages) (hnd : (src :: stages.map fun t => t.out).Nodup)
    (hs : stages[i]? = some s) (hp : pools[i]? = some pool)
    (hf : f (chan s.inp) { fn := s.fn, errFn := s.errFn, pool := pool, out := chan s.out } =
      some (inp', l', eff))
    (hfn : l'.fn = s.fn) (he : l'.errFn = s.errFn)
    (h1 : chan' s.inp = inp') (h2 : chan' s.out = l'.out)
    (h3 : ∀ id, id ≠ s.inp → id ≠ s.out → chan' id = chan id) :
    atLink f (chan src) (linksOf chan stages pools) i =
      some (chan' src, linksOf chan' stages (pools.set i l'.pool), eff) := by
  induction stages generalizing src pools i with
  | nil => simp at hs
  | cons a rest ih =>
    cases pools with
    | nil => simp at hp
    | cons q pools =>
      simp only [List.map_cons, List.nodup_cons, List.mem_cons, not_or] at hnd
      obtain ⟨⟨hsa, hsr⟩, har, hrr⟩ := hnd
      cases i with
      | zero =>
        simp only [List.getElem?_cons_zero, Option.some.injEq] at hs hp
        subst hs hp
        have hin : a.inp = src := hl.1
        simp only [linksOf, atLink, List.set_cons_zero]
        rw [← hin, hf]
        simp only [Option.map_some', Option.some.injEq, Prod.mk.injEq, List.cons.injEq, and_true]
        refine ⟨h1.symm, ⟨?_, ?_⟩⟩
        · cases l'
          simp_all
        · symm
          apply linksOf_congr
          intro t ht
          have hto : t.out ∈ rest.map fun t => t.out := List.mem_map_of_mem _ ht
          apply h3
          · rw [hin]
            intro e
            exact hsr (e ▸ hto)
          · intro e
            exact har (e ▸ hto)
      | succ i =>
        simp only [List.getElem?_cons_succ] at hs hp
        have hsm : s ∈ rest := List.getElem?_mem hs
        have hso : s.out ∈ rest.map fun t => t.out := List.mem_map_of_mem _ hsm
        have hnd' : (a.out :: rest.map fun t => t.out).Nodup := List.nodup_cons.mpr ⟨har, hrr⟩
        have := ih a.out pools i hl.2 hnd' hs hp
        simp only [linksOf, atLink, List.set_cons_succ, this, Option.map_some']
        have hsrc : chan' src = chan src := by
          apply h3
          · rcases hl.2.inp_mem hsm with e | e
            · rw [e]
              exact hsa
            · intro e'
              exact hsr (e' ▸ e)
          · intro e
            exact hsr (e ▸ hso)
        rw [hsrc]

theorem Linked.inp_ne_out {src : Nat} {stages : List (stage V E)} (hl : Linked src stages)
    (hnd : (src :: stages.map fun t => t.out).Nodup) {i : Nat} {s : stage V E}
    (hs : stages[i]? = some s) : s.inp ≠ s.out := by
  induction stages generalizing src i with
  | nil => simp at hs
  | cons a rest ih =>
    simp only [List.map_cons, List.nodup_cons, List.mem_cons, not_or] at hnd
    obtain ⟨⟨hsa, hsr⟩, har, hrr⟩ := hnd
    cases i with
    | zero =>
      simp only [List.getElem?_cons_zero, Option.some.injEq] at hs
      subst hs
      rw [hl.1]
      exact hsa
    | succ i =>
      simp only [List.getElem?_cons_succ] at hs
      exact ih hl.2 (List.nodup_cons.mpr ⟨har, hrr⟩) hs

theorem Wired.source_not_out {p : Pipeline V E} (hw : Wired p) {s : stage V E}
    (hs : s ∈ p.stages) : s.out ≠ p.source := by
  intro e
  have := (List.nodup_cons.mp hw.nodup).1
  exact this (e ▸ List.mem_map_of_mem (fun t => t.out) hs)

theorem sim_link (f : Chan V → Link V E → Option (Chan V × Link V E × Eff E))
    (p : Pipeline V E) (w w' : World V E) (i : Nat) (s : stage V E) (pool : Pool V E)
    (inp' : Chan V) (l' : Link V E) (eff : Eff E) (hw : Wired p)
    (hs : p.stages[i]? = some s) (hp : w.pools[i]? = some pool)
    (hf : f (w.chan s.inp) { fn := s.fn, errFn := s.errFn, pool := pool, out := w.chan s.out } =
      some (inp', l', eff))
    (hfn : l'.fn = s.fn) (he : l'.errFn = s.errFn)
    (h1 : w'.chan s.inp = inp') (h2 : w'.chan s.out = l'.out)
    (h3 : ∀ id, id ≠ s.inp → id ≠ s.out → w'.chan id = w.chan id)
    (hpools : w'.pools = w.pools.set i l'.pool) :
    atLink f (chainOf p w).source (chainOf p w).links i =
      some ((chainOf p w').source, (chainOf p w').links, eff) := by
  simp only [chainOf, hpools]
  exact atLink_linksOf f w.chan w'.chan p.source p.stages w.pools i s pool inp' l' eff
    hw.linked hw.nodup hs hp hf hfn he h1 h2 h3

theorem set_getElem?_same {α : Type} (l : List α) (i : Nat) (a : α) (h : l[i]? = some a) :
    l.set i a = l := by
  induction l generalizing i with
  | nil => rfl
  | cons b rest ih =>
    cases i with
    | zero =>
      simp only [List.getElem?_cons_zero, Option.some.injEq] at h
      simp [h]
    | succ i =>
      simp only [List.getElem?_cons_succ] at h
      simp [ih i h]

theorem World.setWorker_pools (w : World V E) (i j : Nat) (wk : Worker V E) (pool : Pool V E)
    (hp : w.pools[i]? = some pool) :
    w.setWorker i j wk =
      { w with pools := w.pools.set i { pool with workers := pool.workers.set j wk } } := by
  simp [World.setWorker, hp]

theorem atLink_linksOf_none (f : Chan V → Link V E → Option (Chan V × Link V E × Eff E))
    (chan : Nat → Chan V) (src : Nat) (stages : List (stage V E))
    (pools : List (Pool V E)) (i : Nat) (s : stage V E) (pool : Pool V E)
    (hl : Linked src stages) (hs : stages[i]? = some s) (hp : pools[i]? = some pool)
    (hf : f (chan s.inp) { fn := s.fn, errFn := s.errFn, pool := pool, out := chan s.out } =
      none) :
    atLink f (chan src) (linksOf chan stages pools) i = none := by
  induction stages generalizing src pools i with
  | nil => simp at hs
  | cons a rest ih =>
    cases pools with
    | nil => simp at hp
    | cons q pools =>
      cases i with
      | zero =>
        simp only [List.getElem?_cons_zero, Option.some.injEq] at hs hp
        subst hs hp
        simp only [linksOf, atLink]
        rw [← hl.1, hf]
        rfl
      | succ i =>
        simp only [List.getElem?_cons_succ] at hs hp
        simp only [linksOf, atLink, ih a.out pools i hl.2 hs hp, Option.map_none']

theorem sim_link_none (f : Chan V → Link V E → Option (Chan V × Link V E × Eff E))
    {α : Type} (g : Chan V × List (Link V E) × Eff E → α)
    (p : Pipeline V E) (w : World V E) (i : Nat) (s : stage V E) (pool : Pool V E)
    (hw : Wired p) (hs : p.stages[i]? = some s) (hp : w.pools[i]? = some pool)
    (hf : f (w.chan s.inp) { fn := s.fn, errFn := s.errFn, pool := pool, out := w.chan s.out } =
      none) :
    none = (atLink f (chainOf p w).source (chainOf p w).links i).map g := by
  simp only [chainOf]
  rw [atLink_linksOf_none f w.chan p.source p.stages w.pools i s pool hw.linked hs hp hf]
  rfl

theorem sim_link_some (f : Chan V → Link V E → Option (Chan V × Link V E × Eff E))
    (p : Pipeline V E) (w w' : World V E) (i : Nat) (s : stage V E) (pool : Pool V E)
    (inp' : Chan V) (l' : Link V E) (eff : Eff E) (hw : Wired p)
    (hs : p.stages[i]? = some s) (hp : w.pools[i]? = some pool)
    (hf : f (w.chan s.inp) { fn := s.fn, errFn := s.errFn, pool := pool, out := w.chan s.out } =
      some (inp', l', eff))
    (hfn : l'.fn = s.fn) (he : l'.errFn = s.errFn)
    (h1 : w'.chan s.inp = inp') (h2 : w'.chan s.out = l'.out)
    (h3 : ∀ id, id ≠ s.inp → id ≠ s.out → w'.chan id = w.chan id)
    (hpools : w'.pools = w.pools.set i l'.pool)
    (hfe : w'.feeders = w.feeders) (hc : w'.calls = w.calls ++ eff.calls)
    (hr : w'.received = w.received) (hsc : w'.sawClose = w.sawClose)
    (hpn : w'.panicked = eff.panic) :
    some (chainOf p w') =
      (atLink f (chainOf p w).source (chainOf p w).links i).map fun r =>
        { chainOf p w with source := r.1, links := r.2.1,
                           calls := (chainOf p w).calls ++ r.2.2.calls,
                           panicked := r.2.2.panic } := by
  rw [sim_link f p w w' i s pool inp' l' eff hw hs hp hf hfn he h1 h2 h3 hpools]
  simp only [Option.map_some', chainOf, hfe, hc, hr, hsc, hpn]

theorem workerMove_chainOf (b : Bool) (p : Pipeline V E) (w : World V E) (i j : Nat)
    (hw : Wired p) (hnp : w.panicked = false) :
    (workerMove b p w i j).map (chainOf p) =
      (atLink (workerLocal b j) (chainOf p w).source (chainOf p w).links i).map fun r =>
        { chainOf p w with source := r.1, links := r.2.1,
                           calls := (chainOf p w).calls ++ r.2.2.calls,
                           panicked := r.2.2.panic } := by
  cases hs : p.stages[i]? with
  | none =>
    rw [atLink_none _ _ _ _ (by simp [chainOf, linksOf_getElem?, hs])]
    simp [workerMove, hs]
  | some s =>
    cases hp : w.pools[i]? with
    | none =>
      rw [atLink_none _ _ _ _ (by simp [chainOf, linksOf_getElem?, hs, hp])]
      simp [workerMove, hs, hp]
    | some pool =>
      have hio := hw.linked.inp_ne_out hw.nodup hs
      cases hj : pool.workers[j]? with
      | none =>
        have hH : workerMove b p w i j = none := by simp [workerMove, hs, hp, hj]
        rw [hH]
        exact sim_link_none _ _ p w i s pool hw hs hp (by simp [workerLocal, hj])
      | some wk =>
        cases wk with
        | recv =>
          cases hb : (w.chan s.inp).buf with
          | nil =>
            cases hc : (w.chan s.inp).closed with
            | false =>
              have hH : workerMove b p w i j = none := by simp [workerMove, hs, hp, hj, hb, hc]
              rw [hH]
              exact sim_link_none _ _ p w i s pool hw hs hp (by simp [workerLocal, hj, hb, hc])
            | true =>
              have hH : workerMove b p w i j = some (w.setWorker i j Worker.done) := by
                simp [workerMove, hs, hp, hj, hb, hc]
              rw [hH, World.setWorker_pools _ _ _ _ _ hp]
              refine sim_link_some _ p w _ i s pool _ _ _ hw hs hp
                (by simp only [workerLocal, hj, hb, hc]; rfl) ?_ ?_ ?_ ?_ ?_ ?_ ?_ ?_ ?_ ?_ ?_ <;>
                (try simp [Link.setWorker, hnp, hc]) <;>
                (try (intro id h1 h2; simp [h1, h2]))
          | cons v rest =>
            cases hfv : (s.fn v).2 with
            | none =>
              have hH : workerMove b p w i j =
                  some ((w.setChan s.inp { w.chan s.inp with buf := rest }).setWorker i j
                    (Worker.send (s.fn v).1)) := by
                simp [workerMove, hs, hp, hj, hb, hfv]
              rw [hH, World.setWorker_pools _ _ _ _ pool (by simpa [World.setChan] using hp)]
              refine sim_link_some _ p w _ i s pool _ _ _ hw hs hp
                (by simp only [workerLocal, hj, hb, hfv]; rfl) ?_ ?_ ?_ ?_ ?_ ?_ ?_ ?_ ?_ ?_ ?_ <;>
                (try simp [Link.setWorker, hnp, World.setChan, Function.update, hio, hio.symm]) <;>
                (try (intro id h1 h2; simp [h1, h2]))
            | some err =>
              have hH : workerMove b p w i j =
                  some ((w.setChan s.inp { w.chan s.inp with buf := rest }).setWorker i j
                    (Worker.fail err)) := by
                simp [workerMove, hs, hp, hj, hb, hfv]
              rw [hH, World.setWorker_pools _ _ _ _ pool (by simpa [World.setChan] using hp)]
              refine sim_link_some _ p w _ i s pool _ _ _ hw hs hp
                (by simp only [workerLocal, hj, hb, hfv]; rfl) ?_ ?_ ?_ ?_ ?_ ?_ ?_ ?_ ?_ ?_ ?_ <;>
                (try simp [Link.setWorker, hnp, World.setChan, Function.update, hio, hio.symm]) <;>
                (try (intro id h1 h2; simp [h1, h2]))
        | send res =>
          have hsw := World.setWorker_pools w i j Worker.recv pool hp
          cases hc : (w.chan s.out).closed with
          | true =>
            have hH : workerMove b p w i j = some (w.setWorker i j Worker.recv).panic := by
              simp [workerMove, hs, hp, hj, World.sendOn, hsw, hc]
            rw [hH, hsw]
            refine sim_link_some _ p w _ i s pool _ _ _ hw hs hp
              (by simp only [workerLocal, hj, hc]; rfl) ?_ ?_ ?_ ?_ ?_ ?_ ?_ ?_ ?_ ?_ ?_ <;>
                (try simp [Link.setWorker, hnp, World.panic, hc]) <;>
                (try (intro id h1 h2; simp [h1, h2]))
          | false =>
            cases hfull : (b && decide ((w.chan s.out).cap ≤ (w.chan s.out).buf.length)) with
            | true =>
              have hH : workerMove b p w i j = none := by
                simp only [workerMove, hs, hp, hj, World.sendOn, hsw, hc, hfull]
                simp
              rw [hH]
              exact sim_link_none _ _ p w i s pool hw hs hp
                (by simp only [workerLocal, hj, hc, hfull]; simp)
            | false =>
              have hH : workerMove b p w i j =
                  some ((w.setWorker i j Worker.recv).setChan s.out
                    { w.chan s.out with buf := (w.chan s.out).buf ++ [res] }) := by
                simp only [workerMove, hs, hp, hj, World.sendOn, hsw, hc, hfull]
                simp
              rw [hH, hsw]
              refine sim_link_some _ p w _ i s pool _ _ _ hw hs hp
                (by simp only [workerLocal, hj, hc, hfull, Bool.false_eq_true, if_false]; rfl)
                ?_ ?_ ?_ ?_ ?_ ?_ ?_ ?_ ?_ ?_ ?_ <;>
                (try simp [Link.setWorker, hnp, World.setChan, Function.update, hio, hio.symm, hc]) <;>
                (try (intro id h1 h2; simp [h1, h2]))
        | fail err =>
          cases hef : s.errFn with
          | none =>
            have hH : workerMove b p w i j = some w.panic := by
              simp [workerMove, hs, hp, hj, hef]
            rw [hH]
            refine sim_link_some _ p w _ i s pool _ _ _ hw hs hp
              (by simp only [workerLocal, hj, hef]; rfl) ?_ ?_ ?_ ?_ ?_ ?_ ?_ ?_ ?_ ?_ ?_ <;>
                (try simp [hnp, World.panic, hef]) <;>
                (try (intro id h1 h2; simp [h1, h2]))
            exact (set_getElem?_same _ _ _ hp).symm
          | some f =>
            have hH : workerMove b p w i j =
                some ({ w with calls := w.calls ++ [(f, err)] }.setWorker i j Worker.recv) := by
              simp [workerMove, hs, hp, hj, hef]
            rw [hH, World.setWorker_pools _ _ _ _ pool (by simpa using hp)]
            refine sim_link_some _ p w _ i s pool _ _ _ hw hs hp
              (by simp only [workerLocal, hj, hef]; rfl) ?_ ?_ ?_ ?_ ?_ ?_ ?_ ?_ ?_ ?_ ?_ <;>
                (try simp [Link.setWorker, hnp, hef]) <;>
                (try (intro id h1 h2; simp [h1, h2]))
        | done =>
          have hH : workerMove b p w i j = none := by simp [workerMove, hs, hp, hj]
          rw [hH]
          exact sim_link_none _ _ p w i s pool hw hs hp (by simp [workerLocal, hj])

theorem closerMove_chainOf (p : Pipeline V E) (w : World V E) (i : Nat)
    (hw : Wired p) (hnp : w.panicked = false) :
    (closerMove p w i).map (chainOf p) =
      (atLink closerLocal (chainOf p w).source (chainOf p w).links i).map fun r =>
        { chainOf p w with source := r.1, links := r.2.1,
                           calls := (chainOf p w).calls ++ r.2.2.calls,
                           panicked := r.2.2.panic } := by
  cases hs : p.stages[i]? with
  | none =>
    rw [atLink_none _ _ _ _ (by simp [chainOf, linksOf_getElem?, hs])]
    simp [closerMove, hs]
  | some s =>
    cases hp : w.pools[i]? with
    | none =>
      rw [atLink_none _ _ _ _ (by simp [chainOf, linksOf_getElem?, hs, hp])]
      simp [closerMove, hs, hp]
    | some pool =>
      have hio := hw.linked.inp_ne_out hw.nodup hs
      cases hpc : pool.closed with
      | true =>
        have hH : closerMove p w i = none := by simp [closerMove, hs, hp, hpc]
        rw [hH]
        exact sim_link_none _ _ p w i s pool hw hs hp (by simp [closerLocal, hpc])
      | false =>
        cases hall : pool.workers.all Worker.isDone with
        | false =>
          have hH : closerMove p w i = none := by simp [closerMove, hs, hp, hpc, hall]
          rw [hH]
          exact sim_link_none _ _ p w i s pool hw hs hp (by simp [closerLocal, hpc, hall])
        | true =>
          cases hc : (w.chan s.out).closed with
          | true =>
            have hH : closerMove p w i =
                some { w with pools := w.pools.set i { pool with closed := true },
                              panicked := true } := by
              simp [closerMove, hs, hp, hpc, hall, World.closeChan, hc, World.panic]
            rw [hH]
            refine sim_link_some _ p w _ i s pool _ _ _ hw hs hp
              (by simp only [closerLocal, hpc, hall, hc]; rfl) ?_ ?_ ?_ ?_ ?_ ?_ ?_ ?_ ?_ ?_ ?_ <;>
              (try simp [hnp, hc])
          | false =>
            have hH : closerMove p w i =
                some ({ w with pools := w.pools.set i { pool with closed := true } }.setChan s.out
                  { w.chan s.out with closed := true }) := by
              simp [closerMove, hs, hp, hpc, hall, World.closeChan, hc]
            rw [hH]
            refine sim_link_some _ p w _ i s pool _ _ _ hw hs hp
              (by simp only [closerLocal, hpc, hall, hc]; rfl) ?_ ?_ ?_ ?_ ?_ ?_ ?_ ?_ ?_ ?_ ?_ <;>
              (try simp [hnp, hc, World.setChan, Function.update, hio, hio.symm]) <;>
              (try (intro id h1 h2; simp [h1, h2]))

theorem feederMove_chainOf (b : Bool) (p : Pipeline V E) (w : World V E) (k : Nat)
    (hw : Wired p) (hnp : w.panicked = false) :
    (feederMove b p w k).map (chainOf p) =
      match (chainOf p w).feeders[k]? with
      | some script =>
        (feederLocal b (chainOf p w).source script).map fun r =>
          { chainOf p w with feeders := (chainOf p w).feeders.set k r.2.1, source := r.1,
                             panicked := r.2.2 }
      | none => none := by
  have hlinks : ∀ c : Chan V,
      linksOf (Function.update w.chan p.source c) p.stages w.pools =
        linksOf w.chan p.stages w.pools := by
    intro c
    apply linksOf_congr
    intro s hs
    exact Function.update_noteq (hw.source_not_out hs) _ _
  cases hk : w.feeders[k]? with
  | none => simp [feederMove, hk, chainOf]
  | some script =>
    cases script with
    | nil => simp [feederMove, hk, chainOf, feederLocal]
    | cons op rest =>
      cases op with
      | wait d => simp [feederMove, hk, chainOf, feederLocal, hnp]
      | send v =>
        cases hc : (w.chan p.source).closed with
        | true => simp [feederMove, hk, chainOf, feederLocal, World.sendOn, hc, World.panic]
        | false =>
          cases hfull : (b && decide ((w.chan p.source).cap ≤ (w.chan p.source).buf.length)) with
          | true =>
            simp only [feederMove, hk, chainOf, feederLocal, World.sendOn, hc, hfull]
            simp
          | false =>
            simp only [feederMove, hk, chainOf, feederLocal, World.sendOn, hc, hfull]
            simp [World.setChan, hnp, chainOf, hlinks]
      | close =>
        cases hc : (w.chan p.source).closed with
        | true => simp [feederMove, hk, chainOf, feederLocal, World.closeChan, hc, World.panic]
        | false =>
          simp [feederMove, hk, chainOf, feederLocal, World.closeChan, hc, World.setChan, hlinks,
            hnp]

theorem atSink_linksOf {α : Type} (g : Chan V → Option (Chan V × α))
    (chan : Nat → Chan V) (src sink : Nat) (stages : List (stage V E))
    (pools : List (Pool V E)) (hnd : (src :: stages.map fun t => t.out).Nodup)
    (hlen : pools.length = stages.length)
    (hlast : (src :: stages.map fun t => t.out).getLast? = some sink) :
    atSink g (chan src) (linksOf chan stages pools) =
      (g (chan sink)).map fun r => (Function.update chan sink r.1 src,
        linksOf (Function.update chan sink r.1) stages pools, r.2) := by
  induction stages generalizing src pools with
  | nil =>
    cases pools with
    | nil =>
      simp only [List.map_nil, List.getLast?_singleton, Option.some.injEq] at hlast
      subst hlast
      simp [linksOf, atSink]
    | cons q pools => simp at hlen
  | cons a rest ih =>
    cases pools with
    | nil => simp at hlen
    | cons q pools =>
      simp only [List.map_cons, List.nodup_cons, List.mem_cons, not_or] at hnd
      obtain ⟨⟨hsa, hsr⟩, har, hrr⟩ := hnd
      simp only [List.length_cons, Nat.add_right_cancel_iff] at hlen
      simp only [List.map_cons, List.getLast?_cons_cons] at hlast
      have hsm : sink ∈ a.out :: rest.map fun t => t.out := List.mem_of_getLast?_eq_some hlast
      have hne : src ≠ sink := by
        intro e
        rw [← e] at hsm
        rcases List.mem_cons.mp hsm with h | h
        · exact hsa h
        · exact hsr h
      have := ih a.out pools (List.nodup_cons.mpr ⟨har, hrr⟩) hlen hlast
      simp only [linksOf, atSink, this, Option.map_map]
      cases hg : g (chan sink) with
      | none => rfl
      | some r => simp [Function.update_noteq hne]

theorem Wired.last_id {p : Pipeline V E} (hw : Wired p) :
    (p.source :: p.stages.map fun t => t.out).getLast? = some p.sink := by
  have h := hw.last
  cases hs : p.stages with
  | nil => simp [hs] at h
  | cons a rest =>
    rw [hs] at h
    rw [List.map_cons, List.getLast?_cons_cons, ← List.map_cons, List.getLast?_map]
    exact h

theorem consumerMove_chainOf (p : Pipeline V E) (w : World V E)
    (hw : Wired p) (hlen : w.pools.length = p.stages.length) :
    (consumerMove p w).map (chainOf p) =
      if (chainOf p w).sawClose then none
      else
        (atSink consumerLocal (chainOf p w).source (chainOf p w).links).map fun r =>
          match r.2.2 with
          | some v => { chainOf p w with source := r.1, links := r.2.1,
                                         received := (chainOf p w).received ++ [v] }
          | none => { chainOf p w with source := r.1, links := r.2.1, sawClose := true } := by
  cases hsc : w.sawClose with
  | true => simp [consumerMove, hsc, chainOf]
  | false =>
    have hsim := atSink_linksOf (E := E) consumerLocal w.chan p.source p.sink p.stages w.pools
      hw.nodup hlen hw.last_id
    simp only [chainOf, hsc, Bool.false_eq_true, if_false, hsim, consumerMove]
    cases hb : (w.chan p.sink).buf with
    | nil =>
      cases hc : (w.chan p.sink).closed with
      | false => simp [consumerLocal, hb, hc]
      | true =>
        simp [consumerLocal, hb, hc, Function.update_eq_self, chainOf]
    | cons v rest =>
      simp [consumerLocal, hb, World.setChan, chainOf, hsc]

theorem move_chainOf (b : Bool) (p : Pipeline V E) (w : World V E) (a : Actor)
    (hw : Wired p) (hlen : w.pools.length = p.stages.length) :
    (move b p w a).map (chainOf p) = (chainOf p w).move b a := by
  cases hnp : w.panicked with
  | true => cases a <;> simp [move, Chain.move, chainOf, hnp]
  | false =>
    cases a with
    | feeder k =>
      simp only [move, hnp, Bool.false_eq_true, if_false, feederMove_chainOf b p w k hw hnp,
        Chain.move]
      simp [chainOf, hnp]
    | worker i j =>
      simp only [move, hnp, Bool.false_eq_true, if_false, workerMove_chainOf b p w i j hw hnp,
        Chain.move]
      simp [chainOf, hnp, Chain.afterLink]
      rfl
    | closer i =>
      simp only [move, hnp, Bool.false_eq_true, if_false, closerMove_chainOf p w i hw hnp,
        Chain.move]
      simp [chainOf, hnp, Chain.afterLink]
      rfl
    | consumer =>
      simp only [move, hnp, Bool.false_eq_true, if_false, consumerMove_chainOf p w hw hlen,
        Chain.move]
      simp [chainOf, hnp]

theorem linksOf_length (chan : Nat → Chan V) (stages : List (stage V E))
    (pools : List (Pool V E)) (h : pools.length = stages.length) :
    (linksOf chan stages pools).length = stages.length := by
  induction stages generalizing pools with
  | nil => simp [linksOf]
  | cons s rest ih =>
    cases pools with
    | nil => simp at h
    | cons q pools =>
      simp only [List.length_cons, Nat.add_right_cancel_iff] at h
      simp [linksOf, ih pools h]

theorem World.sendOn_pools (b : Bool) (w w' : World V E) (id : Nat) (v : V)
    (h : w.sendOn b id v = some w') : w'.pools = w.pools := by
  unfold World.sendOn at h
  split at h
  · simp only [Option.some.injEq] at h
    subst h
    rfl
  · split at h
    · simp at h
    · simp only [Option.some.injEq] at h
      subst h
      rfl

theorem World.setWorker_length (w : World V E) (i j : Nat) (wk : Worker V E) :
    (w.setWorker i j wk).pools.length = w.pools.length := by
  unfold World.setWorker
  split <;> simp

theorem move_pools_length (b : Bool) (p : Pipeline V E) (w w' : World V E) (a : Actor)
    (h : move b p w a = some w') : w'.pools.length = w.pools.length := by
  cases a with
  | feeder k =>
    simp only [move] at h
    split at h
    · simp at h
    · unfold feederMove at h
      split at h
      · split at h
        · simp only [Option.some.injEq] at h
          subst h
          rfl
        · simp only at h
          split at h
          · simp only [Option.some.injEq] at h
            subst h
            rfl
          · rw [World.sendOn_pools _ _ _ _ _ h]
        · simp only [Option.some.injEq] at h
          subst h
          simp only [World.closeChan]
          split <;> rfl
      · simp at h
  | worker i j =>
    simp only [move] at h
    split at h
    · simp at h
    · unfold workerMove at h
      split at h
      · split at h
        · split at h
          · split at h <;>
            · simp only [Option.some.injEq] at h
              subst h
              rw [World.setWorker_length]
              rfl
          · split at h
            · simp only [Option.some.injEq] at h
              subst h
              rw [World.setWorker_length]
            · simp at h
        · rw [World.sendOn_pools _ _ _ _ _ h, World.setWorker_length]
        · split at h
          · simp only [Option.some.injEq] at h
            subst h
            rw [World.setWorker_length]
          · simp only [Option.some.injEq] at h
            subst h
            rfl
        · simp at h
      · simp at h
  | closer i =>
    simp only [move] at h
    split at h
    · simp at h
    · unfold closerMove at h
      split at h
      · split at h
        · simp at h
        · split at h
          · simp only [Option.some.injEq] at h
            subst h
            simp only [World.closeChan]
            split <;> simp [World.panic, World.setChan]
          · simp at h
      · simp at h
  | consumer =>
    simp only [move] at h
    split at h
    · simp at h
    · unfold consumerMove at h
      split at h
      · simp at h
      · split at h
        · simp only [Option.some.injEq] at h
          subst h
          rfl
        · split at h
          · simp only [Option.some.injEq] at h
            subst h
            rfl
          · simp at h

theorem getElem?_inj_of_nodup {α : Type} {l : List α} (h : l.Nodup) {a b : Nat} {x : α}
    (ha : l[a]? = some x) (hb : l[b]? = some x) : a = b := by
  have hal : a < l.length := by
    by_contra hn
    rw [List.getElem?_eq_none (by omega)] at ha
    simp at ha
  have hbl : b < l.length := by
    by_contra hn
    rw [List.getElem?_eq_none (by omega)] at hb
    simp at hb
  rcases Nat.lt_trichotomy a b with hlt | heq | hgt
  · exact absurd (ha.trans hb.symm) (List.nodup_iff_getElem?_ne_getElem?.mp h a b hlt hbl)
  · exact heq
  · exact absurd (hb.trans ha.symm) (List.nodup_iff_getElem?_ne_getElem?.mp h b a hgt hal)

theorem Linked.getElem?_inp {src : Nat} {stages : List (stage V E)} (hl : Linked src stages)
    {i : Nat} {s : stage V E} (hs : stages[i]? = some s) :
    (src :: stages.map fun t => t.out)[i]? = some s.inp := by
  induction stages generalizing src i with
  | nil => simp at hs
  | cons a rest ih =>
    cases i with
    | zero =>
      simp only [List.getElem?_cons_zero, Option.some.injEq] at hs
      subst hs
      simp [hl.1]
    | succ i =>
      simp only [List.getElem?_cons_succ] at hs
      simpa using ih hl.2 hs

theorem sendTarget_chainOf (p : Pipeline V E) (w : World V E) (a : Actor) :
    sendTarget p w a = ((chainOf p w).sendTarget a).bind (chainId p) := by
  cases a with
  | feeder k =>
    simp only [sendTarget, Chain.sendTarget, chainOf]
    split <;> simp [chainId]
  | worker i j =>
    simp only [sendTarget, Chain.sendTarget, chainOf, linksOf_getElem?]
    cases hs : p.stages[i]? with
    | none => simp
    | some s =>
      cases hp : w.pools[i]? with
      | none => simp
      | some pool =>
        simp only
        split <;> simp [chainId, hs]
  | closer i => rfl
  | consumer => rfl

theorem recvSource_chainOf (p : Pipeline V E) (w : World V E) (a : Actor) (hw : Wired p)
    (hlen : w.pools.length = p.stages.length) :
    recvSource p w a = ((chainOf p w).recvSource a).bind (chainId p) := by
  cases a with
  | feeder k => rfl
  | worker i j =>
    simp only [recvSource, Chain.recvSource, chainOf, linksOf_getElem?]
    cases hs : p.stages[i]? with
    | none => simp
    | some s =>
      cases hp : w.pools[i]? with
      | none => simp
      | some pool =>
        simp only
        split <;> simp [chainId, hw.linked.getElem?_inp hs]
  | closer i => rfl
  | consumer =>
    simp only [recvSource, Chain.recvSource, chainOf]
    split
    · rfl
    · have h := hw.last_id
      rw [List.getLast?_eq_getElem?] at h
      simp only [List.length_cons, List.length_map, Nat.add_sub_cancel] at h
      simp [chainId, linksOf_length _ _ _ hlen, h]

theorem queue_chainOf (p : Pipeline V E) (w : World V E) (a : Nat)
    (hlen : w.pools.length = p.stages.length) :
    (chainOf p w).queue a = (chainId p a).map w.chan := by
  cases a with
  | zero => simp [Chain.queue, chainOf, chainId]
  | succ i =>
    simp only [Chain.queue, chainOf, chainId, linksOf_getElem?, List.getElem?_cons_succ,
      List.getElem?_map]
    cases hs : p.stages[i]? with
    | none => simp
    | some s =>
      have : i < w.pools.length := by
        rw [hlen]
        by_contra hn
        rw [List.getElem?_eq_none (by omega)] at hs
        simp at hs
      rw [List.getElem?_eq_getElem this]
      simp

theorem step_chainOf (p : Pipeline V E) (w : World V E) (act : Action) (hw : Wired p)
    (hlen : w.pools.length = p.stages.length) :
    (step p w act).map (chainOf p) = (chainOf p w).step act := by
  cases act with
  | solo a => exact move_chainOf true p w a hw hlen
  | handoff snd rcv =>
    simp only [step, Chain.step, sendTarget_chainOf, recvSource_chainOf p w rcv hw hlen]
    cases hcs : (chainOf p w).sendTarget snd with
    | none => simp
    | some a =>
      cases hcr : (chainOf p w).recvSource rcv with
      | none =>
        simp only [Option.none_bind, Option.some_bind]
        cases chainId p a <;> rfl
      | some b =>
        simp only [Option.some_bind, queue_chainOf p w a hlen]
        cases hia : chainId p a with
        | none => rfl
        | some c =>
          cases hib : chainId p b with
          | none =>
            have hab : a ≠ b := by
              intro e
              rw [e, hib] at hia
              simp at hia
            simp [hab]
          | some c' =>
            have hiff : c = c' ↔ a = b := by
              constructor
              · intro e
                exact getElem?_inj_of_nodup hw.nodup hia (e ▸ hib)
              · intro e
                rw [e, hib] at hia
                exact (Option.some.inj hia).symm
            simp only [Option.map_some', hiff]
            split
            · cases hm : move false p w snd with
              | none =>
                have := move_chainOf false p w snd hw hlen
                rw [hm] at this
                simp [← this]
              | some w1 =>
                have h1 := move_chainOf false p w snd hw hlen
                rw [hm] at h1
                have hlen1 : w1.pools.length = p.stages.length := by
                  rw [move_pools_length _ _ _ _ _ hm, hlen]
                have h2 := move_chainOf true p w1 rcv hw hlen1
                simp only [Option.map_some'] at h1
                simp [← h1, h2]
            · rfl

theorem step_pools_length (p : Pipeline V E) (w w' : World V E) (act : Action)
    (h : step p w act = some w') : w'.pools.length = w.pools.length := by
  cases act with
  | solo a => exact move_pools_length _ _ _ _ _ h
  | handoff snd rcv =>
    simp only [step] at h
    split at h
    · split at h
      · cases hm : move false p w snd with
        | none => simp [hm] at h
        | some w1 =>
          simp only [hm, Option.some_bind] at h
          rw [move_pools_length _ _ _ _ _ h, move_pools_length _ _ _ _ _ hm]
      · simp at h
    · simp at h

theorem run_chainOf (p : Pipeline V E) (w w' : World V E) (sched : List Action) (hw : Wired p)
    (hlen : w.pools.length = p.stages.length) (h : run p w sched = some w') :
    (chainOf p w).run sched = some (chainOf p w') ∧ w'.pools.length = p.stages.length := by
  induction sched generalizing w with
  | nil =>
    simp only [run, Option.some.injEq] at h
    subst h
    exact ⟨rfl, hlen⟩
  | cons a rest ih =>
    simp only [run] at h
    cases hs : step p w a with
    | none => simp [hs] at h
    | some w1 =>
      simp only [hs, Option.some_bind] at h
      have h1 := step_chainOf p w a hw hlen
      rw [hs] at h1
      have hlen1 : w1.pools.length = p.stages.length := by
        rw [step_pools_length _ _ _ _ hs, hlen]
      have := ih w1 hlen1 h
      simp only [Option.map_some'] at h1
      simp only [Chain.run, ← h1, Option.some_bind]
      exact this

/-! ## Conservation of the ledger -/

theorem Rel.refl {α : Type} (exact : Bool) (x : List α) : Rel exact x x :=
  ⟨fun _ => rfl, List.Perm.refl x⟩

theorem Rel.trans {α : Type} {exact : Bool} {x y z : List α} (h1 : Rel exact x y)
    (h2 : Rel exact y z) : Rel exact x z :=
  ⟨fun h => (h1.1 h).trans (h2.1 h), h1.2.trans h2.2⟩

theorem Rel.append_right {α : Type} {exact : Bool} {x y : List α} (z : List α)
    (h : Rel exact x y) : Rel exact (x ++ z) (y ++ z) :=
  ⟨fun hx => by rw [h.1 hx], h.2.append_right z⟩

theorem Rel.append_left {α : Type} {exact : Bool} {x y : List α} (z : List α)
    (h : Rel exact x y) : Rel exact (z ++ x) (z ++ y) :=
  ⟨fun hx => by rw [h.1 hx], h.2.append_left z⟩

theorem perm_of_coe {α : Type} {x y : List α} (h : (x : Multiset α) = (y : Multiset α)) :
    x.Perm y :=
  Multiset.coe_eq_coe.mp h

theorem perm_recombine_feed {α : Type} (X A B P' S' P S : List α)
    (h : (P' ++ S').Perm (P ++ S)) :
    (X ++ P' ++ (A ++ S' ++ B)).Perm (X ++ P ++ (A ++ S ++ B)) := by
  have hm := Multiset.coe_eq_coe.mpr h
  apply perm_of_coe
  simp only [← Multiset.coe_add] at hm ⊢
  have e1 : (X : Multiset α) + ↑P' + (↑A + ↑S' + ↑B) = (↑P' + ↑S') + (↑X + ↑A + ↑B) := by abel
  have e2 : (X : Multiset α) + ↑P + (↑A + ↑S + ↑B) = (↑P + ↑S) + (↑X + ↑A + ↑B) := by abel
  rw [e1, e2, hm]

theorem perm_recombine_link {α : Type} (C E R P' P F : List α)
    (h : (E ++ P').Perm P) :
    (C ++ E ++ R ++ P' ++ F).Perm (C ++ R ++ P ++ F) := by
  have hm := Multiset.coe_eq_coe.mpr h
  apply perm_of_coe
  simp only [← Multiset.coe_add] at hm ⊢
  have e1 : (C : Multiset α) + ↑E + ↑R + ↑P' + ↑F = (↑E + ↑P') + (↑C + ↑R + ↑F) := by abel
  have e2 : (C : Multiset α) + ↑R + ↑P + ↑F = ↑P + (↑C + ↑R + ↑F) := by abel
  rw [e1, e2, hm]

theorem flatMap_set_decomp {α β : Type} (l : List α) (j : Nat) (a b : α) (g : α → List β)
    (h : l[j]? = some a) :
    ∃ A B, l.flatMap g = A ++ g a ++ B ∧ (l.set j b).flatMap g = A ++ g b ++ B ∧
      (l.length ≤ 1 → A = [] ∧ B = []) := by
  induction l generalizing j with
  | nil => simp at h
  | cons x rest ih =>
    cases j with
    | zero =>
      simp only [List.getElem?_cons_zero, Option.some.injEq] at h
      subst h
      refine ⟨[], rest.flatMap g, by simp, by simp, ?_⟩
      intro hl
      have : rest = [] := List.length_eq_zero.mp (by simpa using hl)
      simp [this]
    | succ j =>
      simp only [List.getElem?_cons_succ] at h
      obtain ⟨A, B, h1, h2, _⟩ := ih j h
      refine ⟨g x ++ A, B, by simp [h1], by simp [h2], ?_⟩
      intro hl
      have : rest = [] := List.length_eq_zero.mp (by simpa using hl)
      simp [this] at h

theorem pendLinks_buf (inp inp' : Chan V) (links : List (Link V E)) (h : inp'.buf = inp.buf) :
    pendLinks inp' links = pendLinks inp links := by
  cases links <;> simp [pendLinks, h]

theorem pendLinks_push (inp : Chan V) (links : List (Link V E)) (v : V) :
    pendLinks { inp with buf := inp.buf ++ [v] } links =
      pendLinks inp links ++ [through (fnsOf links) v] := by
  cases links with
  | nil => simp [pendLinks, fnsOf, through]
  | cons l rest => simp [pendLinks, fnsOf]

theorem Lane_setWorker (l : Link V E) (j : Nat) (wk : Worker V E) (h : l.Lane)
    (hwk : ∀ err, wk ≠ Worker.fail err) : (l.setWorker j wk).Lane := by
  refine ⟨by simpa [Link.setWorker] using h.1, h.2.1, ?_⟩
  intro x hx err
  simp only [Link.setWorker] at hx
  rcases List.mem_or_eq_of_mem_set hx with hm | rfl
  · exact h.2.2 x hm err
  · exact hwk err

theorem workerLocal_ledger (b : Bool) (j : Nat) (inp : Chan V) (l : Link V E)
    (rest : List (Link V E)) (inp' : Chan V) (l' : Link V E) (eff : Eff E) (exact : Bool)
    (hx : exact = true → l.Lane) (h : workerLocal b j inp l = some (inp', l', eff))
    (hnp : eff.panic = false) :
    l'.fn = l.fn ∧
      Rel exact (eff.calls.map (fun x => Except.error x.2) ++ pendLinks inp' (l' :: rest))
        (pendLinks inp (l :: rest)) ∧
      (exact = true → l'.Lane ∧ eff.calls = []) := by
  unfold workerLocal at h
  cases hj : l.pool.workers[j]? with
  | none => simp [hj] at h
  | some wk =>
    rw [hj] at h
    cases wk with
    | recv =>
      simp only at h
      cases hb : inp.buf with
      | nil =>
        rw [hb] at h
        simp only at h
        split at h
        · simp only [Option.some.injEq, Prod.mk.injEq] at h
          obtain ⟨rfl, rfl, rfl⟩ := h
          obtain ⟨A, B, h1, h2, _⟩ := flatMap_set_decomp l.pool.workers j Worker.recv
            Worker.done (Worker.pending (fnsOf rest)) hj
          refine ⟨rfl, ?_, fun he => ⟨Lane_setWorker l j _ (hx he) (by simp), rfl⟩⟩
          simp only [List.map_nil, List.nil_append, pendLinks, Link.setWorker, h1, h2,
            Worker.pending]
          exact Rel.refl _ _
        · simp at h
      | cons v buf =>
        rw [hb] at h
        simp only at h
        obtain ⟨A, B, h1, h2, h3⟩ := flatMap_set_decomp l.pool.workers j Worker.recv
          (match (l.fn v).2 with
            | none => Worker.send (l.fn v).1
            | some err => Worker.fail err) (Worker.pending (fnsOf rest)) hj
        have ht : Worker.pending (fnsOf rest)
            (match (l.fn v).2 with
              | none => Worker.send (l.fn v).1
              | some err => Worker.fail err) = [through (l.fn :: fnsOf rest) v] := by
          cases hf : (l.fn v).2 <;> simp [Worker.pending, through, hf]
        rw [ht] at h2
        have hl' : l' = l.setWorker j (match (l.fn v).2 with
              | none => Worker.send (l.fn v).1
              | some err => Worker.fail err) ∧ inp' = { inp with buf := buf } ∧
              eff = { calls := [], panic := false } := by
          cases hf : (l.fn v).2 <;> simp [hf] at h ⊢ <;> simp [h]
        obtain ⟨rfl, rfl, rfl⟩ := hl'
        refine ⟨rfl, ?_, ?_⟩
        · simp only [List.map_nil, List.nil_append, pendLinks, Link.setWorker, h1, h2, hb,
            Worker.pending, List.map_cons]
          constructor
          · intro he
            obtain ⟨rfl, rfl⟩ := h3 (hx he).1
            simp
          · apply perm_of_coe
            simp only [← Multiset.coe_add, ← Multiset.cons_coe, ← Multiset.singleton_add]
            abel
        · intro he
          refine ⟨Lane_setWorker l j _ (hx he) ?_, rfl⟩
          rw [(hx he).2.1 v]
          simp
    | send res =>
      simp only at h
      split at h
      · simp only [Option.some.injEq, Prod.mk.injEq] at h
        obtain ⟨rfl, rfl, rfl⟩ := h
        simp at hnp
      · split at h
        · simp at h
        · simp only [Option.some.injEq, Prod.mk.injEq] at h
          obtain ⟨rfl, rfl, rfl⟩ := h
          obtain ⟨A, B, h1, h2, h3⟩ := flatMap_set_decomp l.pool.workers j (Worker.send res)
            Worker.recv (Worker.pending (fnsOf rest)) hj
          refine ⟨rfl, ?_, fun he => ?_⟩
          · simp only [List.map_nil, List.nil_append, pendLinks, Link.setWorker, h1, h2,
              Worker.pending, pendLinks_push]
            constructor
            · intro he
              obtain ⟨rfl, rfl⟩ := h3 (hx he).1
              simp
            · apply perm_of_coe
              simp only [← Multiset.coe_add, ← Multiset.cons_coe, ← Multiset.singleton_add]
              abel
          · have := Lane_setWorker l j Worker.recv (hx he) (by simp)
            exact ⟨⟨this.1, this.2.1, this.2.2⟩, rfl⟩
    | fail err =>
      simp only at h
      cases hef : l.errFn with
      | none =>
        simp only [hef, Option.some.injEq, Prod.mk.injEq] at h
        obtain ⟨rfl, rfl, rfl⟩ := h
        simp at hnp
      | some f =>
        simp only [hef, Option.some.injEq, Prod.mk.injEq] at h
        obtain ⟨rfl, rfl, rfl⟩ := h
        obtain ⟨A, B, h1, h2, h3⟩ := flatMap_set_decomp l.pool.workers j (Worker.fail err)
          Worker.recv (Worker.pending (fnsOf rest)) hj
        refine ⟨rfl, ?_, fun he =>
          absurd rfl ((hx he).2.2 _ (List.getElem?_mem hj) err)⟩
        simp only [List.map_cons, List.map_nil, pendLinks, Link.setWorker, h1, h2,
          Worker.pending]
        constructor
        · intro he
          exact absurd rfl ((hx he).2.2 _ (List.getElem?_mem hj) err)
        · apply perm_of_coe
          simp only [← Multiset.coe_add, ← Multiset.cons_coe, ← Multiset.singleton_add]
          abel
    | done => simp at h

theorem closerLocal_ledger (inp : Chan V) (l : Link V E)
    (rest : List (Link V E)) (inp' : Chan V) (l' : Link V E) (eff : Eff E) (exact : Bool)
    (hx : exact = true → l.Lane) (h : closerLocal inp l = some (inp', l', eff))
    (hnp : eff.panic = false) :
    l'.fn = l.fn ∧
      Rel exact (eff.calls.map (fun x => Except.error x.2) ++ pendLinks inp' (l' :: rest))
        (pendLinks inp (l :: rest)) ∧
      (exact = true → l'.Lane ∧ eff.calls = []) := by
  unfold closerLocal at h
  split at h
  · simp at h
  · split at h
    · split at h
      · simp only [Option.some.injEq, Prod.mk.injEq] at h
        obtain ⟨rfl, rfl, rfl⟩ := h
        simp at hnp
      · simp only [Option.some.injEq, Prod.mk.injEq] at h
        obtain ⟨rfl, rfl, rfl⟩ := h
        refine ⟨rfl, ?_, fun he => ⟨⟨(hx he).1, (hx he).2.1, (hx he).2.2⟩, rfl⟩⟩
        simp only [List.map_nil, List.nil_append, pendLinks]
        rw [pendLinks_buf { l.out with closed := true } l.out rest rfl]
        exact Rel.refl _ _
    · simp at h

theorem atLink_ledger (f : Chan V → Link V E → Option (Chan V × Link V E × Eff E))
    (exact : Bool)
    (hf : ∀ inp l rest inp' l' eff, (exact = true → l.Lane) → f inp l = some (inp', l', eff) →
      eff.panic = false →
      l'.fn = l.fn ∧
        Rel exact (eff.calls.map (fun x => Except.error x.2) ++ pendLinks inp' (l' :: rest))
          (pendLinks inp (l :: rest)) ∧
        (exact = true → l'.Lane ∧ eff.calls = []))
    (inp : Chan V) (links : List (Link V E)) (i : Nat) (r : Chan V × List (Link V E) × Eff E)
    (hx : exact = true → ∀ l ∈ links, l.Lane) (h : atLink f inp links i = some r)
    (hnp : r.2.2.panic = false) :
    fnsOf r.2.1 = fnsOf links ∧
      Rel exact (r.2.2.calls.map (fun x => Except.error x.2) ++ pendLinks r.1 r.2.1)
        (pendLinks inp links) ∧
      (exact = true → (∀ l ∈ r.2.1, l.Lane) ∧ r.2.2.calls = []) := by
  induction links generalizing inp i r with
  | nil => simp [atLink] at h
  | cons l rest ih =>
    cases i with
    | zero =>
      simp only [atLink, Option.map_eq_some'] at h
      obtain ⟨⟨inp', l', eff⟩, h1, rfl⟩ := h
      obtain ⟨hfn, hrel, hlane⟩ := hf inp l rest inp' l' eff
        (fun he => hx he l (List.mem_cons_self _ _)) h1 hnp
      refine ⟨by simp [fnsOf, hfn], hrel, fun he => ⟨fun x hxm => ?_, (hlane he).2⟩⟩
      rcases List.mem_cons.mp hxm with rfl | hm
      · exact (hlane he).1
      · exact hx he x (List.mem_cons_of_mem _ hm)
    | succ i =>
      simp only [atLink, Option.map_eq_some'] at h
      obtain ⟨⟨o', rest', eff⟩, h1, rfl⟩ := h
      obtain ⟨hfn, hrel, hlane⟩ := ih l.out i (o', rest', eff)
        (fun he x hxm => hx he x (List.mem_cons_of_mem _ hxm)) h1 hnp
      simp only at hfn hrel hlane hnp ⊢
      refine ⟨by simp [fnsOf] at hfn ⊢; exact hfn, ?_, fun he => ⟨fun x hxm => ?_, (hlane he).2⟩⟩
      · simp only [pendLinks, hfn]
        have := (hrel.append_right (l.pool.workers.flatMap (Worker.pending (fnsOf rest)))).append_right
          (inp.buf.map (through (l.fn :: fnsOf rest)))
        simpa only [List.append_assoc] using this
      · rcases List.mem_cons.mp hxm with rfl | hm
        · exact hx he l (List.mem_cons_self _ _)
        · exact (hlane he).1 x hm

theorem atSink_consumer_ledger (inp : Chan V) (links : List (Link V E))
    (r : Chan V × List (Link V E) × Option V)
    (h : atSink consumerLocal inp links = some r) :
    fnsOf r.2.1 = fnsOf links ∧
      (∀ x ∈ r.2.1, ∃ y ∈ links, x.fn = y.fn ∧ x.pool = y.pool) ∧
      pendLinks inp links =
        (match r.2.2 with
          | some v => [Except.ok v]
          | none => []) ++ pendLinks r.1 r.2.1 := by
  induction links generalizing inp r with
  | nil =>
    simp only [atSink, Option.map_eq_some'] at h
    obtain ⟨⟨ch, ov⟩, h1, rfl⟩ := h
    refine ⟨rfl, by simp, ?_⟩
    unfold consumerLocal at h1
    split at h1
    · rename_i v rest hb
      simp only [Option.some.injEq, Prod.mk.injEq] at h1
      obtain ⟨rfl, rfl⟩ := h1
      simp [pendLinks, hb]
    · split at h1
      · simp only [Option.some.injEq, Prod.mk.injEq] at h1
        obtain ⟨rfl, rfl⟩ := h1
        simp
      · simp at h1
  | cons l rest ih =>
    simp only [atSink, Option.map_eq_some'] at h
    obtain ⟨⟨o', rest', ov⟩, h1, rfl⟩ := h
    obtain ⟨hfn, hP, hpend⟩ := ih l.out (o', rest', ov) h1
    simp only at hfn hP hpend ⊢
    refine ⟨by simp [fnsOf] at hfn ⊢; exact hfn, ?_, ?_⟩
    · intro x hxm
      rcases List.mem_cons.mp hxm with rfl | hm
      · exact ⟨l, List.mem_cons_self _ _, rfl, rfl⟩
      · obtain ⟨y, hy, h2⟩ := hP x hm
        exact ⟨y, List.mem_cons_of_mem _ hy, h2⟩
    · simp only [pendLinks, hpend, hfn, List.append_assoc]

theorem Link.Lane_congr {l l' : Link V E} (hfn : l'.fn = l.fn) (hp : l'.pool = l.pool)
    (h : l.Lane) : l'.Lane := by
  unfold Link.Lane at h ⊢
  rw [hfn, hp]
  exact h

theorem feederLocal_ledger (b : Bool) (src : Chan V) (script : List (FeedOp V))
    (links : List (Link V E)) (r : Chan V × List (FeedOp V) × Bool)
    (h : feederLocal b src script = some r) (hnp : r.2.2 = false) :
    pendLinks r.1 links ++ r.2.1.flatMap (FeedOp.pending (fnsOf links)) =
      pendLinks src links ++ script.flatMap (FeedOp.pending (fnsOf links)) := by
  cases script with
  | nil => simp [feederLocal] at h
  | cons op rest =>
    cases op with
    | wait d =>
      simp only [feederLocal, Option.some.injEq] at h
      subst h
      simp [FeedOp.pending]
    | send v =>
      simp only [feederLocal] at h
      split at h
      · simp only [Option.some.injEq] at h
        subst h
        simp at hnp
      · split at h
        · simp at h
        · simp only [Option.some.injEq] at h
          subst h
          simp [FeedOp.pending, pendLinks_push]
    | close =>
      simp only [feederLocal] at h
      split at h
      · simp only [Option.some.injEq] at h
        subst h
        simp at hnp
      · simp only [Option.some.injEq] at h
        subst h
        simp only [List.flatMap_cons, FeedOp.pending, List.nil_append]
        rw [pendLinks_buf { src with closed := true } src links rfl]

theorem Chain.link_move_ledger (f : Chan V → Link V E → Option (Chan V × Link V E × Eff E))
    (hf : ∀ exact inp l rest inp' l' eff, (exact = true → l.Lane) →
      f inp l = some (inp', l', eff) → eff.panic = false →
      l'.fn = l.fn ∧
        Rel exact (eff.calls.map (fun x => Except.error x.2) ++ pendLinks inp' (l' :: rest))
          (pendLinks inp (l :: rest)) ∧
        (exact = true → l'.Lane ∧ eff.calls = []))
    (c : Chain V E) (i : Nat) (r : Chan V × List (Link V E) × Eff E) (exact : Bool)
    (hx : exact = true → c.Lane) (h1 : atLink f c.source c.links i = some r)
    (hnp : r.2.2.panic = false) :
    fnsOf r.2.1 = fnsOf c.links ∧
      Rel exact (c.afterLink r).ledger c.ledger ∧
      (exact = true → (c.afterLink r).Lane) := by
  obtain ⟨hfn, hrel, hlane⟩ := atLink_ledger f exact (hf exact) c.source c.links i r
    (fun he => (hx he).2) h1 hnp
  refine ⟨hfn, ⟨fun he => ?_, ?_⟩, fun he => ⟨(hx he).1, (hlane he).1⟩⟩
  · simp only [Chain.ledger, Chain.afterLink, hfn, (hlane he).2, List.append_nil]
    have := hrel.1 he
    rw [(hlane he).2] at this
    simp only [List.map_nil, List.nil_append] at this
    rw [this]
  · simp only [Chain.ledger, Chain.afterLink, hfn, List.map_append]
    exact perm_recombine_link _ _ _ _ _ _ hrel.2

theorem Chain.move_ledger (b : Bool) (c c' : Chain V E) (a : Actor) (exact : Bool)
    (hx : exact = true → c.Lane) (h : c.move b a = some c') (hnp : c'.panicked = false) :
    fnsOf c'.links = fnsOf c.links ∧ Rel exact c'.ledger c.ledger ∧
      (exact = true → c'.Lane) := by
  cases a with
  | feeder k =>
    simp only [Chain.move] at h
    split at h
    · simp at h
    · cases hk : c.feeders[k]? with
      | none => simp [hk] at h
      | some script =>
        simp only [hk, Option.map_eq_some'] at h
        obtain ⟨r, h1, rfl⟩ := h
        have hl := feederLocal_ledger b c.source script c.links r h1 hnp
        obtain ⟨A, B, h2, h3, h4⟩ := flatMap_set_decomp c.feeders k script r.2.1
          (fun script => script.flatMap (FeedOp.pending (fnsOf c.links))) hk
        refine ⟨rfl, ⟨fun he => ?_, ?_⟩, fun he => ⟨by simpa using (hx he).1, (hx he).2⟩⟩
        · obtain ⟨rfl, rfl⟩ := h4 (hx he).1
          simp only [Chain.ledger, h2, h3, List.nil_append, List.append_nil, List.append_assoc,
            hl]
        · simp only [Chain.ledger, h2, h3]
          exact perm_recombine_feed _ _ _ _ _ _ _ (by rw [hl])
  | worker i j =>
    simp only [Chain.move] at h
    split at h
    · simp at h
    · simp only [Option.map_eq_some'] at h
      obtain ⟨r, h1, rfl⟩ := h
      exact Chain.link_move_ledger (workerLocal b j)
        (fun exact inp l rest inp' l' eff hl hf hp =>
          workerLocal_ledger b j inp l rest inp' l' eff exact hl hf hp) c i r exact hx h1 hnp
  | closer i =>
    simp only [Chain.move] at h
    split at h
    · simp at h
    · simp only [Option.map_eq_some'] at h
      obtain ⟨r, h1, rfl⟩ := h
      exact Chain.link_move_ledger closerLocal
        (fun exact inp l rest inp' l' eff hl hf hp =>
          closerLocal_ledger inp l rest inp' l' eff exact hl hf hp) c i r exact hx h1 hnp
  | consumer =>
    simp only [Chain.move] at h
    split at h
    · simp at h
    · split at h
      · simp at h
      · simp only [Option.map_eq_some'] at h
        obtain ⟨r, h1, rfl⟩ := h
        obtain ⟨hfn, hP, hpend⟩ := atSink_consumer_ledger c.source c.links r h1
        have hlane : exact = true → ∀ l ∈ r.2.1, l.Lane := by
          intro he x hxm
          obtain ⟨y, hy, h2, h3⟩ := hP x hxm
          exact Link.Lane_congr h2 h3 ((hx he).2 y hy)
        cases hv : r.2.2 with
        | none =>
          rw [hv] at hpend
          simp only [List.nil_append] at hpend
          refine ⟨hfn, ?_, fun he => ⟨(hx he).1, hlane he⟩⟩
          simp only [Chain.ledger, hfn, hpend]
          exact Rel.refl _ _
        | some v =>
          rw [hv] at hpend
          refine ⟨hfn, ?_, fun he => ⟨(hx he).1, hlane he⟩⟩
          simp only [Chain.ledger, hfn, hpend, List.map_append, List.map_cons, List.map_nil,
            List.append_assoc]
          exact Rel.refl _ _

theorem Chain.move_panicked (b : Bool) (c c' : Chain V E) (a : Actor)
    (h : c.move b a = some c') : c.panicked = false := by
  cases hp : c.panicked with
  | false => rfl
  | true => cases a <;> simp [Chain.move, hp] at h

theorem Chain.step_ledger (c c' : Chain V E) (act : Action) (exact : Bool)
    (hx : exact = true → c.Lane) (h : c.step act = some c') (hnp : c'.panicked = false) :
    fnsOf c'.links = fnsOf c.links ∧ Rel exact c'.ledger c.ledger ∧
      (exact = true → c'.Lane) := by
  cases act with
  | solo a => exact Chain.move_ledger true c c' a exact hx h hnp
  | handoff snd rcv =>
    simp only [Chain.step] at h
    split at h
    · split at h
      · split at h
        · cases hm : c.move false snd with
          | none => simp [hm] at h
          | some c1 =>
            simp only [hm, Option.some_bind] at h
            have hp1 := Chain.move_panicked true c1 c' rcv h
            obtain ⟨f1, r1, l1⟩ := Chain.move_ledger false c c1 snd exact hx hm hp1
            obtain ⟨f2, r2, l2⟩ := Chain.move_ledger true c1 c' rcv exact l1 h hnp
            exact ⟨f2.trans f1, r2.trans r1, l2⟩
        · simp at h
      · simp at h
    · simp at h

theorem Chain.run_ledger (c c' : Chain V E) (sched : List Action) (exact : Bool)
    (hx : exact = true → c.Lane) (h : c.run sched = some c') (hnp : c'.panicked = false) :
    fnsOf c'.links = fnsOf c.links ∧ Rel exact c'.ledger c.ledger ∧
      (exact = true → c'.Lane) := by
  induction sched generalizing c with
  | nil =>
    simp only [Chain.run, Option.some.injEq] at h
    subst h
    exact ⟨rfl, Rel.refl _ _, hx⟩
  | cons a rest ih =>
    simp only [Chain.run] at h
    cases hs : c.step a with
    | none => simp [hs] at h
    | some c1 =>
      simp only [hs, Option.some_bind] at h
      have hp1 : c1.panicked = false := by
        cases rest with
        | nil =>
          simp only [Chain.run, Option.some.injEq] at h
          subst h
          exact hnp
        | cons a2 rest2 =>
          simp only [Chain.run] at h
          cases hs2 : c1.step a2 with
          | none => simp [hs2] at h
          | some c2 =>
            cases a2 with
            | solo x => exact Chain.move_panicked true c1 c2 x hs2
            | handoff snd rcv =>
              simp only [Chain.step] at hs2
              split at hs2
              · split at hs2
                · split at hs2
                  · cases hm : c1.move false snd with
                    | none => simp [hm] at hs2
                    | some c3 => exact Chain.move_panicked false c1 c3 snd hm
                  · simp at hs2
                · simp at hs2
              · simp at hs2
      obtain ⟨f1, r1, l1⟩ := Chain.step_ledger c c1 a exact hx hs hp1
      obtain ⟨f2, r2, l2⟩ := ih c1 l1 h
      exact ⟨f2.trans f1, r2.trans r1, l2⟩

/-! ## The closing discipline is an invariant -/

theorem sinkOf_cons (a b : Chan V) (l : Link V E) (rest : List (Link V E)) :
    sinkOf a (l :: rest) = sinkOf b (l :: rest) := rfl

theorem LinksOK_head (inp inp' : Chan V) (links : List (Link V E))
    (h : LinksOK inp links) (hf : inp.finished → inp'.finished) : LinksOK inp' links := by
  cases links with
  | nil => trivial
  | cons l rest =>
    obtain ⟨⟨h1, h2, h3, h4, h5⟩, hr⟩ := h
    exact ⟨⟨h1, h2, fun hd => hf (h3 hd), h4, h5⟩, hr⟩

theorem Link.OK.open_pool {inp : Chan V} {l : Link V E} (h : l.OK inp) {j : Nat}
    {wk : Worker V E} (hj : l.pool.workers[j]? = some wk) (hwk : wk.isDone = false) :
    l.pool.closed = false ∧ l.out.closed = false := by
  have : l.pool.closed = false := by
    cases hc : l.pool.closed with
    | false => rfl
    | true =>
      have := h.2.1 hc wk (List.getElem?_mem hj)
      rw [hwk] at this
      exact absurd this (by simp)
  exact ⟨this, h.1.trans this⟩

theorem mem_set_isDone (ws : List (Worker V E)) (j : Nat) (wk : Worker V E)
    (hwk : wk.isDone = false) (h : ∃ x ∈ ws.set j wk, x.isDone = true) :
    ∃ x ∈ ws, x.isDone = true := by
  obtain ⟨x, hx, hd⟩ := h
  rcases List.mem_or_eq_of_mem_set hx with hm | rfl
  · exact ⟨x, hm, hd⟩
  · rw [hwk] at hd
    exact absurd hd (by simp)

theorem set_ne_nil {α : Type} (l : List α) (j : Nat) (a : α) (h : l ≠ []) : l.set j a ≠ [] := by
  intro e
  have := congrArg List.length e
  simp only [List.length_set, List.length_nil] at this
  exact h (List.length_eq_zero.mp this)

theorem workerLocal_OK (b : Bool) (j : Nat) (inp : Chan V) (l : Link V E)
    (inp' : Chan V) (l' : Link V E) (eff : Eff E) (hok : l.OK inp)
    (h : workerLocal b j inp l = some (inp', l', eff)) :
    eff.panic = false ∧ l'.OK inp' ∧ inp'.closed = inp.closed ∧
      (inp.finished → inp'.finished) ∧ (l.out.finished → l'.out.finished) := by
  obtain ⟨h1, h2, h3, h4, h5⟩ := hok
  unfold workerLocal at h
  cases hj : l.pool.workers[j]? with
  | none => simp [hj] at h
  | some wk =>
    rw [hj] at h
    cases wk with
    | recv =>
      have hopen := Link.OK.open_pool ⟨h1, h2, h3, h4, h5⟩ hj rfl
      simp only at h
      cases hb : inp.buf with
      | nil =>
        rw [hb] at h
        simp only at h
        split at h
        · rename_i hc
          simp only [Option.some.injEq, Prod.mk.injEq] at h
          obtain ⟨rfl, rfl, rfl⟩ := h
          refine ⟨rfl, ⟨h1, ?_, fun _ => ⟨hc, hb⟩, h4, set_ne_nil _ _ _ h5⟩, rfl, id, id⟩
          intro hc'
          simp only [Link.setWorker] at hc'
          rw [hopen.1] at hc'
          exact absurd hc' (by simp)
        · simp at h
      | cons v buf =>
        rw [hb] at h
        simp only at h
        have key : ∀ wk' : Worker V E, wk'.isDone = false →
            (l.setWorker j wk').OK { inp with buf := buf } := by
          intro wk' hwk'
          refine ⟨h1, ?_, ?_, h4, set_ne_nil _ _ _ h5⟩
          · intro hc'
            simp only [Link.setWorker] at hc'
            rw [hopen.1] at hc'
            exact absurd hc' (by simp)
          · intro hd
            have := (h3 (mem_set_isDone _ _ _ hwk' hd)).2
            rw [hb] at this
            exact absurd this (by simp)
        have hfin : inp.finished → Chan.finished { inp with buf := buf } := by
          intro hf
          have := hf.2
          rw [hb] at this
          exact absurd this (by simp)
        split at h <;>
        · simp only [Option.some.injEq, Prod.mk.injEq] at h
          obtain ⟨rfl, rfl, rfl⟩ := h
          exact ⟨rfl, key _ rfl, rfl, hfin, id⟩
    | send res =>
      have hopen := Link.OK.open_pool ⟨h1, h2, h3, h4, h5⟩ hj rfl
      simp only [hopen.2, Bool.false_eq_true, if_false] at h
      split at h
      · simp at h
      · simp only [Option.some.injEq, Prod.mk.injEq] at h
        obtain ⟨rfl, rfl, rfl⟩ := h
        refine ⟨rfl, ⟨?_, ?_, ?_, h4, set_ne_nil _ _ _ h5⟩, rfl, id, ?_⟩
        · simp only [Link.setWorker]
          exact hopen.1.symm
        · intro hc'
          simp only [Link.setWorker] at hc'
          rw [hopen.1] at hc'
          exact absurd hc' (by simp)
        · intro hd
          exact h3 (mem_set_isDone _ j Worker.recv rfl hd)
        · intro hf
          have := hf.1
          rw [hopen.2] at this
          exact absurd this (by simp)
    | fail err =>
      have hopen := Link.OK.open_pool ⟨h1, h2, h3, h4, h5⟩ hj rfl
      simp only at h
      cases hef : l.errFn with
      | none => exact absurd hef h4
      | some f =>
        simp only [hef, Option.some.injEq, Prod.mk.injEq] at h
        obtain ⟨rfl, rfl, rfl⟩ := h
        refine ⟨rfl, ⟨h1, ?_, ?_, h4, set_ne_nil _ _ _ h5⟩, rfl, id, id⟩
        · intro hc'
          simp only [Link.setWorker] at hc'
          rw [hopen.1] at hc'
          exact absurd hc' (by simp)
        · intro hd
          exact h3 (mem_set_isDone _ j Worker.recv rfl hd)
    | done => simp at h

theorem closerLocal_OK (inp : Chan V) (l : Link V E)
    (inp' : Chan V) (l' : Link V E) (eff : Eff E) (hok : l.OK inp)
    (h : closerLocal inp l = some (inp', l', eff)) :
    eff.panic = false ∧ l'.OK inp' ∧ inp'.closed = inp.closed ∧
      (inp.finished → inp'.finished) ∧ (l.out.finished → l'.out.finished) := by
  obtain ⟨h1, h2, h3, h4, h5⟩ := hok
  unfold closerLocal at h
  split at h
  · simp at h
  · rename_i hpc
    split at h
    · rename_i hall
      have hoc : l.out.closed = false := by
        rw [h1]
        simpa using hpc
      simp only [hoc, Bool.false_eq_true, if_false, Option.some.injEq, Prod.mk.injEq] at h
      obtain ⟨rfl, rfl, rfl⟩ := h
      refine ⟨rfl, ⟨rfl, ?_, h3, h4, h5⟩, rfl, id, ?_⟩
      · intro _
        simpa using hall
      · intro hf
        have := hf.1
        rw [hoc] at this
        exact absurd this (by simp)
    · simp at h

theorem atLink_OK (f : Chan V → Link V E → Option (Chan V × Link V E × Eff E))
    (hf : ∀ inp l inp' l' eff, l.OK inp → f inp l = some (inp', l', eff) →
      eff.panic = false ∧ l'.OK inp' ∧ inp'.closed = inp.closed ∧
        (inp.finished → inp'.finished) ∧ (l.out.finished → l'.out.finished))
    (inp : Chan V) (links : List (Link V E)) (i : Nat) (r : Chan V × List (Link V E) × Eff E)
    (hok : LinksOK inp links) (h : atLink f inp links i = some r) :
    r.2.2.panic = false ∧ LinksOK r.1 r.2.1 ∧ r.1.closed = inp.closed ∧
      (inp.finished → r.1.finished) ∧
      ((sinkOf inp links).finished → (sinkOf r.1 r.2.1).finished) := by
  induction links generalizing inp i r with
  | nil => simp [atLink] at h
  | cons l rest ih =>
    cases i with
    | zero =>
      simp only [atLink, Option.map_eq_some'] at h
      obtain ⟨⟨inp', l', eff⟩, h1, rfl⟩ := h
      obtain ⟨hp, hl, hc, hfi, hfo⟩ := hf inp l inp' l' eff hok.1 h1
      refine ⟨hp, ⟨hl, LinksOK_head _ _ _ hok.2 hfo⟩, hc, hfi, ?_⟩
      cases rest with
      | nil => exact hfo
      | cons x xs => exact id
    | succ i =>
      simp only [atLink, Option.map_eq_some'] at h
      obtain ⟨⟨o', rest', eff⟩, h1, rfl⟩ := h
      obtain ⟨hp, hl, hc, hfi, hs⟩ := ih l.out i (o', rest', eff) hok.2 h1
      obtain ⟨k1, k2, k3, k4, k5⟩ := hok.1
      exact ⟨hp, ⟨⟨hc.trans k1, k2, k3, k4, k5⟩, hl⟩, rfl, id, hs⟩

theorem atSink_OK (inp : Chan V) (links : List (Link V E))
    (r : Chan V × List (Link V E) × Option V) (hok : LinksOK inp links)
    (h : atSink consumerLocal inp links = some r) :
    LinksOK r.1 r.2.1 ∧ r.1.closed = inp.closed ∧ (inp.finished → r.1.finished) ∧
      ((sinkOf inp links).finished → (sinkOf r.1 r.2.1).finished) ∧
      (r.2.2 = none → (sinkOf r.1 r.2.1).finished) := by
  induction links generalizing inp r with
  | nil =>
    simp only [atSink, Option.map_eq_some'] at h
    obtain ⟨⟨ch, ov⟩, h1, rfl⟩ := h
    unfold consumerLocal at h1
    split at h1
    · rename_i v rest hb
      simp only [Option.some.injEq, Prod.mk.injEq] at h1
      obtain ⟨rfl, rfl⟩ := h1
      have hfin : inp.finished → Chan.finished { inp with buf := rest } := by
        intro hf
        have := hf.2
        rw [hb] at this
        exact absurd this (by simp)
      exact ⟨trivial, rfl, hfin, hfin, by simp⟩
    · rename_i hb
      split at h1
      · rename_i hc
        simp only [Option.some.injEq, Prod.mk.injEq] at h1
        obtain ⟨rfl, rfl⟩ := h1
        exact ⟨trivial, rfl, id, id, fun _ => ⟨hc, hb⟩⟩
      · simp at h1
  | cons l rest ih =>
    simp only [atSink, Option.map_eq_some'] at h
    obtain ⟨⟨o', rest', ov⟩, h1, rfl⟩ := h
    obtain ⟨hl, hc, hfi, hs, hn⟩ := ih l.out (o', rest', ov) hok.2 h1
    obtain ⟨k1, k2, k3, k4, k5⟩ := hok.1
    exact ⟨⟨⟨hc.trans k1, k2, k3, k4, k5⟩, hl⟩, rfl, id, hs, hn⟩

theorem FeedShape_cons (op : FeedOp V) (rest : List (FeedOp V)) (h : FeedShape (op :: rest)) :
    (rest = [] ∧ op.isClose = true) ∨ (rest ≠ [] ∧ op.isClose = false ∧ FeedShape rest) := by
  cases rest with
  | nil => exact Or.inl ⟨rfl, h⟩
  | cons x xs => exact Or.inr ⟨by simp, h.1, h.2⟩

theorem sinkOf_finished_of_head (inp inp' : Chan V) (links : List (Link V E))
    (hf : inp.finished → inp'.finished) (h : (sinkOf inp links).finished) :
    (sinkOf inp' links).finished := by
  cases links with
  | nil => exact hf h
  | cons l rest => exact h

theorem Chain.feeder_move_OK (b : Bool) (c c' : Chain V E) (k : Nat) (hok : c.OK)
    (h : c.move b (Actor.feeder k) = some c') : c'.OK := by
  obtain ⟨hnp, hl, ⟨script, hfe, hsh, hcl⟩, hsc⟩ := hok
  simp only [Chain.move, hnp, Bool.false_eq_true, if_false] at h
  cases k with
  | succ k => simp [hfe] at h
  | zero =>
    simp only [hfe, List.getElem?_cons_zero, Option.map_eq_some'] at h
    obtain ⟨r, h1, rfl⟩ := h
    cases script with
    | nil => simp [feederLocal] at h1
    | cons op rest =>
      have hopen : c.source.closed = false := by
        cases hc : c.source.closed with
        | false => rfl
        | true => exact absurd (hcl.mp hc) (by simp)
      have hnf : ¬ c.source.finished := by
        intro hf
        have := hf.1
        rw [hopen] at this
        exact absurd this (by simp)
      cases op with
      | wait d =>
        simp only [feederLocal, Option.some.injEq] at h1
        subst h1
        rcases FeedShape_cons _ _ hsh with ⟨_, hx⟩ | ⟨hne, _, hsh'⟩
        · simp [FeedOp.isClose] at hx
        · refine ⟨rfl, hl, ⟨rest, by simp, hsh', ?_⟩, hsc⟩
          simp [hopen, hne]
      | send v =>
        simp only [feederLocal, hopen, Bool.false_eq_true, if_false] at h1
        split at h1
        · simp at h1
        · simp only [Option.some.injEq] at h1
          subst h1
          rcases FeedShape_cons _ _ hsh with ⟨_, hx⟩ | ⟨hne, _, hsh'⟩
          · simp [FeedOp.isClose] at hx
          · refine ⟨rfl, LinksOK_head _ _ _ hl (fun hf => absurd hf hnf),
              ⟨rest, by simp, hsh', ?_⟩, fun hs => ?_⟩
            · simp [hopen, hne]
            · exact sinkOf_finished_of_head _ _ _ (fun hf => absurd hf hnf) (hsc hs)
      | close =>
        simp only [feederLocal, hopen, Bool.false_eq_true, if_false, Option.some.injEq] at h1
        subst h1
        rcases FeedShape_cons _ _ hsh with ⟨hre, _⟩ | ⟨_, hx, _⟩
        · refine ⟨rfl, LinksOK_head _ _ _ hl (fun hf => absurd hf hnf),
            ⟨rest, by simp, by simp [hre, FeedShape], ?_⟩, fun hs => ?_⟩
          · simp [hre]
          · exact sinkOf_finished_of_head _ _ _ (fun hf => absurd hf hnf) (hsc hs)
        · simp [FeedOp.isClose] at hx

theorem Chain.link_move_OK (f : Chan V → Link V E → Option (Chan V × Link V E × Eff E))
    (hf : ∀ inp l inp' l' eff, l.OK inp → f inp l = some (inp', l', eff) →
      eff.panic = false ∧ l'.OK inp' ∧ inp'.closed = inp.closed ∧
        (inp.finished → inp'.finished) ∧ (l.out.finished → l'.out.finished))
    (c : Chain V E) (i : Nat) (r : Chan V × List (Link V E) × Eff E) (hok : c.OK)
    (h : atLink f c.source c.links i = some r) : (c.afterLink r).OK := by
  obtain ⟨hnp, hl, ⟨script, hfe, hsh, hcl⟩, hsc⟩ := hok
  obtain ⟨hp, hl', hc, _, hs⟩ := atLink_OK f hf c.source c.links i r hl h
  refine ⟨hp, hl', ⟨script, hfe, hsh, ?_⟩, fun hx => hs (hsc hx)⟩
  simp only [Chain.afterLink, hc]
  exact hcl

theorem Chain.move_OK (b : Bool) (c c' : Chain V E) (a : Actor) (hok : c.OK)
    (h : c.move b a = some c') : c'.OK := by
  cases a with
  | feeder k => exact Chain.feeder_move_OK b c c' k hok h
  | worker i j =>
    simp only [Chain.move, hok.1, Bool.false_eq_true, if_false, Option.map_eq_some'] at h
    obtain ⟨r, h1, rfl⟩ := h
    exact Chain.link_move_OK (workerLocal b j) (workerLocal_OK b j) c i r hok h1
  | closer i =>
    simp only [Chain.move, hok.1, Bool.false_eq_true, if_false, Option.map_eq_some'] at h
    obtain ⟨r, h1, rfl⟩ := h
    exact Chain.link_move_OK closerLocal closerLocal_OK c i r hok h1
  | consumer =>
    obtain ⟨hnp, hl, ⟨script, hfe, hsh, hcl⟩, hsc⟩ := hok
    simp only [Chain.move, hnp, Bool.false_eq_true, if_false] at h
    split at h
    · simp at h
    · rename_i hsaw
      simp only [Option.map_eq_some'] at h
      obtain ⟨r, h1, rfl⟩ := h
      obtain ⟨hl', hc, _, hs, hn⟩ := atSink_OK c.source c.links r hl h1
      cases hv : r.2.2 with
      | none =>
        refine ⟨rfl, hl', ⟨script, hfe, hsh, ?_⟩, fun _ => hn hv⟩
        simp only [hc]
        exact hcl
      | some v =>
        refine ⟨rfl, hl', ⟨script, hfe, hsh, ?_⟩, fun hx => ?_⟩
        · simp only [hc]
          exact hcl
        · exact absurd hx hsaw

theorem Chain.step_OK (c c' : Chain V E) (act : Action) (hok : c.OK)
    (h : c.step act = some c') : c'.OK := by
  cases act with
  | solo a => exact Chain.move_OK true c c' a hok h
  | handoff snd rcv =>
    simp only [Chain.step] at h
    split at h
    · split at h
      · split at h
        · cases hm : c.move false snd with
          | none => simp [hm] at h
          | some c1 =>
            simp only [hm, Option.some_bind] at h
            exact Chain.move_OK true c1 c' rcv (Chain.move_OK false c c1 snd hok hm) h
        · simp at h
      · simp at h
    · simp at h

theorem Chain.run_OK (c c' : Chain V E) (sched : List Action) (hok : c.OK)
    (h : c.run sched = some c') : c'.OK := by
  induction sched generalizing c with
  | nil =>
    simp only [Chain.run, Option.some.injEq] at h
    subst h
    exact hok
  | cons a rest ih =>
    simp only [Chain.run] at h
    cases hs : c.step a with
    | none => simp [hs] at h
    | some c1 =>
      simp only [hs, Option.some_bind] at h
      exact ih c1 (Chain.step_OK c c1 a hok hs) h

/-! ## The state once the caller has seen the sink closed -/

theorem flatMap_pending_done (fns : List (stageFunc V E)) (ws : List (Worker V E))
    (h : ∀ wk ∈ ws, wk.isDone = true) : ws.flatMap (Worker.pending fns) = [] := by
  induction ws with
  | nil => rfl
  | cons a rest ih =>
    have ha := h a (List.mem_cons_self _ _)
    cases a <;> simp [Worker.isDone] at ha
    simp [Worker.pending, ih fun wk hw => h wk (List.mem_cons_of_mem _ hw)]

theorem LinksOK_finished (inp : Chan V) (links : List (Link V E)) (hok : LinksOK inp links)
    (hs : (sinkOf inp links).finished) :
    inp.finished ∧ pendLinks inp links = [] ∧
      ∀ l ∈ links, l.out.finished ∧ l.pool.closed = true ∧
        ∀ wk ∈ l.pool.workers, wk.isDone = true := by
  induction links generalizing inp with
  | nil =>
    have hb : inp.buf = [] := hs.2
    refine ⟨hs, ?_, by simp⟩
    simp [pendLinks, hb]
  | cons l rest ih =>
    obtain ⟨ho, hp, hall⟩ := ih l.out hok.2 hs
    obtain ⟨k1, k2, k3, k4, k5⟩ := hok.1
    have hpc : l.pool.closed = true := k1 ▸ ho.1
    have hd := k2 hpc
    obtain ⟨wk, hwk⟩ := List.exists_mem_of_ne_nil _ k5
    have hi := k3 ⟨wk, hwk, hd wk hwk⟩
    refine ⟨hi, ?_, ?_⟩
    · simp [pendLinks, hp, flatMap_pending_done _ _ hd, hi.2]
    · intro x hx
      rcases List.mem_cons.mp hx with rfl | hm
      · exact ⟨ho, hpc, hd⟩
      · exact hall x hm

theorem Chain.OK.final_ledger {c : Chain V E} (hok : c.OK) (hs : c.sawClose = true) :
    c.ledger = c.calls.map (fun x => Except.error x.2) ++ c.received.map Except.ok ∧
      c.feeders = [[]] ∧
      (∀ l ∈ c.links, l.out.finished ∧ l.pool.closed = true ∧
        ∀ wk ∈ l.pool.workers, wk.isDone = true) ∧ c.source.finished := by
  obtain ⟨_, hl, ⟨script, hfe, _, hcl⟩, hsc⟩ := hok
  obtain ⟨hi, hp, hall⟩ := LinksOK_finished c.source c.links hl (hsc hs)
  have hsn : script = [] := hcl.mp hi.1
  subst hsn
  refine ⟨?_, hfe, hall, hi⟩
  simp [Chain.ledger, hp, hfe]

/-! ## Every step lowers the bound -/

theorem sum_map_set {α : Type} (l : List α) (j : Nat) (a b : α) (g : α → Nat)
    (h : l[j]? = some a) : ((l.set j b).map g).sum + g a = (l.map g).sum + g b := by
  induction l generalizing j with
  | nil => simp at h
  | cons x rest ih =>
    cases j with
    | zero =>
      simp only [List.getElem?_cons_zero, Option.some.injEq] at h
      subst h
      simp only [List.set_cons_zero, List.map_cons, List.sum_cons]
      omega
    | succ j =>
      simp only [List.getElem?_cons_succ] at h
      have := ih j h
      simp only [List.set_cons_succ, List.map_cons, List.sum_cons]
      omega

theorem workerLocal_mu (b : Bool) (j : Nat) (inp : Chan V) (l : Link V E)
    (inp' : Chan V) (l' : Link V E) (eff : Eff E) (m : Nat)
    (h : workerLocal b j inp l = some (inp', l', eff)) :
    localMu m inp' l' + (if eff.panic then 0 else 1) ≤ localMu m inp l := by
  unfold workerLocal at h
  cases hj : l.pool.workers[j]? with
  | none => simp [hj] at h
  | some wk =>
    rw [hj] at h
    cases wk with
    | recv =>
      simp only at h
      cases hb : inp.buf with
      | nil =>
        rw [hb] at h
        simp only at h
        split at h
        · simp only [Option.some.injEq, Prod.mk.injEq] at h
          obtain ⟨rfl, rfl, rfl⟩ := h
          have := sum_map_set l.pool.workers j Worker.recv Worker.done (Worker.weight m) hj
          simp only [Worker.weight] at this
          simp only [localMu, Link.setWorker, Bool.false_eq_true, if_false]
          omega
        · simp at h
      | cons v buf =>
        rw [hb] at h
        simp only at h
        cases hf : (l.fn v).2 with
        | none =>
          simp only [hf, Option.some.injEq, Prod.mk.injEq] at h
          obtain ⟨rfl, rfl, rfl⟩ := h
          have h1 := sum_map_set l.pool.workers j Worker.recv (Worker.send (l.fn v).1)
            (Worker.weight m) hj
          simp only [Worker.weight] at h1
          simp only [localMu, Link.setWorker, Bool.false_eq_true, if_false, hb,
            List.length_cons, Nat.add_mul, Nat.one_mul]
          omega
        | some err =>
          simp only [hf, Option.some.injEq, Prod.mk.injEq] at h
          obtain ⟨rfl, rfl, rfl⟩ := h
          have h1 := sum_map_set l.pool.workers j Worker.recv (Worker.fail err)
            (Worker.weight m) hj
          simp only [Worker.weight] at h1
          simp only [localMu, Link.setWorker, Bool.false_eq_true, if_false, hb,
            List.length_cons, Nat.add_mul, Nat.one_mul]
          omega
    | send res =>
      simp only at h
      have h1 := sum_map_set l.pool.workers j (Worker.send res) Worker.recv (Worker.weight m) hj
      simp only [Worker.weight] at h1
      split at h
      · simp only [Option.some.injEq, Prod.mk.injEq] at h
        obtain ⟨rfl, rfl, rfl⟩ := h
        simp only [localMu, Link.setWorker, if_true]
        omega
      · split at h
        · simp at h
        · simp only [Option.some.injEq, Prod.mk.injEq] at h
          obtain ⟨rfl, rfl, rfl⟩ := h
          simp only [localMu, Link.setWorker, Bool.false_eq_true, if_false, List.length_append,
            List.length_singleton, Nat.add_mul, Nat.one_mul]
          omega
    | fail err =>
      simp only at h
      have h1 := sum_map_set l.pool.workers j (Worker.fail err) Worker.recv (Worker.weight m) hj
      simp only [Worker.weight] at h1
      cases hef : l.errFn with
      | none =>
        simp only [hef, Option.some.injEq, Prod.mk.injEq] at h
        obtain ⟨rfl, rfl, rfl⟩ := h
        simp
      | some f =>
        simp only [hef, Option.some.injEq, Prod.mk.injEq] at h
        obtain ⟨rfl, rfl, rfl⟩ := h
        simp only [localMu, Link.setWorker, Bool.false_eq_true, if_false]
        omega
    | done => simp at h

theorem closerLocal_mu (inp : Chan V) (l : Link V E)
    (inp' : Chan V) (l' : Link V E) (eff : Eff E) (m : Nat)
    (h : closerLocal inp l = some (inp', l', eff)) :
    localMu m inp' l' + (if eff.panic then 0 else 1) ≤ localMu m inp l := by
  unfold closerLocal at h
  split at h
  · simp at h
  · rename_i hpc
    split at h
    · split at h <;>
      · simp only [Option.some.injEq, Prod.mk.injEq] at h
        obtain ⟨rfl, rfl, rfl⟩ := h
        simp only [localMu, hpc, if_true, if_false, Bool.false_eq_true]
        omega
    · simp at h

theorem atLink_mu (f : Chan V → Link V E → Option (Chan V × Link V E × Eff E))
    (hf : ∀ inp l inp' l' eff m, f inp l = some (inp', l', eff) →
      localMu m inp' l' + (if eff.panic then 0 else 1) ≤ localMu m inp l)
    (inp : Chan V) (links : List (Link V E)) (i : Nat) (r : Chan V × List (Link V E) × Eff E)
    (h : atLink f inp links i = some r) :
    r.2.1.length = links.length ∧
      r.1.buf.length * (2 * links.length + 1) + muRest r.2.1 +
        (if r.2.2.panic then 0 else 1) ≤
      inp.buf.length * (2 * links.length + 1) + muRest links := by
  induction links generalizing inp i r with
  | nil => simp [atLink] at h
  | cons l rest ih =>
    cases i with
    | zero =>
      simp only [atLink, Option.map_eq_some'] at h
      obtain ⟨⟨inp', l', eff⟩, h1, rfl⟩ := h
      have := hf inp l inp' l' eff rest.length h1
      simp only [localMu] at this
      refine ⟨rfl, ?_⟩
      simp only [muRest, List.length_cons]
      have e : 2 * (rest.length + 1) + 1 = 2 * rest.length + 3 := by omega
      rw [e]
      omega
    | succ i =>
      simp only [atLink, Option.map_eq_some'] at h
      obtain ⟨⟨o', rest', eff⟩, h1, rfl⟩ := h
      obtain ⟨hlen, hmu⟩ := ih l.out i (o', rest', eff) h1
      simp only at hlen hmu
      refine ⟨by simp [hlen], ?_⟩
      simp only [muRest, List.length_cons, hlen]
      omega

theorem atSink_mu (inp : Chan V) (links : List (Link V E))
    (r : Chan V × List (Link V E) × Option V)
    (h : atSink consumerLocal inp links = some r) :
    r.2.1.length = links.length ∧
      r.1.buf.length * (2 * links.length + 1) + muRest r.2.1 +
        (match r.2.2 with
          | some _ => 1
          | none => 0) =
      inp.buf.length * (2 * links.length + 1) + muRest links := by
  induction links generalizing inp r with
  | nil =>
    simp only [atSink, Option.map_eq_some'] at h
    obtain ⟨⟨ch, ov⟩, h1, rfl⟩ := h
    unfold consumerLocal at h1
    split at h1
    · rename_i v rest hb
      simp only [Option.some.injEq, Prod.mk.injEq] at h1
      obtain ⟨rfl, rfl⟩ := h1
      simp [muRest, hb]
    · split at h1
      · simp only [Option.some.injEq, Prod.mk.injEq] at h1
        obtain ⟨rfl, rfl⟩ := h1
        simp [muRest]
      · simp at h1
  | cons l rest ih =>
    simp only [atSink, Option.map_eq_some'] at h
    obtain ⟨⟨o', rest', ov⟩, h1, rfl⟩ := h
    obtain ⟨hlen, hmu⟩ := ih l.out (o', rest', ov) h1
    simp only at hlen hmu
    refine ⟨by simp [hlen], ?_⟩
    simp only [muRest, List.length_cons, hlen]
    omega

theorem feederLocal_mu (b : Bool) (src : Chan V) (script : List (FeedOp V)) (n : Nat)
    (r : Chan V × List (FeedOp V) × Bool) (h : feederLocal b src script = some r) :
    (r.2.1.map (FeedOp.weight n)).sum + r.1.buf.length * (2 * n + 1) + 1 ≤
      (script.map (FeedOp.weight n)).sum + src.buf.length * (2 * n + 1) := by
  cases script with
  | nil => simp [feederLocal] at h
  | cons op rest =>
    cases op with
    | wait d =>
      simp only [feederLocal, Option.some.injEq] at h
      subst h
      simp only [List.map_cons, List.sum_cons, FeedOp.weight]
      omega
    | send v =>
      simp only [feederLocal] at h
      split at h
      · simp only [Option.some.injEq] at h
        subst h
        simp only [List.map_cons, List.sum_cons, FeedOp.weight, List.map_nil, List.sum_nil]
        omega
      · split at h
        · simp at h
        · simp only [Option.some.injEq] at h
          subst h
          simp only [List.map_cons, List.sum_cons, FeedOp.weight, List.length_append,
            List.length_singleton, Nat.add_mul, Nat.one_mul]
          omega
    | close =>
      simp only [feederLocal] at h
      split at h <;>
      · simp only [Option.some.injEq] at h
        subst h
        simp only [List.map_cons, List.sum_cons, FeedOp.weight]
        omega

theorem Chain.link_move_mu (f : Chan V → Link V E → Option (Chan V × Link V E × Eff E))
    (hf : ∀ inp l inp' l' eff m, f inp l = some (inp', l', eff) →
      localMu m inp' l' + (if eff.panic then 0 else 1) ≤ localMu m inp l)
    (c : Chain V E) (i : Nat) (r : Chan V × List (Link V E) × Eff E)
    (hnp : c.panicked = false) (h : atLink f c.source c.links i = some r) :
    (c.afterLink r).mu < c.mu := by
  obtain ⟨hlen, hmu⟩ := atLink_mu f hf c.source c.links i r h
  simp only [Chain.mu, Chain.afterLink, hlen, hnp, Bool.false_eq_true, if_false]
  omega

theorem Chain.move_mu (b : Bool) (c c' : Chain V E) (a : Actor)
    (h : c.move b a = some c') : c'.mu < c.mu := by
  have hnp := Chain.move_panicked b c c' a h
  cases a with
  | feeder k =>
    simp only [Chain.move, hnp, Bool.false_eq_true, if_false] at h
    cases hk : c.feeders[k]? with
    | none => simp [hk] at h
    | some script =>
      simp only [hk, Option.map_eq_some'] at h
      obtain ⟨r, h1, rfl⟩ := h
      have h2 := feederLocal_mu b c.source script c.links.length r h1
      have h3 := sum_map_set c.feeders k script r.2.1
        (fun script => (script.map (FeedOp.weight c.links.length)).sum) hk
      simp only at h3
      simp only [Chain.mu, hnp, Bool.false_eq_true, if_false]
      split <;> omega
  | worker i j =>
    simp only [Chain.move, hnp, Bool.false_eq_true, if_false, Option.map_eq_some'] at h
    obtain ⟨r, h1, rfl⟩ := h
    exact Chain.link_move_mu (workerLocal b j) (workerLocal_mu b j) c i r hnp h1
  | closer i =>
    simp only [Chain.move, hnp, Bool.false_eq_true, if_false, Option.map_eq_some'] at h
    obtain ⟨r, h1, rfl⟩ := h
    exact Chain.link_move_mu closerLocal closerLocal_mu c i r hnp h1
  | consumer =>
    simp only [Chain.move, hnp, Bool.false_eq_true, if_false] at h
    split at h
    · simp at h
    · rename_i hsaw
      simp only [Option.map_eq_some'] at h
      obtain ⟨r, h1, rfl⟩ := h
      obtain ⟨hlen, hmu⟩ := atSink_mu c.source c.links r h1
      cases hv : r.2.2 with
      | none =>
        rw [hv] at hmu
        simp only at hmu
        simp only [Chain.mu, hnp, hsaw, hlen, Bool.false_eq_true, if_false, if_true]
        omega
      | some v =>
        rw [hv] at hmu
        simp only at hmu
        simp only [Chain.mu, hnp, hsaw, hlen, Bool.false_eq_true, if_false]
        omega

theorem Chain.step_mu (c c' : Chain V E) (act : Action)
    (h : c.step act = some c') : c'.mu < c.mu := by
  cases act with
  | solo a => exact Chain.move_mu true c c' a h
  | handoff snd rcv =>
    simp only [Chain.step] at h
    split at h
    · split at h
      · split at h
        · cases hm : c.move false snd with
          | none => simp [hm] at h
          | some c1 =>
            simp only [hm, Option.some_bind] at h
            exact (Chain.move_mu true c1 c' rcv h).trans (Chain.move_mu false c c1 snd hm)
        · simp at h
      · simp at h
    · simp at h

theorem Chain.run_mu (c c' : Chain V E) (sched : List Action)
    (h : c.run sched = some c') : c'.mu + sched.length ≤ c.mu := by
  induction sched generalizing c with
  | nil =>
    simp only [Chain.run, Option.some.injEq] at h
    subst h
    simp
  | cons a rest ih =>
    simp only [Chain.run] at h
    cases hs : c.step a with
    | none => simp [hs] at h
    | some c1 =>
      simp only [hs, Option.some_bind] at h
      have h1 := Chain.step_mu c c1 a hs
      have h2 := ih c1 h
      simp only [List.length_cons]
      omega

/-! ## No deadlock before the caller has seen the sink closed -/

theorem Chain.under_move (l : Link V E) (inp : Chan V) (sub : Chain V E) (b : Bool)
    (a : Actor) (ha : a.internal = true) :
    (sub.under l inp).move b a.shift = (sub.move b a).map (Chain.under l inp) := by
  cases a with
  | feeder k => simp [Actor.internal] at ha
  | worker i j =>
    simp only [Actor.shift, Chain.move, Chain.under]
    split
    · rfl
    · simp only [atLink, Option.map_map]
      rfl
  | closer i =>
    simp only [Actor.shift, Chain.move, Chain.under]
    split
    · rfl
    · simp only [atLink, Option.map_map]
      rfl
  | consumer =>
    simp only [Actor.shift, Chain.move, Chain.under]
    split
    · rfl
    · split
      · rfl
      · simp only [atSink, Option.map_map]
        congr 1
        funext r
        simp only [Function.comp_apply]
        cases r.2.2 <;> rfl

theorem Chain.under_sendTarget (l : Link V E) (inp : Chan V) (sub : Chain V E)
    (a : Actor) (ha : a.internal = true) :
    (sub.under l inp).sendTarget a.shift = (sub.sendTarget a).map (· + 1) := by
  cases a with
  | feeder k => simp [Actor.internal] at ha
  | worker i j =>
    simp only [Actor.shift, Chain.sendTarget, Chain.under, List.getElem?_cons_succ]
    cases sub.links[i]? with
    | none => rfl
    | some x =>
      simp only
      split <;> simp
  | closer i => rfl
  | consumer => rfl

theorem Chain.under_recvSource (l : Link V E) (inp : Chan V) (sub : Chain V E)
    (a : Actor) (ha : a.internal = true) :
    (sub.under l inp).recvSource a.shift = (sub.recvSource a).map (· + 1) := by
  cases a with
  | feeder k => simp [Actor.internal] at ha
  | worker i j =>
    simp only [Actor.shift, Chain.recvSource, Chain.under, List.getElem?_cons_succ]
    cases sub.links[i]? with
    | none => rfl
    | some x =>
      simp only
      split <;> simp
  | closer i => rfl
  | consumer =>
    simp only [Actor.shift, Chain.recvSource, Chain.under, List.length_cons]
    split <;> simp

theorem Chain.under_queue (l : Link V E) (inp : Chan V) (sub : Chain V E) (a : Nat) :
    (sub.under l inp).queue (a + 1) = sub.queue a := by
  cases a with
  | zero => simp [Chain.queue, Chain.under]
  | succ a => simp [Chain.queue, Chain.under]

theorem Chain.under_step (l : Link V E) (inp : Chan V) (sub : Chain V E)
    (act : Action) (ha : act.internal = true) :
    (sub.under l inp).step act.shift = (sub.step act).map (Chain.under l inp) := by
  cases act with
  | solo a => exact Chain.under_move l inp sub true a ha
  | handoff snd rcv =>
    simp only [Action.internal, Bool.and_eq_true] at ha
    simp only [Action.shift, Chain.step, Chain.under_sendTarget l inp sub snd ha.1,
      Chain.under_recvSource l inp sub rcv ha.2]
    cases sub.sendTarget snd with
    | none => rfl
    | some a =>
      cases sub.recvSource rcv with
      | none => rfl
      | some b =>
        simp only [Option.map_some', Chain.under_queue]
        cases sub.queue a with
        | none => rfl
        | some ch =>
          simp only [Nat.add_right_cancel_iff]
          split
          · rw [Chain.under_move l inp sub false snd ha.1]
            cases hm : sub.move false snd with
            | none => rfl
            | some s1 =>
              simp only [Option.map_some', Option.some_bind]
              exact Chain.under_move l inp s1 true rcv ha.2
          · rfl

theorem Chain.eq_under (c : Chain V E) (l : Link V E) (rest : List (Link V E))
    (h : c.links = l :: rest) : c = (c.tail l rest).under l c.source := by
  cases c
  simp only [Chain.under, Chain.tail] at h ⊢
  subst h
  rfl

theorem exists_not_done (ws : List (Worker V E)) (h : ws.all Worker.isDone = false) :
    ∃ (j : Nat) (wk : Worker V E), ws[j]? = some wk ∧ wk.isDone = false := by
  have : ¬ ∀ x ∈ ws, Worker.isDone x = true := by
    intro hall
    rw [List.all_eq_true.mpr hall] at h
    exact absurd h (by simp)
  push_neg at this
  obtain ⟨wk, hm, hd⟩ := this
  obtain ⟨j, hj⟩ := List.mem_iff_getElem?.mp hm
  exact ⟨j, wk, hj, by simpa using hd⟩

theorem Chain.head_move_isSome (f : Chan V → Link V E → Option (Chan V × Link V E × Eff E))
    (c : Chain V E) (l : Link V E) (rest : List (Link V E)) (h : c.links = l :: rest)
    (hf : (f c.source l).isSome = true) :
    (atLink f c.source c.links 0).isSome = true := by
  rw [h]
  simp only [atLink]
  cases hx : f c.source l with
  | none => simp [hx] at hf
  | some r => rfl

theorem Actor.internal_shift (a : Actor) : a.shift.internal = a.internal := by
  cases a <;> rfl

theorem Action.shift_internal (act : Action) : act.shift.internal = act.internal := by
  cases act <;> simp [Action.shift, Action.internal, Actor.internal_shift]

theorem Chain.solo_link_isSome (f : Chan V → Link V E → Option (Chan V × Link V E × Eff E))
    (c : Chain V E) (l : Link V E) (rest : List (Link V E)) (h : c.links = l :: rest)
    (hf : (f c.source l).isSome = true) :
    ((atLink f c.source c.links 0).map c.afterLink).isSome = true := by
  have := Chain.head_move_isSome f c l rest h hf
  cases hx : atLink f c.source c.links 0 with
  | none => simp [hx] at this
  | some r => rfl

theorem Chain.handoff_link_isSome (c : Chain V E) (l : Link V E) (rest : List (Link V E))
    (hl : c.links = l :: rest) (hnp : c.panicked = false) (j : Nat) (res : V)
    (hj : l.pool.workers[j]? = some (Worker.send res)) (hob : l.out.buf = [])
    (hoc : l.out.closed = false) (rcv : Actor) (hr : (c.tail l rest).Ready rcv) :
    (c.step (Action.handoff (Actor.worker 0 j) rcv.shift)).isSome = true := by
  obtain ⟨hr1, hr2, hr3⟩ := hr
  have hcu := Chain.eq_under c l rest hl
  have hst : c.sendTarget (Actor.worker 0 j) = some 1 := by
    simp [Chain.sendTarget, hl, hj]
  have hrs : c.recvSource rcv.shift = some 1 := by
    rw [hcu, Chain.under_recvSource l c.source _ rcv hr1, hr2]
    rfl
  have hq : c.queue 1 = some l.out := by
    simp [Chain.queue, hl]
  have hm : c.move false (Actor.worker 0 j) =
      some (c.afterLink (c.source,
        { l.setWorker j Worker.recv with out := { l.out with buf := l.out.buf ++ [res] } } :: rest,
        { calls := [], panic := false })) := by
    simp [Chain.move, hnp, hl, atLink, workerLocal, hj, hoc]
  have key : ∀ (c1 : Chain V E) (l1 : Link V E), c1.links = l1 :: rest →
      c1.sawClose = c.sawClose → c1.panicked = false → l1.out.buf ≠ [] →
      (c1.move true rcv.shift).isSome = true := by
    intro c1 l1 h1 h2 h3 h4
    rw [Chain.eq_under c1 l1 rest h1, Chain.under_move _ _ _ true rcv hr1]
    have := hr3 (c1.tail l1 rest) rfl h2 h3 h4
    cases hx : Chain.move true (c1.tail l1 rest) rcv with
    | none => simp [hx] at this
    | some r => rfl
  simp only [Chain.step, hst, hrs, hq, hm, Option.some_bind]
  rw [if_pos ⟨trivial, by simp [hob], hoc⟩]
  exact key _ _ rfl rfl rfl (by simp)

theorem progress_links (links : List (Link V E)) :
    ∀ c : Chain V E, c.links = links → LinksOK c.source c.links → c.panicked = false →
      c.sawClose = false →
      (∃ act, act.internal = true ∧ (c.step act).isSome = true) ∨
        (c.source.buf = [] ∧ c.source.closed = false ∧ ∃ rcv, c.Ready rcv) := by
  induction links with
  | nil =>
    intro c hl _ hnp hsc
    have hcons : ∀ c' : Chain V E, c'.links = c.links → c'.sawClose = c.sawClose →
        c'.panicked = false → (consumerLocal c'.source).isSome = true →
        (c'.move true Actor.consumer).isSome = true := by
      intro c' h1 h2 h3 h4
      simp only [Chain.move, h3, h2, hsc, h1, hl, Bool.false_eq_true, if_false, atSink]
      cases hx : consumerLocal c'.source with
      | none => simp [hx] at h4
      | some r => rfl
    cases hb : c.source.buf with
    | cons v buf =>
      left
      refine ⟨Action.solo Actor.consumer, rfl, hcons c rfl rfl hnp ?_⟩
      simp [consumerLocal, hb]
    | nil =>
      cases hc : c.source.closed with
      | true =>
        left
        refine ⟨Action.solo Actor.consumer, rfl, hcons c rfl rfl hnp ?_⟩
        simp [consumerLocal, hb, hc]
      | false =>
        right
        refine ⟨rfl, rfl, Actor.consumer, rfl, ?_, ?_⟩
        · simp [Chain.recvSource, hsc, hl]
        · intro c' h1 h2 h3 h4
          refine hcons c' h1 h2 h3 ?_
          cases hb' : c'.source.buf with
          | nil => exact absurd hb' h4
          | cons v buf => simp [consumerLocal, hb']
  | cons l rest ih =>
    intro c hl hok hnp hsc
    rw [hl] at hok
    have hcu := Chain.eq_under c l rest hl
    obtain ⟨k1, k2, k3, k4, k5⟩ := hok.1
    rcases ih (c.tail l rest) rfl hok.2 hnp hsc with ⟨act, hint, hen⟩ | ⟨hob, hoc, rcv, hr1, hr2, hr3⟩
    · left
      refine ⟨act.shift, by rw [Action.shift_internal, hint], ?_⟩
      rw [hcu, Chain.under_step l c.source _ act hint]
      simpa using hen
    · have hob' : l.out.buf = [] := hob
      have hoc' : l.out.closed = false := hoc
      have hpc : l.pool.closed = false := k1 ▸ hoc'
      cases hall : l.pool.workers.all Worker.isDone with
      | true =>
        left
        refine ⟨Action.solo (Actor.closer 0), rfl, ?_⟩
        simp only [Chain.step, Chain.move, hnp, Bool.false_eq_true, if_false]
        exact Chain.solo_link_isSome closerLocal c l rest hl (by simp [closerLocal, hpc, hall, hoc'])
      | false =>
        obtain ⟨j, wk, hj, hd⟩ := exists_not_done _ hall
        have hsolo : (workerLocal true j c.source l).isSome = true →
            (c.step (Action.solo (Actor.worker 0 j))).isSome = true := by
          intro hf
          simp only [Chain.step, Chain.move, hnp, Bool.false_eq_true, if_false]
          exact Chain.solo_link_isSome (workerLocal true j) c l rest hl hf
        cases wk with
        | done => simp [Worker.isDone] at hd
        | fail err =>
          left
          refine ⟨Action.solo (Actor.worker 0 j), rfl, hsolo ?_⟩
          cases hef : l.errFn with
          | none => exact absurd hef k4
          | some f => simp [workerLocal, hj, hef]
        | send res =>
          left
          by_cases hcap : l.out.cap = 0
          · exact ⟨Action.handoff (Actor.worker 0 j) rcv.shift,
              by simp only [Action.internal, Actor.internal_shift, hr1]; rfl,
              Chain.handoff_link_isSome c l rest hl hnp j res hj hob' hoc' rcv ⟨hr1, hr2, hr3⟩⟩
          · refine ⟨Action.solo (Actor.worker 0 j), rfl, hsolo ?_⟩
            have : ¬ l.out.cap ≤ 0 := by omega
            simp [workerLocal, hj, hoc', hob', this]
        | recv =>
          cases hb : c.source.buf with
          | cons v buf =>
            left
            refine ⟨Action.solo (Actor.worker 0 j), rfl, hsolo ?_⟩
            simp only [workerLocal, hj, hb]
            split <;> rfl
          | nil =>
            cases hc : c.source.closed with
            | true =>
              left
              refine ⟨Action.solo (Actor.worker 0 j), rfl, hsolo ?_⟩
              simp [workerLocal, hj, hb, hc]
            | false =>
              right
              refine ⟨rfl, rfl, Actor.worker 0 j, rfl, ?_, ?_⟩
              · simp [Chain.recvSource, hl, hj]
              · intro c' h1 h2 h3 h4
                simp only [Chain.move, h3, Bool.false_eq_true, if_false]
                refine Chain.solo_link_isSome (workerLocal true j) c' l rest (h1.trans hl) ?_
                cases hb' : c'.source.buf with
                | nil => exact absurd hb' h4
                | cons v buf =>
                  simp only [workerLocal, hj, hb']
                  split <;> rfl

theorem Chain.OK.progress {c : Chain V E} (hok : c.OK) (hsc : c.sawClose = false) :
    ∃ act, (c.step act).isSome = true := by
  obtain ⟨hnp, hl, ⟨script, hfe, hsh, hcl⟩, _⟩ := hok
  rcases progress_links c.links c rfl hl hnp hsc with ⟨act, _, h⟩ | ⟨hb, hc, rcv, _, hr2, hr3⟩
  · exact ⟨act, h⟩
  · cases script with
    | nil =>
      have := hcl.mpr rfl
      rw [hc] at this
      exact absurd this (by simp)
    | cons op rest =>
      have hsolo : (feederLocal true c.source (op :: rest)).isSome = true →
          (c.step (Action.solo (Actor.feeder 0))).isSome = true := by
        intro hf
        simp only [Chain.step, Chain.move, hnp, Bool.false_eq_true, if_false, hfe,
          List.getElem?_cons_zero]
        cases hx : feederLocal true c.source (op :: rest) with
        | none => simp [hx] at hf
        | some r => rfl
      cases op with
      | wait d => exact ⟨_, hsolo (by simp [feederLocal])⟩
      | close => exact ⟨_, hsolo (by simp [feederLocal, hc])⟩
      | send v =>
        by_cases hcap : c.source.cap = 0
        · refine ⟨Action.handoff (Actor.feeder 0) rcv, ?_⟩
          have hst : c.sendTarget (Actor.feeder 0) = some 0 := by
            simp [Chain.sendTarget, hfe]
          have hm : c.move false (Actor.feeder 0) =
              some { c with feeders := c.feeders.set 0 rest,
                            source := { c.source with buf := c.source.buf ++ [v] },
                            panicked := false } := by
            simp [Chain.move, hnp, hfe, feederLocal, hc]
          simp only [Chain.step, hst, hr2, Chain.queue, hm, Option.some_bind]
          rw [if_pos ⟨trivial, by simp [hb], hc⟩]
          exact hr3 _ rfl rfl rfl (by simp)
        · refine ⟨_, hsolo ?_⟩
          have : ¬ c.source.cap ≤ 0 := by omega
          simp [feederLocal, hc, hb, this]

/-! ## The process right after an emission call -/

theorem Linked_wiredFrom (inp join sink : Nat) (specs : List (stageFunc V E × Nat)) :
    Linked inp (wiredFrom inp join sink specs) := by
  induction specs generalizing inp join with
  | nil => trivial
  | cons sp rest ih =>
    cases rest with
    | nil => exact ⟨rfl, trivial⟩
    | cons sq rest => exact ⟨rfl, ih join (join + 1)⟩

theorem wiredFrom_outs (inp join sink : Nat) (specs : List (stageFunc V E × Nat))
    (h : specs ≠ []) :
    (wiredFrom inp join sink specs).map (fun s => s.out) =
      List.range' join (specs.length - 1) ++ [sink] := by
  induction specs generalizing inp join with
  | nil => exact absurd rfl h
  | cons sp rest ih =>
    cases rest with
    | nil => rfl
    | cons sq rest =>
      have := ih join (join + 1) (by simp)
      simp only [wiredFrom, List.map_cons, List.length_cons, Nat.add_sub_cancel] at this ⊢
      rw [this]
      simp [List.range']

theorem Linked_armed (e : errFunc) (src : Nat) (stages : List (stage V E))
    (h : Linked src stages) : Linked src (armed e stages) := by
  induction stages generalizing src with
  | nil => trivial
  | cons a rest ih => exact ⟨h.1, ih a.out h.2⟩

theorem armed_outs (e : errFunc) (stages : List (stage V E)) :
    (armed e stages).map (fun s => s.out) = stages.map fun s => s.out := by
  simp [armed, List.map_map, Function.comp_def]

theorem launched_wired (opts : PipelineOpts) (e : errFunc)
    (specs : List (stageFunc V E × Nat)) (script : List (FeedOp V)) (h : specs ≠ []) :
    Wired (launched opts e specs script).1 := by
  refine ⟨Linked_armed e 0 _ (Linked_wiredFrom 0 2 1 specs), ?_, ?_⟩
  · simp only [launched, armed_outs, wiredFrom_outs 0 2 1 specs h]
    simp only [List.nodup_cons, List.mem_append, List.mem_range', List.mem_singleton,
      List.nodup_append, List.nodup_range', List.nodup_singleton, List.not_mem_nil,
      not_false_eq_true, and_true, true_and]
    refine ⟨?_, List.nodup_range' _ _, List.nodup_nil, ?_⟩
    · rintro (⟨i, _, hi⟩ | hi) <;> omega
    · intro a ha hb
      rw [List.mem_range'] at ha
      obtain ⟨i, _, hi⟩ := ha
      simp only [List.mem_singleton] at hb
      omega
  · have h1 := wiredFrom_last (V := V) (E := E) 0 2 1 specs
    simp only [launched, armed, List.getLast?_map, Option.map_map] at h1 ⊢
    have : (fun s : stage V E => s.out) ∘ (fun s : stage V E => { s with errFn := e }) =
        fun s => s.out := rfl
    rw [this, h1]
    cases hs : specs.getLast? with
    | none => exact absurd (List.getLast?_eq_none_iff.mp hs) h
    | some x => rfl

theorem launched_pools (opts : PipelineOpts) (e : errFunc)
    (specs : List (stageFunc V E × Nat)) (script : List (FeedOp V)) :
    (launched opts e specs script).2.pools.length =
      (launched opts e specs script).1.stages.length := by
  simp [launched, armed, builtWorld, World.go, wiredFrom_length]

theorem linksOf_wired (chan : Nat → Chan V) (cap : Nat) (e : errFunc) (inp join sink : Nat)
    (specs : List (stageFunc V E × Nat))
    (hchan : ∀ s ∈ wiredFrom inp join sink specs, chan s.out = { cap := cap, buf := [], closed := false }) :
    linksOf chan (armed e (wiredFrom inp join sink specs))
        (specs.map fun sp => { workers := List.replicate sp.2 Worker.recv, closed := false }) =
      initLinks cap e specs := by
  induction specs generalizing inp join with
  | nil => rfl
  | cons sp rest ih =>
    cases rest with
    | nil =>
      have := hchan _ (List.mem_singleton.mpr rfl)
      simp only [wiredFrom] at this
      simp [wiredFrom, armed, linksOf, initLinks, this]
    | cons sq rest =>
      have h0 := hchan _ (List.mem_cons_self _ _)
      have := ih join (join + 1) (fun s hs => hchan s (by
        simp only [wiredFrom]
        exact List.mem_cons_of_mem _ hs))
      simp only [wiredFrom, armed, List.map_cons, linksOf, initLinks] at this ⊢
      rw [this]
      simp [h0]

theorem launched_chainOf (opts : PipelineOpts) (e : errFunc)
    (specs : List (stageFunc V E × Nat)) (script : List (FeedOp V)) (h : specs ≠ []) :
    chainOf (launched opts e specs script).1 (launched opts e specs script).2 =
      initChain opts.ChanBufSize e specs script := by
  have hlinks := linksOf_wired (V := V) (E := E) (builtWorld opts specs).chan opts.ChanBufSize
    e 0 2 1 specs (by
      intro s hs
      have := (wiredFrom_ids 0 2 1 specs s hs).2
      have hlen : 1 ≤ specs.length := by
        cases specs with
        | nil => exact absurd rfl h
        | cons a b => simp
      have hlt : s.out < 2 + (specs.length - 1) := by omega
      simp [builtWorld, hlt])
  have hlen : 1 ≤ specs.length := by
    cases specs with
    | nil => exact absurd rfl h
    | cons a b => simp
  simp only [chainOf, launched, World.go, initChain]
  simp only [builtWorld] at hlinks ⊢
  rw [hlinks]
  simp

theorem Emit_launched (opts : PipelineOpts) (e : errFunc)
    (specs : List (stageFunc V E × Nat)) (values : List V) (h : specs ≠ []) :
    Emit values (OnError e (build opts specs)) =
      Except.ok (launched opts e specs (emitFeeder values), 1) := by
  have hne : (wiredFrom (V := V) (E := E) 0 2 1 specs).length ≠ 0 := by
    rw [wiredFrom_length]
    exact fun h0 => h (List.length_eq_zero.mp h0)
  simp [Emit, OnError, build_eq, mustHaveStages, builtPipeline, hne, launched, armed]

theorem EmitWithDelay_launched (opts : PipelineOpts) (e : errFunc)
    (specs : List (stageFunc V E × Nat)) (dur : Int) (values : List V) (h : specs ≠ []) :
    EmitWithDelay dur values (OnError e (build opts specs)) =
      Except.ok (launched opts e specs (delayFeeder dur values), 1) := by
  have hne : (wiredFrom (V := V) (E := E) 0 2 1 specs).length ≠ 0 := by
    rw [wiredFrom_length]
    exact fun h0 => h (List.length_eq_zero.mp h0)
  simp [EmitWithDelay, OnError, build_eq, mustHaveStages, builtPipeline, hne, launched, armed]

theorem OnError_default_build (opts : PipelineOpts) (specs : List (stageFunc V E × Nat)) :
    OnError (some Handler.defaultErrFunc) (build opts specs) = build opts specs := by
  simp [OnError, build_eq, builtPipeline]

theorem replicate_recv_not_done (n : Nat) :
    ¬ ∃ wk ∈ List.replicate n (Worker.recv : Worker V E), wk.isDone = true := by
  rintro ⟨wk, hm, hd⟩
  rw [(List.mem_replicate.mp hm).2] at hd
  exact absurd hd (by simp [Worker.isDone])

theorem initLinks_OK (cap : Nat) (e : Handler) (specs : List (stageFunc V E × Nat))
    (src : Chan V) (h : ∀ sp ∈ specs, 1 ≤ sp.2) : LinksOK src (initLinks cap (some e) specs) := by
  induction specs generalizing src with
  | nil => trivial
  | cons sp rest ih =>
    refine ⟨⟨rfl, fun hc => absurd hc (by simp), fun hd => absurd hd (replicate_recv_not_done _),
      by simp, ?_⟩, ih _ fun x hx => h x (List.mem_cons_of_mem _ hx)⟩
    have := h sp (List.mem_cons_self _ _)
    intro hn
    have := congrArg List.length hn
    simp only [List.length_replicate, List.length_nil] at this
    omega

theorem FeedShape_append_close (ops : List (FeedOp V)) (h : ∀ op ∈ ops, op.isClose = false) :
    FeedShape (ops ++ [FeedOp.close]) := by
  induction ops with
  | nil => rfl
  | cons op rest ih =>
    have h1 := h op (List.mem_cons_self _ _)
    have h2 := ih fun x hx => h x (List.mem_cons_of_mem _ hx)
    cases rest with
    | nil => exact ⟨h1, h2⟩
    | cons a b => exact ⟨h1, h2⟩

theorem FeedShape_emitFeeder (values : List V) : FeedShape (emitFeeder values) := by
  apply FeedShape_append_close
  intro op hop
  obtain ⟨v, _, rfl⟩ := List.mem_map.mp hop
  rfl

theorem FeedShape_delayFeeder (dur : Int) (values : List V) :
    FeedShape (delayFeeder dur values) := by
  apply FeedShape_append_close
  intro op hop
  simp only [List.mem_flatten, List.mem_map] at hop
  obtain ⟨l, ⟨v, _, rfl⟩, hl⟩ := hop
  simp only [List.mem_cons, List.mem_singleton, List.not_mem_nil, or_false] at hl
  rcases hl with rfl | rfl <;> rfl

theorem initChain_OK (cap : Nat) (e : Handler) (specs : List (stageFunc V E × Nat))
    (script : List (FeedOp V)) (h : ∀ sp ∈ specs, 1 ≤ sp.2) (hs : FeedShape script)
    (hne : script ≠ []) : (initChain cap (some e) specs script).OK := by
  refine ⟨rfl, initLinks_OK cap e specs _ h, ⟨script, rfl, hs, ?_⟩, fun hx => absurd hx (by simp [initChain])⟩
  simp [initChain, hne]

theorem fnsOf_initLinks (cap : Nat) (e : errFunc) (specs : List (stageFunc V E × Nat)) :
    fnsOf (initLinks cap e specs) = specs.map Prod.fst := by
  simp [fnsOf, initLinks, List.map_map, Function.comp_def]

theorem flatMap_pending_replicate (fns : List (stageFunc V E)) (n : Nat) :
    (List.replicate n (Worker.recv : Worker V E)).flatMap (Worker.pending fns) = [] := by
  induction n with
  | zero => rfl
  | succ n ih => simp [List.replicate_succ, Worker.pending, ih]

theorem pendLinks_initLinks (cap : Nat) (e : errFunc) (specs : List (stageFunc V E × Nat))
    (src : Chan V) (h : src.buf = []) : pendLinks src (initLinks cap e specs) = [] := by
  induction specs generalizing src with
  | nil => simp [initLinks, pendLinks, h]
  | cons sp rest ih =>
    have := ih { cap := cap, buf := [], closed := false } rfl
    simp only [initLinks, List.map_cons, pendLinks] at this ⊢
    simp [this, h, flatMap_pending_replicate]

theorem initChain_ledger (cap : Nat) (e : errFunc) (specs : List (stageFunc V E × Nat))
    (script : List (FeedOp V)) :
    (initChain cap e specs script).ledger =
      script.flatMap (FeedOp.pending (specs.map Prod.fst)) := by
  simp [Chain.ledger, initChain, pendLinks_initLinks, fnsOf_initLinks]

theorem emitFeeder_pending (fns : List (stageFunc V E)) (values : List V) :
    (emitFeeder values).flatMap (FeedOp.pending fns) = values.map (through fns) := by
  induction values with
  | nil => rfl
  | cons v rest ih =>
    simp only [emitFeeder, List.map_cons, List.cons_append, List.flatMap_cons, FeedOp.pending,
      List.singleton_append] at ih ⊢
    rw [ih]
    rfl

theorem delayFeeder_pending (fns : List (stageFunc V E)) (dur : Int) (values : List V) :
    (delayFeeder dur values).flatMap (FeedOp.pending fns) = values.map (through fns) := by
  induction values with
  | nil => rfl
  | cons v rest ih =>
    simp only [delayFeeder, List.map_cons, List.flatten_cons, List.cons_append,
      List.flatMap_cons, FeedOp.pending, List.singleton_append, List.nil_append] at ih ⊢
    rw [ih]

theorem initChain_Lane (cap : Nat) (e : errFunc) (specs : List (stageFunc V E × Nat))
    (script : List (FeedOp V)) (h1 : ∀ sp ∈ specs, sp.2 = 1)
    (h2 : ∀ sp ∈ specs, ∀ v, (sp.1 v).2 = none) : (initChain cap e specs script).Lane := by
  refine ⟨by simp [initChain], ?_⟩
  intro l hl
  simp only [initChain, initLinks, List.mem_map] at hl
  obtain ⟨sp, hsp, rfl⟩ := hl
  refine ⟨by simp [h1 sp hsp], h2 sp hsp, ?_⟩
  intro wk hwk err
  rw [(List.mem_replicate.mp hwk).2]
  simp

theorem muRest_initLinks (cap : Nat) (e : errFunc) (specs : List (stageFunc V E × Nat)) :
    muRest (initLinks cap e specs) = (specs.map fun sp => sp.2 + 1).sum := by
  induction specs with
  | nil => rfl
  | cons sp rest ih =>
    simp only [initLinks, List.map_cons, muRest, List.sum_cons] at ih ⊢
    rw [ih]
    simp [List.map_replicate, Worker.weight, List.sum_replicate]

theorem emitFeeder_weight (n : Nat) (values : List V) :
    ((emitFeeder values).map (FeedOp.weight n)).sum = values.length * (2 * n + 2) + 1 := by
  induction values with
  | nil => simp [emitFeeder, FeedOp.weight]
  | cons v rest ih =>
    simp only [emitFeeder, List.map_cons, List.cons_append, List.sum_cons, FeedOp.weight,
      List.length_cons, Nat.add_mul, Nat.one_mul] at ih ⊢
    omega

theorem delayFeeder_weight (n : Nat) (dur : Int) (values : List V) :
    ((delayFeeder dur values).map (FeedOp.weight n)).sum = values.length * (2 * n + 3) + 1 := by
  induction values with
  | nil => simp [delayFeeder, FeedOp.weight]
  | cons v rest ih =>
    simp only [delayFeeder, List.map_cons, List.flatten_cons, List.cons_append,
      List.nil_append, List.sum_cons, FeedOp.weight,
      List.length_cons, Nat.add_mul, Nat.one_mul] at ih ⊢
    omega

theorem initChain_mu (cap : Nat) (e : errFunc) (specs : List (stageFunc V E × Nat))
    (script : List (FeedOp V)) :
    (initChain cap e specs script).mu =
      2 + (script.map (FeedOp.weight specs.length)).sum + (specs.map fun sp => sp.2 + 1).sum := by
  have hlen : (initLinks (V := V) (E := E) cap e specs).length = specs.length := by
    simp [initLinks]
  simp only [Chain.mu, initChain, muRest_initLinks, hlen]
  simp

theorem Next_OnError (fn : stageFunc V E) (n : Nat) (e : errFunc)
    (pw : Pipeline V E × World V E) :
    Next fn n (OnError e pw) = OnError e (Next fn n pw) := by
  unfold Next OnError
  split <;> rfl

theorem registered_snoc (cs : List (Setup V E)) (c : Setup V E) :
    registered (cs ++ [c]) = registered cs ++ (c.nextArg.toList) := by
  cases c <;> simp [registered, Setup.nextArg]

theorem lastOnError_snoc_next (cs : List (Setup V E)) (fn : stageFunc V E) (n : Nat) :
    lastOnError (cs ++ [Setup.next fn n]) = lastOnError cs := by
  simp [lastOnError, Setup.onErrorArg]

theorem lastOnError_snoc_onError (cs : List (Setup V E)) (e : errFunc) :
    lastOnError (cs ++ [Setup.onError e]) = e := by
  simp [lastOnError, Setup.onErrorArg]

theorem setup_eq (opts : PipelineOpts) (cs : List (Setup V E)) :
    setup opts cs = OnError (lastOnError cs) (build opts (registered cs)) := by
  induction cs using List.reverseRecOn with
  | nil => rfl
  | append_singleton cs c ih =>
    have hs : setup opts (cs ++ [c]) =
        (match c with
          | Setup.next fn n => Next fn n (setup opts cs)
          | Setup.onError fn => OnError fn (setup opts cs)) := by
      simp [setup, List.foldl_append]
    rw [hs, ih, registered_snoc]
    cases c with
    | next fn n =>
      simp only [Setup.nextArg, Option.toList, lastOnError_snoc_next]
      rw [Next_OnError, build_snoc]
    | onError e =>
      simp only [Setup.nextArg, Option.toList, lastOnError_snoc_onError, List.append_nil]
      rfl

theorem Emit_setup (opts : PipelineOpts) (cs : List (Setup V E)) (values : List V)
    (h : registered cs ≠ []) :
    Emit values (setup opts cs) =
      Except.ok (launched opts (lastOnError cs) (registered cs) (emitFeeder values), 1) := by
  rw [setup_eq, Emit_launched opts _ _ values h]

theorem EmitWithDelay_setup (opts : PipelineOpts) (cs : List (Setup V E)) (dur : Int)
    (values : List V) (h : registered cs ≠ []) :
    EmitWithDelay dur values (setup opts cs) =
      Except.ok (launched opts (lastOnError cs) (registered cs) (delayFeeder dur values), 1) := by
  rw [setup_eq, EmitWithDelay_launched opts _ _ dur values h]


theorem workerLocal_calls (b : Bool) (j : Nat) (e : Handler) (inp : Chan V) (l : Link V E)
    (inp' : Chan V) (l' : Link V E) (eff : Eff E) (he : l.errFn = some e)
    (h : workerLocal b j inp l = some (inp', l', eff)) :
    l'.errFn = some e ∧ ∀ x ∈ eff.calls, x.1 = e := by
  unfold workerLocal at h
  cases hj : l.pool.workers[j]? with
  | none => simp [hj] at h
  | some wk =>
    rw [hj] at h
    cases wk with
    | recv =>
      simp only at h
      split at h
      · split at h <;>
        · simp only [Option.some.injEq, Prod.mk.injEq] at h
          obtain ⟨rfl, rfl, rfl⟩ := h
          exact ⟨he, by simp⟩
      · split at h
        · simp only [Option.some.injEq, Prod.mk.injEq] at h
          obtain ⟨rfl, rfl, rfl⟩ := h
          exact ⟨he, by simp⟩
        · simp at h
    | send res =>
      simp only at h
      split at h
      · simp only [Option.some.injEq, Prod.mk.injEq] at h
        obtain ⟨rfl, rfl, rfl⟩ := h
        exact ⟨he, by simp⟩
      · split at h
        · simp at h
        · simp only [Option.some.injEq, Prod.mk.injEq] at h
          obtain ⟨rfl, rfl, rfl⟩ := h
          exact ⟨he, by simp⟩
    | fail err =>
      simp only [he, Option.some.injEq, Prod.mk.injEq] at h
      obtain ⟨rfl, rfl, rfl⟩ := h
      exact ⟨he, by simp⟩
    | done => simp at h

theorem closerLocal_calls (e : Handler) (inp : Chan V) (l : Link V E)
    (inp' : Chan V) (l' : Link V E) (eff : Eff E) (he : l.errFn = some e)
    (h : closerLocal inp l = some (inp', l', eff)) :
    l'.errFn = some e ∧ ∀ x ∈ eff.calls, x.1 = e := by
  unfold closerLocal at h
  split at h
  · simp at h
  · split at h
    · split at h <;>
      · simp only [Option.some.injEq, Prod.mk.injEq] at h
        obtain ⟨rfl, rfl, rfl⟩ := h
        exact ⟨he, by simp⟩
    · simp at h

theorem atLink_calls (f : Chan V → Link V E → Option (Chan V × Link V E × Eff E))
    (e : Handler)
    (hf : ∀ inp l inp' l' eff, l.errFn = some e → f inp l = some (inp', l', eff) →
      l'.errFn = some e ∧ ∀ x ∈ eff.calls, x.1 = e)
    (inp : Chan V) (links : List (Link V E)) (i : Nat) (r : Chan V × List (Link V E) × Eff E)
    (he : ∀ l ∈ links, l.errFn = some e) (h : atLink f inp links i = some r) :
    (∀ l ∈ r.2.1, l.errFn = some e) ∧ ∀ x ∈ r.2.2.calls, x.1 = e := by
  induction links generalizing inp i r with
  | nil => simp [atLink] at h
  | cons l rest ih =>
    cases i with
    | zero =>
      simp only [atLink, Option.map_eq_some'] at h
      obtain ⟨⟨inp', l', eff⟩, h1, rfl⟩ := h
      obtain ⟨h2, h3⟩ := hf inp l inp' l' eff (he l (List.mem_cons_self _ _)) h1
      refine ⟨fun x hx => ?_, h3⟩
      rcases List.mem_cons.mp hx with rfl | hm
      · exact h2
      · exact he x (List.mem_cons_of_mem _ hm)
    | succ i =>
      simp only [atLink, Option.map_eq_some'] at h
      obtain ⟨⟨o', rest', eff⟩, h1, rfl⟩ := h
      obtain ⟨h2, h3⟩ := ih l.out i (o', rest', eff)
        (fun x hx => he x (List.mem_cons_of_mem _ hx)) h1
      refine ⟨fun x hx => ?_, h3⟩
      rcases List.mem_cons.mp hx with rfl | hm
      · exact he l (List.mem_cons_self _ _)
      · exact h2 x hm

theorem atSink_errFn {α : Type} (g : Chan V → Option (Chan V × α)) (e : Handler)
    (inp : Chan V) (links : List (Link V E)) (r : Chan V × List (Link V E) × α)
    (he : ∀ l ∈ links, l.errFn = some e) (h : atSink g inp links = some r) :
    ∀ l ∈ r.2.1, l.errFn = some e := by
  induction links generalizing inp r with
  | nil =>
    simp only [atSink, Option.map_eq_some'] at h
    obtain ⟨x, _, rfl⟩ := h
    simp
  | cons l rest ih =>
    simp only [atSink, Option.map_eq_some'] at h
    obtain ⟨⟨o', rest', ov⟩, h1, rfl⟩ := h
    have h2 := ih l.out (o', rest', ov) (fun x hx => he x (List.mem_cons_of_mem _ hx)) h1
    intro x hx
    rcases List.mem_cons.mp hx with rfl | hm
    · exact he l (List.mem_cons_self _ _)
    · exact h2 x hm

theorem Chain.move_CallsBy (b : Bool) (e : Handler) (c c' : Chain V E) (a : Actor)
    (hc : c.CallsBy e) (h : c.move b a = some c') : c'.CallsBy e := by
  have hnp := Chain.move_panicked b c c' a h
  cases a with
  | feeder k =>
    simp only [Chain.move, hnp, Bool.false_eq_true, if_false] at h
    cases hk : c.feeders[k]? with
    | none => simp [hk] at h
    | some script =>
      simp only [hk, Option.map_eq_some'] at h
      obtain ⟨r, _, rfl⟩ := h
      exact hc
  | worker i j =>
    simp only [Chain.move, hnp, Bool.false_eq_true, if_false, Option.map_eq_some'] at h
    obtain ⟨r, h1, rfl⟩ := h
    obtain ⟨h2, h3⟩ := atLink_calls (workerLocal b j) e (workerLocal_calls b j e)
      c.source c.links i r hc.1 h1
    refine ⟨h2, fun x hx => ?_⟩
    simp only [Chain.afterLink, List.mem_append] at hx
    rcases hx with hx | hx
    · exact hc.2 x hx
    · exact h3 x hx
  | closer i =>
    simp only [Chain.move, hnp, Bool.false_eq_true, if_false, Option.map_eq_some'] at h
    obtain ⟨r, h1, rfl⟩ := h
    obtain ⟨h2, h3⟩ := atLink_calls closerLocal e (closerLocal_calls e)
      c.source c.links i r hc.1 h1
    refine ⟨h2, fun x hx => ?_⟩
    simp only [Chain.afterLink, List.mem_append] at hx
    rcases hx with hx | hx
    · exact hc.2 x hx
    · exact h3 x hx
  | consumer =>
    simp only [Chain.move, hnp, Bool.false_eq_true, if_false] at h
    split at h
    · simp at h
    · simp only [Option.map_eq_some'] at h
      obtain ⟨r, h1, rfl⟩ := h
      have h2 := atSink_errFn consumerLocal e c.source c.links r hc.1 h1
      cases r.2.2 <;> exact ⟨h2, hc.2⟩

theorem Chain.step_CallsBy (e : Handler) (c c' : Chain V E) (act : Action)
    (hc : c.CallsBy e) (h : c.step act = some c') : c'.CallsBy e := by
  cases act with
  | solo a => exact Chain.move_CallsBy true e c c' a hc h
  | handoff snd rcv =>
    simp only [Chain.step] at h
    split at h
    · split at h
      · split at h
        · cases hm : c.move false snd with
          | none => simp [hm] at h
          | some c1 =>
            simp only [hm, Option.some_bind] at h
            exact Chain.move_CallsBy true e c1 c' rcv (Chain.move_CallsBy false e c c1 snd hc hm) h
        · simp at h
      · simp at h
    · simp at h

theorem Chain.run_CallsBy (e : Handler) (c c' : Chain V E) (sched : List Action)
    (hc : c.CallsBy e) (h : c.run sched = some c') : c'.CallsBy e := by
  induction sched generalizing c with
  | nil =>
    simp only [Chain.run, Option.some.injEq] at h
    subst h
    exact hc
  | cons a rest ih =>
    simp only [Chain.run] at h
    cases hs : c.step a with
    | none => simp [hs] at h
    | some c1 =>
      simp only [hs, Option.some_bind] at h
      exact ih c1 (Chain.step_CallsBy e c c1 a hc hs) h

theorem initChain_CallsBy (cap : Nat) (e : Handler) (specs : List (stageFunc V E × Nat))
    (script : List (FeedOp V)) : (initChain cap (some e) specs script).CallsBy e := by
  refine ⟨fun l hl => ?_, by simp [initChain]⟩
  simp only [initChain, initLinks, List.mem_map] at hl
  obtain ⟨sp, _, rfl⟩ := hl
  rfl

theorem setWorker_poolSizes (w : World V E) (i j : Nat) (wk : Worker V E) :
    poolSizes (w.setWorker i j wk) = poolSizes w := by
  unfold World.setWorker poolSizes
  cases h : w.pools[i]? with
  | none => rfl
  | some pool =>
    simp only
    apply List.ext_getElem?
    intro n
    simp only [List.getElem?_map, List.getElem?_set]
    split
    · next hin =>
      subst hin
      split
      · simp [h]
      · rename_i hlt
        have : w.pools[i]? = none := by
          rw [List.getElem?_eq_none_iff]
          omega
        rw [this] at h
        cases h
    · rfl

theorem sendOn_poolSizes (b : Bool) (w w' : World V E) (id : Nat) (v : V)
    (h : w.sendOn b id v = some w') : poolSizes w' = poolSizes w := by
  unfold World.sendOn at h
  split at h
  · simp only [Option.some.injEq] at h
    subst h
    rfl
  · split at h
    · simp at h
    · simp only [Option.some.injEq] at h
      subst h
      rfl

theorem closeChan_poolSizes (w : World V E) (id : Nat) :
    poolSizes (w.closeChan id) = poolSizes w := by
  unfold World.closeChan
  split <;> rfl

theorem move_poolSizes (b : Bool) (p : Pipeline V E) (w w' : World V E) (a : Actor)
    (h : move b p w a = some w') : poolSizes w' = poolSizes w := by
  cases a with
  | feeder k =>
    simp only [move] at h
    split at h
    · simp at h
    · unfold feederMove at h
      split at h
      · rename_i op rest hk
        cases op with
        | wait d =>
          simp only [Option.some.injEq] at h
          subst h
          rfl
        | send v =>
          simp only at h
          split at h
          · simp only [Option.some.injEq] at h
            subst h
            rfl
          · rw [sendOn_poolSizes _ _ _ _ _ h]
            rfl
        | close =>
          simp only [Option.some.injEq] at h
          subst h
          rw [closeChan_poolSizes]
          rfl
      · simp at h
  | worker i j =>
    simp only [move] at h
    split at h
    · simp at h
    · unfold workerMove at h
      split at h
      · split at h
        · split at h
          · split at h <;>
            · simp only [Option.some.injEq] at h
              subst h
              rw [setWorker_poolSizes]
              rfl
          · split at h
            · simp only [Option.some.injEq] at h
              subst h
              rw [setWorker_poolSizes]
            · simp at h
        · rw [sendOn_poolSizes _ _ _ _ _ h, setWorker_poolSizes]
        · split at h
          · simp only [Option.some.injEq] at h
            subst h
            rw [setWorker_poolSizes]
            rfl
          · simp only [Option.some.injEq] at h
            subst h
            rfl
        · simp at h
      · simp at h
  | closer i =>
    simp only [move] at h
    split at h
    · simp at h
    · unfold closerMove at h
      split at h
      · rename_i s pool hs hp
        split at h
        · simp at h
        · split at h
          · simp only [Option.some.injEq] at h
            subst h
            rw [closeChan_poolSizes]
            simp only [poolSizes]
            apply List.ext_getElem?
            intro n
            simp only [List.getElem?_map, List.getElem?_set]
            split
            · next hin =>
              subst hin
              split
              · simp [hp]
              · rename_i hlt
                have : w.pools[i]? = none := by
                  rw [List.getElem?_eq_none_iff]
                  omega
                rw [this] at hp
                cases hp
            · rfl
          · simp at h
      · simp at h
  | consumer =>
    simp only [move] at h
    split at h
    · simp at h
    · unfold consumerMove at h
      split at h
      · simp at h
      · split at h
        · simp only [Option.some.injEq] at h
          subst h
          rfl
        · split at h
          · simp only [Option.some.injEq] at h
            subst h
            rfl
          · simp at h

theorem step_poolSizes (p : Pipeline V E) (w w' : World V E) (act : Action)
    (h : step p w act = some w') : poolSizes w' = poolSizes w := by
  cases act with
  | solo a => exact move_poolSizes true p w w' a h
  | handoff snd rcv =>
    simp only [step] at h
    split at h
    · split at h
      · cases hm : move false p w snd with
        | none => simp [hm] at h
        | some w1 =>
          simp only [hm, Option.some_bind] at h
          rw [move_poolSizes _ _ _ _ _ h, move_poolSizes _ _ _ _ _ hm]
      · simp at h
    · simp at h

theorem run_poolSizes (p : Pipeline V E) (w w' : World V E) (sched : List Action)
    (h : run p w sched = some w') : poolSizes w' = poolSizes w := by
  induction sched generalizing w with
  | nil =>
    simp only [run, Option.some.injEq] at h
    subst h
    rfl
  | cons a rest ih =>
    simp only [run] at h
    cases hs : step p w a with
    | none => simp [hs] at h
    | some w1 =>
      simp only [hs, Option.some_bind] at h
      rw [ih w1 h, step_poolSizes p w w1 a hs]

/-! ## Runs of a launched pipeline -/

theorem step_progress (p : Pipeline V E) (w : World V E) (hw : Wired p)
    (hlen : w.pools.length = p.stages.length) (hok : (chainOf p w).OK)
    (hsc : w.sawClose = false) : ∃ act w', step p w act = some w' := by
  obtain ⟨act, h⟩ := hok.progress (c := chainOf p w) hsc
  refine ⟨act, ?_⟩
  have := step_chainOf p w act hw hlen
  cases hs : step p w act with
  | none =>
    rw [hs] at this
    simp only [Option.map_none'] at this
    rw [← this] at h
    simp at h
  | some w' => exact ⟨w', rfl⟩

theorem launched_run (opts : PipelineOpts) (e : Handler) (specs : List (stageFunc V E × Nat))
    (script : List (FeedOp V)) (sched : List Action) (w' : World V E) (hne : specs ≠ [])
    (hpos : ∀ sp ∈ specs, 1 ≤ sp.2) (hs : FeedShape script) (hsne : script ≠ [])
    (hrun : run (launched opts (some e) specs script).1 (launched opts (some e) specs script).2 sched =
      some w') :
    (chainOf (launched opts (some e) specs script).1 w').OK ∧
      w'.pools.length = (launched opts (some e) specs script).1.stages.length ∧
      (∀ exact : Bool, (exact = true → (initChain opts.ChanBufSize (some e) specs script).Lane) →
        Rel exact (chainOf (launched opts (some e) specs script).1 w').ledger
          (script.flatMap (FeedOp.pending (specs.map Prod.fst)))) ∧
      sched.length ≤
        2 + (script.map (FeedOp.weight specs.length)).sum + (specs.map fun sp => sp.2 + 1).sum := by
  have hw := launched_wired opts (some e) specs script hne
  have hlen := launched_pools opts (some e) specs script
  obtain ⟨hsim, hlen'⟩ := run_chainOf _ _ w' sched hw hlen hrun
  rw [launched_chainOf opts (some e) specs script hne] at hsim
  have hok0 := initChain_OK opts.ChanBufSize e specs script hpos hs hsne
  have hok := Chain.run_OK _ _ sched hok0 hsim
  refine ⟨hok, hlen', ?_, ?_⟩
  · intro exact hx
    have := (Chain.run_ledger _ _ sched exact hx hsim hok.1).2.1
    rwa [initChain_ledger] at this
  · have := Chain.run_mu _ _ sched hsim
    rw [initChain_mu] at this
    omega

theorem filterMap_okOf_ledger (calls : List (Handler × E)) (received : List V) :
    (calls.map (fun x : Handler × E => (Except.error x.2 : Except E V)) ++ received.map Except.ok).filterMap okOf
      = received := by
  induction calls with
  | nil =>
    induction received with
    | nil => rfl
    | cons x xs ih =>
      simp only [List.map_nil, List.nil_append, List.map_cons, List.filterMap_cons, okOf] at ih ⊢
      rw [ih]
  | cons c cs ih =>
    simp only [List.map_cons, List.cons_append, List.filterMap_cons, okOf]
    exact ih

theorem filterMap_errOf_ledger (calls : List (Handler × E)) (received : List V) :
    (calls.map (fun x : Handler × E => (Except.error x.2 : Except E V)) ++ received.map Except.ok).filterMap errOf
      = calls.map Prod.snd := by
  induction calls with
  | nil =>
    induction received with
    | nil => rfl
    | cons x xs ih =>
      simp only [List.map_nil, List.nil_append, List.map_cons, List.filterMap_cons, errOf] at ih ⊢
      exact ih
  | cons c cs ih =>
    simp only [List.map_cons, List.cons_append, List.filterMap_cons, errOf]
    rw [ih]

theorem launched_accounts (opts : PipelineOpts) (e : Handler)
    (specs : List (stageFunc V E × Nat)) (script : List (FeedOp V)) (sched : List Action)
    (w' : World V E) (hne : specs ≠ []) (hpos : ∀ sp ∈ specs, 1 ≤ sp.2)
    (hs : FeedShape script) (hsne : script ≠ [])
    (hrun : run (launched opts (some e) specs script).1 (launched opts (some e) specs script).2 sched =
      some w') :
    w'.panicked = false ∧
      (∀ x ∈ w'.calls, x.1 = e ∧
        Except.error x.2 ∈ script.flatMap (FeedOp.pending (specs.map Prod.fst))) ∧
      (∀ x ∈ w'.received,
        Except.ok x ∈ script.flatMap (FeedOp.pending (specs.map Prod.fst))) ∧
      (w'.sawClose = true →
        w'.received.Perm
            ((script.flatMap (FeedOp.pending (specs.map Prod.fst))).filterMap okOf) ∧
          (w'.calls.map Prod.snd).Perm
            ((script.flatMap (FeedOp.pending (specs.map Prod.fst))).filterMap errOf)) ∧
      (w'.sawClose = false →
        ∃ act w'', step (launched opts (some e) specs script).1 w' act = some w'') := by
  obtain ⟨hok, hlen, hled, _⟩ := launched_run opts e specs script sched w' hne hpos hs hsne hrun
  have hw := launched_wired opts (some e) specs script hne
  have hlen0 := launched_pools opts (some e) specs script
  obtain ⟨hsim, _⟩ := run_chainOf _ _ w' sched hw hlen0 hrun
  rw [launched_chainOf opts (some e) specs script hne] at hsim
  have hcb := Chain.run_CallsBy e _ _ sched (initChain_CallsBy opts.ChanBufSize e specs script) hsim
  have hperm := (hled false (fun h => by simp at h)).2
  refine ⟨hok.1, fun x hx => ⟨hcb.2 x hx, ?_⟩, fun x hx => ?_, fun hsc => ?_,
    fun hsc => step_progress _ w' hw hlen hok hsc⟩
  · refine hperm.subset ?_
    simp only [Chain.ledger, List.append_assoc, List.mem_append, List.mem_map]
    exact Or.inl ⟨x, hx, rfl⟩
  · refine hperm.subset ?_
    simp only [Chain.ledger, List.append_assoc, List.mem_append, List.mem_map]
    exact Or.inr (Or.inl ⟨x, hx, rfl⟩)
  · have hfin := (hok.final_ledger hsc).1
    rw [hfin] at hperm
    constructor
    · have := hperm.filterMap okOf
      rwa [filterMap_okOf_ledger] at this
    · have := hperm.filterMap errOf
      rwa [filterMap_errOf_ledger] at this

theorem linksOf_barrier (w : World V E) (src : Nat) (stages : List (stage V E))
    (pools : List (Pool V E)) (hl : Linked src stages)
    (hok : LinksOK (w.chan src) (linksOf w.chan stages pools)) (i : Nat) (s : stage V E)
    (pool : Pool V E) (hs : stages[i]? = some s) (hp : pools[i]? = some pool) :
    Barrier w s pool := by
  induction stages generalizing src pools i with
  | nil => simp at hs
  | cons s0 rest ih =>
    cases pools with
    | nil => simp at hp
    | cons q qs =>
      simp only [linksOf, LinksOK] at hok
      obtain ⟨h0, hrest⟩ := hok
      obtain ⟨hinp, hlink⟩ := hl
      cases i with
      | zero =>
        simp only [List.getElem?_cons_zero, Option.some.injEq] at hs hp
        subst hs hp
        obtain ⟨h1, h2, h3, _, _⟩ := h0
        simp only at h1 h2 h3
        refine ⟨h1, h2, fun wk hwk hd => ?_, fun res hres => ?_⟩
        · rw [hinp]
          exact h3 ⟨wk, hwk, hd⟩
        · cases hc : (w.chan s0.out).closed with
          | false => rfl
          | true =>
            rw [hc] at h1
            have := h2 h1.symm _ hres
            simp [Worker.isDone] at this
      | succ i =>
        simp only [List.getElem?_cons_succ] at hs hp
        exact ih s0.out qs hlink hrest i hs hp

theorem launched_workerCounts (opts : PipelineOpts) (e : errFunc)
    (specs : List (stageFunc V E × Nat)) (script : List (FeedOp V)) :
    (launched opts e specs script).1.stages.map (fun s => s.workerCount) = specs.map Prod.snd ∧
      poolSizes (launched opts e specs script).2 = specs.map Prod.snd := by
  constructor
  · have h := congrArg (List.map Prod.snd) (wiredFrom_specs (V := V) (E := E) 0 2 1 specs)
    simp only [List.map_map] at h
    simp only [launched, armed, List.map_map]
    exact h
  · simp [poolSizes, launched, builtWorld, World.go]

theorem launched_barrier (opts : PipelineOpts) (e : Handler)
    (specs : List (stageFunc V E × Nat)) (script : List (FeedOp V)) (sched : List Action)
    (w' : World V E) (hne : specs ≠ []) (hpos : ∀ sp ∈ specs, 1 ≤ sp.2)
    (hs : FeedShape script) (hsne : script ≠ [])
    (hrun : run (launched opts (some e) specs script).1 (launched opts (some e) specs script).2 sched =
      some w') :
    (∀ (i : Nat) (s : stage V E) (pool : Pool V E),
        (launched opts (some e) specs script).1.stages[i]? = some s →
        w'.pools[i]? = some pool →
        1 ≤ s.workerCount ∧ pool.workers.length = s.workerCount ∧ Barrier w' s pool ∧
          (w'.sawClose = true → pool.closed = true ∧ (w'.chan s.out).buf = [])) ∧
      w'.pools.length = (launched opts (some e) specs script).1.stages.length ∧
      (w'.sawClose = true →
        (w'.chan (launched opts (some e) specs script).1.sink).closed = true ∧ w'.feeders = [[]]) := by
  obtain ⟨hok, hlen, _, _⟩ := launched_run opts e specs script sched w' hne hpos hs hsne hrun
  have hw := launched_wired opts (some e) specs script hne
  obtain ⟨hwc, hps⟩ := launched_workerCounts opts (some e) specs script
  have hsz := run_poolSizes _ _ _ sched hrun
  refine ⟨fun i s pool hst hp => ?_, hlen, fun hsc => ?_⟩
  · have h1 : (poolSizes w')[i]? = some pool.workers.length := by
      simp [poolSizes, hp]
    have h2 : ((launched opts (some e) specs script).1.stages.map fun s => s.workerCount)[i]? =
        some s.workerCount := by
      simp [hst]
    rw [hsz, hps] at h1
    rw [hwc, h1] at h2
    have hmem : pool.workers.length ∈ specs.map Prod.snd := List.getElem?_mem h1
    obtain ⟨sp, hsp, hsp2⟩ := List.mem_map.mp hmem
    have h3 : pool.workers.length = s.workerCount := Option.some.inj h2
    refine ⟨?_, h3, linksOf_barrier w' _ _ _ hw.linked hok.2.1 i s pool hst hp, fun hsc => ?_⟩
    · rw [← h3, ← hsp2]
      exact hpos sp hsp
    · have hfin := (hok.final_ledger hsc).2.2.1
      have hl : (chainOf (launched opts (some e) specs script).1 w').links[i]? =
          some { fn := s.fn, errFn := s.errFn, pool := pool, out := w'.chan s.out } := by
        simp only [chainOf, linksOf_getElem?, hst, hp]
      obtain ⟨h4, h5, _⟩ := hfin _ (List.getElem?_mem hl)
      exact ⟨h5, h4.2⟩
  · have hfin := hok.final_ledger hsc
    refine ⟨?_, hfin.2.1⟩
    have := hok.2.2.2 hsc
    obtain ⟨s, hlast⟩ : ∃ s, (launched opts (some e) specs script).1.stages.getLast? = some s := by
      cases hg : (launched opts (some e) specs script).1.stages.getLast? with
      | none =>
        have := hw.last
        rw [hg] at this
        simp at this
      | some s => exact ⟨s, rfl⟩
    have hsink : s.out = (launched opts (some e) specs script).1.sink := by
      have := hw.last
      rw [hlast] at this
      simpa using this
    have hidx : (launched opts (some e) specs script).1.stages[
        (launched opts (some e) specs script).1.stages.length - 1]? = some s := by
      rw [← List.getLast?_eq_getElem?]
      exact hlast
    have hlt : (launched opts (some e) specs script).1.stages.length - 1 < w'.pools.length := by
      have : (launched opts (some e) specs script).1.stages.length ≠ 0 := by
        intro h0
        rw [List.length_eq_zero.mp h0] at hlast
        simp at hlast
      omega
    have hl : (chainOf (launched opts (some e) specs script).1 w').links[
        (launched opts (some e) specs script).1.stages.length - 1]? =
          some { fn := s.fn, errFn := s.errFn,
                 pool := w'.pools[(launched opts (some e) specs script).1.stages.length - 1],
                 out := w'.chan s.out } := by
      simp only [chainOf, linksOf_getElem?, hidx, List.getElem?_eq_getElem hlt]
    obtain ⟨h4, _, _⟩ := hfin.2.2.1 _ (List.getElem?_mem hl)
    rw [← hsink]
    exact h4.1

theorem setWorker_frame (w : World V E) (i j : Nat) (wk : Worker V E) :
    (w.setWorker i j wk).feeders = w.feeders ∧ (w.setWorker i j wk).chan = w.chan ∧
      (w.setWorker i j wk).panicked = w.panicked := by
  unfold World.setWorker
  split <;> exact ⟨rfl, rfl, rfl⟩

theorem setChan_closed (w : World V E) (id : Nat) (c : Chan V)
    (hc : (w.chan id).closed = true → c.closed = true) (x : Nat)
    (hx : (w.chan x).closed = true) : ((w.setChan id c).chan x).closed = true := by
  simp only [World.setChan]
  by_cases h : x = id
  · subst h
    rw [Function.update_same]
    exact hc hx
  · rw [Function.update_noteq h]
    exact hx

theorem sendOn_frame (b : Bool) (w w' : World V E) (id : Nat) (v : V)
    (h : w.sendOn b id v = some w') :
    w'.feeders = w.feeders ∧ ∀ x, (w.chan x).closed = true → (w'.chan x).closed = true := by
  unfold World.sendOn at h
  split at h
  · simp only [Option.some.injEq] at h
    subst h
    exact ⟨rfl, fun x hx => hx⟩
  · split at h
    · simp at h
    · simp only [Option.some.injEq] at h
      subst h
      exact ⟨rfl, setChan_closed w id _ (fun hc => hc)⟩

theorem closeChan_frame (w : World V E) (id : Nat) :
    (w.closeChan id).feeders = w.feeders ∧
      ∀ x, (w.chan x).closed = true → ((w.closeChan id).chan x).closed = true := by
  unfold World.closeChan
  split
  · exact ⟨rfl, fun x hx => hx⟩
  · exact ⟨rfl, setChan_closed w id _ (fun _ => rfl)⟩

theorem move_frame (b : Bool) (p : Pipeline V E) (w w' : World V E) (a : Actor)
    (ha : ∀ k, a ≠ Actor.feeder k) (h : move b p w a = some w') :
    w'.feeders = w.feeders ∧ ∀ x, (w.chan x).closed = true → (w'.chan x).closed = true := by
  cases a with
  | feeder k => exact absurd rfl (ha k)
  | worker i j =>
    simp only [move] at h
    split at h
    · simp at h
    · unfold workerMove at h
      split at h
      · rename_i s pool hs hp
        split at h
        · split at h
          · split at h <;>
            · simp only [Option.some.injEq] at h
              subst h
              rw [(setWorker_frame _ _ _ _).1, (setWorker_frame _ _ _ _).2.1]
              exact ⟨rfl, setChan_closed w s.inp _ (fun hc => hc)⟩
          · split at h
            · simp only [Option.some.injEq] at h
              subst h
              rw [(setWorker_frame _ _ _ _).1, (setWorker_frame _ _ _ _).2.1]
              exact ⟨rfl, fun x hx => hx⟩
            · simp at h
        · obtain ⟨h1, h2⟩ := sendOn_frame _ _ _ _ _ h
          obtain ⟨h3, h4, _⟩ := setWorker_frame w i j (Worker.recv : Worker V E)
          rw [h3] at h1
          rw [h4] at h2
          exact ⟨h1, h2⟩
        · split at h
          · simp only [Option.some.injEq] at h
            subst h
            rw [(setWorker_frame _ _ _ _).1, (setWorker_frame _ _ _ _).2.1]
            exact ⟨rfl, fun x hx => hx⟩
          · simp only [Option.some.injEq] at h
            subst h
            exact ⟨rfl, fun x hx => hx⟩
        · simp at h
      · simp at h
  | closer i =>
    simp only [move] at h
    split at h
    · simp at h
    · unfold closerMove at h
      split at h
      · rename_i s pool hs hp
        split at h
        · simp at h
        · split at h
          · simp only [Option.some.injEq] at h
            subst h
            exact closeChan_frame _ _
          · simp at h
      · simp at h
  | consumer =>
    simp only [move] at h
    split at h
    · simp at h
    · unfold consumerMove at h
      split at h
      · simp at h
      · split at h
        · simp only [Option.some.injEq] at h
          subst h
          exact ⟨rfl, setChan_closed _ p.sink _ (fun hc => hc)⟩
        · split at h
          · simp only [Option.some.injEq] at h
            subst h
            exact ⟨rfl, fun x hx => hx⟩
          · simp at h

theorem move_not_panicked (b : Bool) (p : Pipeline V E) (w w' : World V E) (a : Actor)
    (h : move b p w a = some w') : w.panicked = false := by
  cases hp : w.panicked with
  | false => rfl
  | true => cases a <;> simp [move, hp] at h

theorem FeedShape_tail {op : FeedOp V} {rest : List (FeedOp V)} (h : FeedShape (op :: rest)) :
    FeedShape rest ∧ (rest = [] ↔ op.isClose = true) := by
  cases rest with
  | nil => exact ⟨trivial, by simpa [FeedShape] using h⟩
  | cons n r =>
    obtain ⟨h1, h2⟩ := h
    exact ⟨h2, by simp [h1]⟩

theorem SingleUse_set_ne (src : Nat) (w w' : World V E) (k : Nat) (op : FeedOp V)
    (rest : List (FeedOp V)) (hk : w.feeders[k]? = some (op :: rest)) (hne : rest ≠ [])
    (hf : w'.feeders = w.feeders.set k rest)
    (hc : ∀ x, (w.chan x).closed = true → (w'.chan x).closed = true)
    (hnp : w.panicked = false) (hs : SingleUse src w) : SingleUse src w' := by
  obtain ⟨hshape, hinv⟩ := hs
  obtain ⟨hopen, huniq⟩ := hinv hnp
  have hkl : k < w.feeders.length := by
    rcases Nat.lt_or_ge k w.feeders.length with h | h
    · exact h
    · rw [List.getElem?_eq_none_iff.mpr h] at hk
      cases hk
  have hget : ∀ i : Nat, (w.feeders.set k rest)[i]? = some [] → w.feeders[i]? = some [] := by
    intro i hi
    rw [List.getElem?_set] at hi
    split at hi
    · exact absurd (Option.some.inj hi) hne
    · exact hi
  refine ⟨fun f hfm => ?_, fun _ => ⟨fun ho f hfm => ?_, fun i j hi hj => ?_⟩⟩
  · rw [hf] at hfm
    rcases List.mem_or_eq_of_mem_set hfm with h | h
    · exact hshape f h
    · rw [h]
      exact (FeedShape_tail (hshape _ (List.getElem?_mem hk))).1
  · rw [hf] at hfm
    rcases List.mem_or_eq_of_mem_set hfm with h | h
    · refine hopen ?_ f h
      cases hx : (w.chan src).closed with
      | false => rfl
      | true =>
        rw [hc src hx] at ho
        cases ho
    · rw [h]
      exact hne
  · rw [hf] at hi hj
    exact huniq i j (hget i hi) (hget j hj)

theorem move_SingleUse (b : Bool) (p : Pipeline V E) (w w' : World V E) (a : Actor)
    (h : move b p w a = some w') (hs : SingleUse p.source w) : SingleUse p.source w' := by
  have hnp := move_not_panicked b p w w' a h
  by_cases ha : ∀ k, a ≠ Actor.feeder k
  · obtain ⟨hf, hc⟩ := move_frame b p w w' a ha h
    obtain ⟨hshape, hinv⟩ := hs
    obtain ⟨hopen, huniq⟩ := hinv hnp
    refine ⟨by rw [hf]; exact hshape, fun _ => ⟨fun ho => ?_, by rw [hf]; exact huniq⟩⟩
    rw [hf]
    refine hopen ?_
    cases hx : (w.chan p.source).closed with
    | false => rfl
    | true =>
      rw [hc _ hx] at ho
      cases ho
  · push_neg at ha
    obtain ⟨k, rfl⟩ := ha
    simp only [move, hnp, Bool.false_eq_true, if_false] at h
    unfold feederMove at h
    split at h
    · rename_i op rest hk
      have hsh := FeedShape_tail (hs.1 _ (List.getElem?_mem hk))
      cases op with
      | wait d =>
        simp only [Option.some.injEq] at h
        subst h
        exact SingleUse_set_ne _ w _ k _ rest hk
          (fun hr => by simpa [FeedOp.isClose] using hsh.2.mp hr) rfl (fun x hx => hx) hnp hs
      | send v =>
        simp only at h
        have hrest : rest ≠ [] := fun hr => by simpa [FeedOp.isClose] using hsh.2.mp hr
        split at h
        · simp only [Option.some.injEq] at h
          subst h
          refine ⟨fun f hfm => ?_, fun hq => by simp [World.panic] at hq⟩
          simp only [World.panic] at hfm
          rcases List.mem_or_eq_of_mem_set hfm with h1 | h1
          · exact hs.1 f h1
          · rw [h1]
            trivial
        · by_cases hp' : w'.panicked = true
          · refine ⟨fun f hfm => ?_, fun hq => by rw [hp'] at hq; cases hq⟩
            rw [(sendOn_frame _ _ _ _ _ h).1] at hfm
            rcases List.mem_or_eq_of_mem_set hfm with h1 | h1
            · exact hs.1 f h1
            · rw [h1]
              exact hsh.1
          · obtain ⟨h1, h2⟩ := sendOn_frame _ _ _ _ _ h
            exact SingleUse_set_ne _ w _ k _ rest hk hrest h1 h2 hnp hs
      | close =>
        simp only [Option.some.injEq] at h
        have hrest : rest = [] := hsh.2.mpr rfl
        subst hrest
        have hshape' : ∀ f ∈ w'.feeders, FeedShape f := by
          intro f hfm
          rw [← h, (closeChan_frame _ _).1] at hfm
          rcases List.mem_or_eq_of_mem_set hfm with h1 | h1
          · exact hs.1 f h1
          · rw [h1]
            trivial
        cases hcl : (w.chan p.source).closed with
        | true =>
          refine ⟨hshape', fun hq => ?_⟩
          rw [← h] at hq
          simp [World.closeChan, hcl, World.panic] at hq
        | false =>
          obtain ⟨hopen, _⟩ := hs.2 hnp
          have hall := hopen hcl
          refine ⟨hshape', fun _ => ⟨fun ho => ?_, fun i j hi hj => ?_⟩⟩
          · rw [← h] at ho
            simp [World.closeChan, hcl, World.setChan] at ho
          · have hfe : w'.feeders = w.feeders.set k [] := by
              rw [← h, (closeChan_frame _ _).1]
            rw [hfe] at hi hj
            have key : ∀ n : Nat, (w.feeders.set k [])[n]? = some [] → n = k := by
              intro n hn
              by_contra hne
              rw [List.getElem?_set_ne (fun e => hne e.symm)] at hn
              exact hall _ (List.getElem?_mem hn) rfl
            rw [key i hi, key j hj]
    · simp at h

theorem step_SingleUse (p : Pipeline V E) (w w' : World V E) (act : Action)
    (h : step p w act = some w') (hs : SingleUse p.source w) : SingleUse p.source w' := by
  cases act with
  | solo a => exact move_SingleUse true p w w' a h hs
  | handoff snd rcv =>
    simp only [step] at h
    split at h
    · split at h
      · cases hm : move false p w snd with
        | none => simp [hm] at h
        | some w1 =>
          simp only [hm, Option.some_bind] at h
          exact move_SingleUse true p w1 w' rcv h (move_SingleUse false p w w1 snd hm hs)
      · simp at h
    · simp at h

theorem run_SingleUse (p : Pipeline V E) (w w' : World V E) (sched : List Action)
    (h : run p w sched = some w') (hs : SingleUse p.source w) : SingleUse p.source w' := by
  induction sched generalizing w with
  | nil =>
    simp only [run, Option.some.injEq] at h
    subst h
    exact hs
  | cons a rest ih =>
    simp only [run] at h
    cases hst : step p w a with
    | none => simp [hst] at h
    | some w1 =>
      simp only [hst, Option.some_bind] at h
      exact ih w1 h (step_SingleUse p w w1 a hst hs)

theorem move_feeders_length (b : Bool) (p : Pipeline V E) (w w' : World V E) (a : Actor)
    (h : move b p w a = some w') : w'.feeders.length = w.feeders.length := by
  have hnp := move_not_panicked b p w w' a h
  by_cases ha : ∀ k, a ≠ Actor.feeder k
  · rw [(move_frame b p w w' a ha h).1]
  · push_neg at ha
    obtain ⟨k, rfl⟩ := ha
    simp only [move, hnp, Bool.false_eq_true, if_false] at h
    unfold feederMove at h
    split at h
    · rename_i op rest hk
      cases op with
      | wait d =>
        simp only [Option.some.injEq] at h
        subst h
        simp
      | send v =>
        simp only at h
        split at h
        · simp only [Option.some.injEq] at h
          subst h
          simp [World.panic]
        · rw [(sendOn_frame _ _ _ _ _ h).1]
          simp
      | close =>
        simp only [Option.some.injEq] at h
        subst h
        rw [(closeChan_frame _ _).1]
        simp
    · simp at h

theorem step_feeders_length (p : Pipeline V E) (w w' : World V E) (act : Action)
    (h : step p w act = some w') : w'.feeders.length = w.feeders.length := by
  cases act with
  | solo a => exact move_feeders_length true p w w' a h
  | handoff snd rcv =>
    simp only [step] at h
    split at h
    · split at h
      · cases hm : move false p w snd with
        | none => simp [hm] at h
        | some w1 =>
          simp only [hm, Option.some_bind] at h
          rw [move_feeders_length _ _ _ _ _ h, move_feeders_length _ _ _ _ _ hm]
      · simp at h
    · simp at h

theorem run_feeders_length (p : Pipeline V E) (w w' : World V E) (sched : List Action)
    (h : run p w sched = some w') : w'.feeders.length = w.feeders.length := by
  induction sched generalizing w with
  | nil =>
    simp only [run, Option.some.injEq] at h
    subst h
    rfl
  | cons a rest ih =>
    simp only [run] at h
    cases hst : step p w a with
    | none => simp [hst] at h
    | some w1 =>
      simp only [hst, Option.some_bind] at h
      rw [ih w1 h, step_feeders_length p w w1 a hst]

theorem go_SingleUse (src : Nat) (w : World V E) (script : List (FeedOp V))
    (hsh : FeedShape script) (hne : script ≠ []) (hs : SingleUse src w) :
    SingleUse src (w.go script) := by
  obtain ⟨hshape, hinv⟩ := hs
  have hget : ∀ i : Nat, (w.feeders ++ [script])[i]? = some [] → w.feeders[i]? = some [] := by
    intro i hi
    rcases Nat.lt_or_ge i w.feeders.length with hlt | hge
    · rwa [List.getElem?_append_left hlt] at hi
    · rw [List.getElem?_append_right hge] at hi
      have := List.getElem?_mem hi
      simp only [List.mem_singleton] at this
      exact absurd this.symm hne
  refine ⟨fun f hf => ?_, fun hnp => ⟨fun ho f hf => ?_, fun i j hi hj => ?_⟩⟩
  · simp only [World.go, List.mem_append, List.mem_singleton] at hf
    rcases hf with h | h
    · exact hshape f h
    · rw [h]
      exact hsh
  · simp only [World.go, List.mem_append, List.mem_singleton] at hf
    rcases hf with h | h
    · exact (hinv hnp).1 ho f h
    · rw [h]
      exact hne
  · exact (hinv hnp).2 i j (hget i hi) (hget j hj)

theorem EmitCall.feeder_shape (c : EmitCall V) : FeedShape c.feeder ∧ c.feeder ≠ [] := by
  cases c with
  | emit values => exact ⟨FeedShape_emitFeeder values, by simp [EmitCall.feeder, emitFeeder]⟩
  | emitWithDelay dur values =>
    exact ⟨FeedShape_delayFeeder dur values, by simp [EmitCall.feeder, delayFeeder]⟩

theorem EmitCall.apply_ok (c : EmitCall V) (pw : Pipeline V E × World V E)
    (r : (Pipeline V E × World V E) × Nat) (h : c.apply pw = Except.ok r) :
    r.1.1.source = pw.1.source ∧ r.1.2 = pw.2.go c.feeder ∧ pw.1.stages ≠ [] ∧
      r.2 = pw.1.sink := by
  have hne : pw.1.stages ≠ [] := by
    intro h0
    cases c <;> simp [EmitCall.apply, Emit, EmitWithDelay, mustHaveStages_fatal _ h0] at h
  cases c <;>
    simp only [EmitCall.apply, Emit, EmitWithDelay, mustHaveStages_ok _ hne,
      Except.ok.injEq] at h <;>
    subst h <;>
    exact ⟨rfl, rfl, hne, rfl⟩

theorem setup_fresh (opts : PipelineOpts) (cs : List (Setup V E)) :
    (setup opts cs).1.source = (New opts (World.init (V := V) (E := E))).1.source ∧
      (setup opts cs).2.feeders = [] ∧ (setup opts cs).2.panicked = false := by
  rw [setup_eq, build_eq]
  exact ⟨rfl, rfl, rfl⟩

theorem run_snoc (p : Pipeline V E) (w : World V E) (pre : List Action) (a : Action) :
    run p w (pre ++ [a]) = (run p w pre).bind fun w1 => step p w1 a := by
  induction pre generalizing w with
  | nil =>
    simp only [List.nil_append, run, Option.some_bind]
    cases step p w a <;> rfl
  | cons b rest ih =>
    simp only [List.cons_append, run]
    cases step p w b with
    | none => rfl
    | some w1 => simp only [Option.some_bind, List.append_eq, ih]

theorem feederMove_set (b : Bool) (p : Pipeline V E) (w w' : World V E) (k : Nat)
    (h : feederMove b p w k = some w') :
    ∃ op rest, w.feeders[k]? = some (op :: rest) ∧
      (w'.feeders = w.feeders.set k rest ∨
        ((∃ v, op = FeedOp.send v) ∧ (w.chan p.source).closed = true ∧
          w'.feeders = w.feeders.set k [] ∧ w'.panicked = true)) := by
  unfold feederMove at h
  split at h
  · rename_i op rest hk
    refine ⟨op, rest, hk, ?_⟩
    cases op with
    | wait d =>
      simp only [Option.some.injEq] at h
      subst h
      exact Or.inl rfl
    | send v =>
      simp only at h
      split at h
      · rename_i hc
        simp only [Option.some.injEq] at h
        subst h
        exact Or.inr ⟨⟨v, rfl⟩, hc, rfl, rfl⟩
      · exact Or.inl (sendOn_frame _ _ _ _ _ h).1
    | close =>
      simp only [Option.some.injEq] at h
      subst h
      exact Or.inl (closeChan_frame _ _).1
  · simp at h

theorem move_completes (b : Bool) (p : Pipeline V E) (w w' : World V E) (a : Actor)
    (hs : SingleUse p.source w) (hlen : w.feeders.length = 2)
    (h : move b p w a = some w') (hend : ∀ f ∈ w'.feeders, f = []) :
    ∃ k op rest, a = Actor.feeder k ∧ w.feeders[k]? = some (op :: rest) ∧
      (op = FeedOp.close ∨ ∃ v, op = FeedOp.send v) ∧
      (w.chan p.source).closed = true ∧ w'.panicked = true := by
  have hnp := move_not_panicked b p w w' a h
  obtain ⟨hopen, huniq⟩ := hs.2 hnp
  by_cases ha : ∀ k, a ≠ Actor.feeder k
  · exfalso
    rw [(move_frame b p w w' a ha h).1] at hend
    have h0 : w.feeders[0]? = some [] := by
      rw [List.getElem?_eq_getElem (by omega)]
      exact congrArg some (hend _ (List.getElem_mem _))
    have h1 : w.feeders[1]? = some [] := by
      rw [List.getElem?_eq_getElem (by omega)]
      exact congrArg some (hend _ (List.getElem_mem _))
    exact absurd (huniq 0 1 h0 h1) (by decide)
  · push_neg at ha
    obtain ⟨k, rfl⟩ := ha
    simp only [move, hnp, Bool.false_eq_true, if_false] at h
    obtain ⟨op, rest, hk, hset⟩ := feederMove_set b p w w' k h
    have hkl : k < w.feeders.length := by
      rcases Nat.lt_or_ge k w.feeders.length with hlt | hge
      · exact hlt
      · rw [List.getElem?_eq_none_iff.mpr hge] at hk
        cases hk
    have hsh := FeedShape_tail (hs.1 _ (List.getElem?_mem hk))
    have hfe : ∃ x, w'.feeders = w.feeders.set k x := by
      rcases hset with h1 | ⟨_, _, h1, _⟩
      · exact ⟨rest, h1⟩
      · exact ⟨[], h1⟩
    obtain ⟨x, hfe⟩ := hfe
    have hother : ∃ k' : Nat, k' ≠ k ∧ w.feeders[k']? = some [] := by
      refine ⟨1 - k, by omega, ?_⟩
      have hlt : 1 - k < w.feeders.length := by omega
      have hget : (w.feeders.set k x)[1 - k]? = w.feeders[1 - k]? :=
        List.getElem?_set_ne (by omega)
      rw [List.getElem?_eq_getElem hlt] at hget ⊢
      have hm : w.feeders[1 - k] ∈ w'.feeders := by
        rw [hfe]
        exact List.getElem?_mem hget
      rw [hend _ hm]
    obtain ⟨k', _, hk'⟩ := hother
    have hcl : (w.chan p.source).closed = true := by
      cases hx : (w.chan p.source).closed with
      | true => rfl
      | false => exact absurd rfl (hopen hx _ (List.getElem?_mem hk'))
    refine ⟨k, op, rest, rfl, hk, ?_, hcl, ?_⟩
    · rcases hset with h1 | ⟨hv, _, _, _⟩
      · have hrest : rest = [] := by
          apply hend
          rw [h1]
          have : (w.feeders.set k rest)[k]? = some rest := by
            simp [List.getElem?_set, hkl]
          exact List.getElem?_mem this
        have := hsh.2.mp hrest
        cases op with
        | close => exact Or.inl rfl
        | wait d => simp [FeedOp.isClose] at this
        | send v => exact Or.inr ⟨v, rfl⟩
      · exact Or.inr hv
    · rcases hset with h1 | ⟨_, _, _, hp⟩
      · have hrest : rest = [] := by
          apply hend
          rw [h1]
          have : (w.feeders.set k rest)[k]? = some rest := by
            simp [List.getElem?_set, hkl]
          exact List.getElem?_mem this
        have hc := hsh.2.mp hrest
        cases op with
        | wait d => simp [FeedOp.isClose] at hc
        | send v => simp [FeedOp.isClose] at hc
        | close =>
          unfold feederMove at h
          simp only [hk, Option.some.injEq] at h
          subst h
          simp [World.closeChan, hcl, World.panic]
      · exact hp

theorem recvSource_not_feeder (p : Pipeline V E) (w : World V E) (k c : Nat) :
    recvSource p w (Actor.feeder k) ≠ some c := by
  simp [recvSource]

theorem step_completes (p : Pipeline V E) (w w' : World V E) (act : Action)
    (hs : SingleUse p.source w) (hlen : w.feeders.length = 2)
    (h : step p w act = some w') (hend : ∀ f ∈ w'.feeders, f = []) :
    ∃ k op rest, act = Action.solo (Actor.feeder k) ∧ w.feeders[k]? = some (op :: rest) ∧
      (op = FeedOp.close ∨ ∃ v, op = FeedOp.send v) ∧
      (w.chan p.source).closed = true ∧ w.panicked = false ∧ w'.panicked = true := by
  cases act with
  | solo a =>
    have hnp := move_not_panicked true p w w' a h
    obtain ⟨k, op, rest, rfl, h1, h2, h3, h4⟩ := move_completes true p w w' a hs hlen h hend
    exact ⟨k, op, rest, rfl, h1, h2, h3, hnp, h4⟩
  | handoff snd rcv =>
    exfalso
    simp only [step] at h
    split at h
    · rename_i c c' hsnd hrcv
      split at h
      · cases hm : move false p w snd with
        | none => simp [hm] at h
        | some w1 =>
          simp only [hm, Option.some_bind] at h
          have hs1 := move_SingleUse false p w w1 snd hm hs
          have hl1 : w1.feeders.length = 2 := by
            rw [move_feeders_length _ _ _ _ _ hm, hlen]
          obtain ⟨k, _, _, hk, _⟩ := move_completes true p w1 w' rcv hs1 hl1 h hend
          subst hk
          exact recvSource_not_feeder p w k c' hrcv
      · simp at h
    · simp at h

theorem delayFeeder_cons (dur : Int) (v : V) (vs : List V) :
    delayFeeder dur (v :: vs) = FeedOp.wait dur :: FeedOp.send v :: delayFeeder dur vs := by
  simp [delayFeeder]

theorem emitFeeder_cons (v : V) (vs : List V) :
    emitFeeder (v :: vs) = FeedOp.send v :: emitFeeder vs := by
  simp [emitFeeder]

theorem pushed_delayFeeder (dur : Int) (values : List V) :
    pushed (delayFeeder dur values) = values := by
  induction values with
  | nil => rfl
  | cons v vs ih =>
    rw [delayFeeder_cons]
    simp only [pushed, List.filterMap_cons, FeedOp.sent] at ih ⊢
    rw [ih]

theorem pushed_emitFeeder (values : List V) : pushed (emitFeeder values) = values := by
  induction values with
  | nil => rfl
  | cons v vs ih =>
    rw [emitFeeder_cons]
    simp only [pushed, List.filterMap_cons, FeedOp.sent] at ih ⊢
    rw [ih]

theorem waits_delayFeeder (dur : Int) (values : List V) :
    waits (delayFeeder dur values) = List.replicate values.length dur := by
  induction values with
  | nil => rfl
  | cons v vs ih =>
    rw [delayFeeder_cons]
    simp only [waits, List.filterMap_cons, List.length_cons, List.replicate_succ] at ih ⊢
    rw [ih]

theorem delayFeeder_length (dur : Int) (values : List V) :
    (delayFeeder dur values).length = 2 * values.length + 1 := by
  induction values with
  | nil => rfl
  | cons v vs ih =>
    rw [delayFeeder_cons]
    simp only [List.length_cons, ih]
    omega

theorem delayFeeder_getElem? (dur : Int) (values : List V) (i : Nat) (v : V)
    (h : values[i]? = some v) :
    (delayFeeder dur values)[2 * i]? = some (FeedOp.wait dur) ∧
      (delayFeeder dur values)[2 * i + 1]? = some (FeedOp.send v) := by
  induction values generalizing i with
  | nil => simp at h
  | cons a vs ih =>
    rw [delayFeeder_cons]
    cases i with
    | zero =>
      simp only [List.getElem?_cons_zero, Option.some.injEq] at h
      subst h
      exact ⟨rfl, by simp⟩
    | succ i =>
      simp only [List.getElem?_cons_succ] at h
      have := ih i h
      have e1 : 2 * (i + 1) = (2 * i + 1) + 1 := by omega
      rw [e1]
      simp only [List.getElem?_cons_succ]
      exact this

theorem delayFeeder_last (dur : Int) (values : List V) :
    (delayFeeder dur values)[2 * values.length]? = some FeedOp.close := by
  induction values with
  | nil => rfl
  | cons a vs ih =>
    rw [delayFeeder_cons]
    have e1 : 2 * (a :: vs).length = (2 * vs.length + 1) + 1 := by
      simp only [List.length_cons]
      omega
    rw [e1]
    simp only [List.getElem?_cons_succ]
    exact ih

theorem pause_sum_delayFeeder (dur : Int) (values : List V) :
    ((delayFeeder dur values).map FeedOp.pause).sum = values.length * dur := by
  induction values with
  | nil => simp [delayFeeder, FeedOp.pause]
  | cons v vs ih =>
    rw [delayFeeder_cons]
    simp only [List.map_cons, List.sum_cons, FeedOp.pause, ih, List.length_cons]
    push_cast
    ring

theorem delayFeeder_suffix (dur : Int) (values : List V) (rem : List (FeedOp V))
    (h : rem <:+ delayFeeder dur values) :
    ∃ i m : Nat, i + m ≤ values.length ∧ pushed rem = values.drop i ∧
      (rem.map FeedOp.pause).sum = m * dur := by
  induction values generalizing rem with
  | nil =>
    refine ⟨0, 0, by simp, ?_, ?_⟩
    · have h1 : rem <:+ [FeedOp.close (V := V)] := h
      rcases List.suffix_cons_iff.mp h1 with h2 | h2
      · rw [h2]
        rfl
      · rw [List.suffix_nil.mp h2]
        rfl
    · have h1 : rem <:+ [FeedOp.close (V := V)] := h
      rcases List.suffix_cons_iff.mp h1 with h2 | h2
      · rw [h2]
        simp [FeedOp.pause]
      · rw [List.suffix_nil.mp h2]
        simp
  | cons v vs ih =>
    rw [delayFeeder_cons] at h
    rcases List.suffix_cons_iff.mp h with h1 | h1
    · refine ⟨0, (v :: vs).length, by simp, ?_, ?_⟩
      · rw [h1, ← delayFeeder_cons, pushed_delayFeeder]
        rfl
      · rw [h1, ← delayFeeder_cons, pause_sum_delayFeeder]
    · rcases List.suffix_cons_iff.mp h1 with h2 | h2
      · refine ⟨0, vs.length, by simp, ?_, ?_⟩
        · rw [h2]
          simp only [pushed, List.filterMap_cons, FeedOp.sent, List.drop_zero]
          have := pushed_delayFeeder dur vs
          simp only [pushed] at this
          rw [this]
        · rw [h2]
          simp only [List.map_cons, List.sum_cons, FeedOp.pause, pause_sum_delayFeeder]
          ring
      · obtain ⟨i, m, him, hp, hs⟩ := ih rem h2
        exact ⟨i + 1, m, by simp only [List.length_cons]; omega, by simpa using hp, hs⟩

theorem setChan_open (w : World V E) (id : Nat) (c : Chan V)
    (hc : c.closed = (w.chan id).closed) (x : Nat)
    (hx : (w.chan x).closed = false) : ((w.setChan id c).chan x).closed = false := by
  simp only [World.setChan]
  by_cases h : x = id
  · subst h
    rw [Function.update_same, hc]
    exact hx
  · rw [Function.update_noteq h]
    exact hx

theorem sendOn_open (b : Bool) (w w' : World V E) (id : Nat) (v : V)
    (h : w.sendOn b id v = some w') (x : Nat) (hx : (w.chan x).closed = false) :
    (w'.chan x).closed = false := by
  unfold World.sendOn at h
  split at h
  · simp only [Option.some.injEq] at h
    subst h
    exact hx
  · split at h
    · simp at h
    · simp only [Option.some.injEq] at h
      subst h
      exact setChan_open w id _ (by rfl) x hx

theorem closeChan_open (w : World V E) (id x : Nat) (hne : x ≠ id)
    (hx : (w.chan x).closed = false) : ((w.closeChan id).chan x).closed = false := by
  unfold World.closeChan
  split
  · exact hx
  · simp only [World.setChan]
    rw [Function.update_noteq hne]
    exact hx

theorem move_source_open (b : Bool) (p : Pipeline V E) (w w' : World V E) (a : Actor)
    (hw : Wired p) (ha : ∀ k, a ≠ Actor.feeder k) (h : move b p w a = some w')
    (ho : (w.chan p.source).closed = false) : (w'.chan p.source).closed = false := by
  cases a with
  | feeder k => exact absurd rfl (ha k)
  | worker i j =>
    simp only [move] at h
    split at h
    · simp at h
    · unfold workerMove at h
      split at h
      · rename_i s pool hs hp
        split at h
        · split at h
          · split at h <;>
            · simp only [Option.some.injEq] at h
              subst h
              rw [(setWorker_frame _ _ _ _).2.1]
              exact setChan_open w s.inp _ (by rfl) _ ho
          · split at h
            · simp only [Option.some.injEq] at h
              subst h
              rw [(setWorker_frame _ _ _ _).2.1]
              exact ho
            · simp at h
        · refine sendOn_open _ _ _ _ _ h _ ?_
          rw [(setWorker_frame _ _ _ _).2.1]
          exact ho
        · split at h
          · simp only [Option.some.injEq] at h
            subst h
            rw [(setWorker_frame _ _ _ _).2.1]
            exact ho
          · simp only [Option.some.injEq] at h
            subst h
            exact ho
        · simp at h
      · simp at h
  | closer i =>
    simp only [move] at h
    split at h
    · simp at h
    · unfold closerMove at h
      split at h
      · rename_i s pool hs hp
        split at h
        · simp at h
        · split at h
          · simp only [Option.some.injEq] at h
            subst h
            exact closeChan_open _ _ _ (Ne.symm (hw.source_not_out (List.getElem?_mem hs))) ho
          · simp at h
      · simp at h
  | consumer =>
    simp only [move] at h
    split at h
    · simp at h
    · unfold consumerMove at h
      split at h
      · simp at h
      · split at h
        · simp only [Option.some.injEq] at h
          subst h
          exact setChan_open _ p.sink _ (by rfl) _ ho
        · split at h
          · simp only [Option.some.injEq] at h
            subst h
            exact ho
          · simp at h

theorem feederMove_open (b : Bool) (p : Pipeline V E) (w w' : World V E) (k : Nat)
    (op : FeedOp V) (rest : List (FeedOp V)) (h : feederMove b p w k = some w')
    (hk : w.feeders[k]? = some (op :: rest)) (hop : op.isClose = false)
    (ho : (w.chan p.source).closed = false) :
    (w'.chan p.source).closed = false ∧ w'.feeders = w.feeders.set k rest := by
  unfold feederMove at h
  simp only [hk] at h
  cases op with
  | wait d =>
    simp only [Option.some.injEq] at h
    subst h
    exact ⟨ho, rfl⟩
  | send v =>
    simp only [ho, Bool.false_eq_true, if_false] at h
    exact ⟨sendOn_open _ _ _ _ _ h _ ho, (sendOn_frame _ _ _ _ _ h).1⟩
  | close => simp [FeedOp.isClose] at hop

theorem move_single_feeder (b : Bool) (p : Pipeline V E) (w w' : World V E) (a : Actor)
    (rem : List (FeedOp V)) (hw : Wired p) (h : move b p w a = some w')
    (hf : w.feeders = [rem]) (hsh : FeedShape rem)
    (ho : rem ≠ [] → (w.chan p.source).closed = false) :
    ((∀ k, a ≠ Actor.feeder k) ∧ w'.feeders = [rem] ∧
        (rem ≠ [] → (w'.chan p.source).closed = false)) ∨
      (a = Actor.feeder 0 ∧ ∃ op rest, rem = op :: rest ∧ w'.feeders = [rest] ∧
        FeedShape rest ∧ (rest ≠ [] → (w'.chan p.source).closed = false)) := by
  by_cases ha : ∀ k, a ≠ Actor.feeder k
  · refine Or.inl ⟨ha, ?_, fun hr => move_source_open b p w w' a hw ha h (ho hr)⟩
    rw [(move_frame b p w w' a ha h).1, hf]
  · push_neg at ha
    obtain ⟨k, rfl⟩ := ha
    have hnp := move_not_panicked b p w w' _ h
    simp only [move, hnp, Bool.false_eq_true, if_false] at h
    obtain ⟨op, rest, hk, hset⟩ := feederMove_set b p w w' k h
    have hk0 : k = 0 := by
      rcases Nat.eq_zero_or_pos k with h3 | h3
      · exact h3
      · rw [hf, List.getElem?_eq_none_iff.mpr (by simpa using h3)] at hk
        cases hk
    subst hk0
    have hrem : rem = op :: rest := by
      rw [hf] at hk
      simpa using hk
    subst hrem
    have hopen := ho (List.cons_ne_nil _ _)
    have htail := FeedShape_tail hsh
    refine Or.inr ⟨rfl, op, rest, rfl, ?_, htail.1, fun hr => ?_⟩
    · rcases hset with h1 | ⟨_, hc, _, _⟩
      · rw [h1, hf]
        rfl
      · rw [hopen] at hc
        cases hc
    · have hop : op.isClose = false := by
        cases hc : op.isClose with
        | false => rfl
        | true => exact absurd (htail.2.mpr hc) hr
      exact (feederMove_open b p w w' 0 op rest h hk hop hopen).1

theorem step_single_feeder (p : Pipeline V E) (w w' : World V E) (act : Action)
    (rem : List (FeedOp V)) (hw : Wired p) (h : step p w act = some w')
    (hf : w.feeders = [rem]) (hsh : FeedShape rem)
    (ho : rem ≠ [] → (w.chan p.source).closed = false) :
    (act.feeder? = none ∧ w'.feeders = [rem] ∧
        (rem ≠ [] → (w'.chan p.source).closed = false)) ∨
      (act.feeder? = some 0 ∧ ∃ op rest, rem = op :: rest ∧ w'.feeders = [rest] ∧
        FeedShape rest ∧ (rest ≠ [] → (w'.chan p.source).closed = false)) := by
  cases act with
  | solo a =>
    have h : move true p w a = some w' := h
    rcases move_single_feeder true p w w' a rem hw h hf hsh ho with ⟨ha, h1, h2⟩ | ⟨rfl, h1⟩
    · refine Or.inl ⟨?_, h1, h2⟩
      cases a with
      | feeder k => exact absurd rfl (ha k)
      | worker i j => rfl
      | closer i => rfl
      | consumer => rfl
    · exact Or.inr ⟨rfl, h1⟩
  | handoff snd rcv =>
    simp only [step] at h
    split at h
    · rename_i c c' hsnd hrcv
      split at h
      · cases hm : move false p w snd with
        | none => simp [hm] at h
        | some w1 =>
          simp only [hm, Option.some_bind] at h
          have hr : ∀ k, rcv ≠ Actor.feeder k := by
            intro k hk
            subst hk
            exact recvSource_not_feeder p w k c' hrcv
          rcases move_single_feeder false p w w1 snd rem hw hm hf hsh ho with
            ⟨ha, h1, h2⟩ | ⟨rfl, op, rest, hrem, h1, h2, h3⟩
          · rcases move_single_feeder true p w1 w' rcv rem hw h h1 hsh h2 with
              ⟨_, h4, h5⟩ | ⟨hk, _⟩
            · refine Or.inl ⟨?_, h4, h5⟩
              cases snd with
              | feeder k => exact absurd rfl (ha k)
              | worker i j => rfl
              | closer i => rfl
              | consumer => rfl
            · exact absurd hk (hr 0)
          · rcases move_single_feeder true p w1 w' rcv rest hw h h1 h2 h3 with
              ⟨_, h4, h5⟩ | ⟨hk, _⟩
            · exact Or.inr ⟨rfl, op, rest, hrem, h4, h2, h5⟩
            · exact absurd hk (hr 0)
      · simp at h
    · simp at h

theorem timedRun_run (p : Pipeline V E) (st st' : Clocked V E) (ts : List (Action × Int))
    (h : timedRun p st ts = some st') :
    run p st.world (ts.map Prod.fst) = some st'.world := by
  induction ts generalizing st with
  | nil =>
    simp only [timedRun, Option.some.injEq] at h
    subst h
    rfl
  | cons x rest ih =>
    simp only [timedRun] at h
    cases ht : tick p st x with
    | none => simp [ht] at h
    | some st1 =>
      simp only [ht, Option.some_bind] at h
      have hstep : step p st.world x.1 = some st1.world := by
        unfold tick at ht
        split at ht
        · simp at ht
        · split at ht
          · split at ht
            · simp at ht
            · obtain ⟨w', hw, rfl⟩ := Option.map_eq_some'.mp ht
              exact hw
          · obtain ⟨w', hw, rfl⟩ := Option.map_eq_some'.mp ht
            exact hw
      simp only [List.map_cons, run, hstep, Option.some_bind]
      exact ih st1 h

/-- The clock invariant of a process with one feeder running `script`. -/
theorem tick_clock (p : Pipeline V E) (script : List (FeedOp V)) (st st' : Clocked V E)
    (x : Action × Int) (hw : Wired p) (h : tick p st x = some st')
    (hinv : ∃ rem, st.world.feeders = [rem] ∧ rem <:+ script ∧ FeedShape rem ∧
      (rem ≠ [] → (st.world.chan p.source).closed = false) ∧ 0 ≤ st.last 0 ∧
      st.last 0 ≤ st.now ∧
      (script.map FeedOp.pause).sum ≤ st.last 0 + (rem.map FeedOp.pause).sum) :
    ∃ rem, st'.world.feeders = [rem] ∧ rem <:+ script ∧ FeedShape rem ∧
      (rem ≠ [] → (st'.world.chan p.source).closed = false) ∧ 0 ≤ st'.last 0 ∧
      st'.last 0 ≤ st'.now ∧
      (script.map FeedOp.pause).sum ≤ st'.last 0 + (rem.map FeedOp.pause).sum := by
  obtain ⟨rem, hf, hsuf, hsh, ho, h0, hln, hsum⟩ := hinv
  unfold tick at h
  split at h
  · simp at h
  · rename_i hnow
    split at h
    · rename_i k hk
      split at h
      · simp at h
      · rename_i hdue
        obtain ⟨w', hstep, rfl⟩ := Option.map_eq_some'.mp h
        rcases step_single_feeder p st.world w' x.1 rem hw hstep hf hsh ho with
          ⟨hn, _, _⟩ | ⟨hk0, op, rest, hrem, h1, h2, h3⟩
        · rw [hn] at hk
          cases hk
        · rw [hk0] at hk
          simp only [Option.some.injEq] at hk
          subst hk
          subst hrem
          have hp : nextPause st.world 0 = op.pause := by
            simp [nextPause, hf]
          rw [hp] at hdue
          refine ⟨rest, h1, (List.suffix_cons _ _).trans hsuf, h2, h3, ?_, ?_, ?_⟩
          · simp only [Function.update_same]
            omega
          · simp only [Function.update_same]
            exact le_refl _
          · simp only [Function.update_same]
            simp only [List.map_cons, List.sum_cons] at hsum
            omega
    · obtain ⟨w', hstep, rfl⟩ := Option.map_eq_some'.mp h
      rename_i hk
      rcases step_single_feeder p st.world w' x.1 rem hw hstep hf hsh ho with
        ⟨_, h1, h2⟩ | ⟨hk0, _⟩
      · refine ⟨rem, h1, hsuf, hsh, h2, h0, ?_, hsum⟩
        simp only
        omega
      · rw [hk0] at hk
        cases hk

theorem timedRun_clock (p : Pipeline V E) (script : List (FeedOp V)) (st st' : Clocked V E)
    (ts : List (Action × Int)) (hw : Wired p) (h : timedRun p st ts = some st')
    (hinv : ∃ rem, st.world.feeders = [rem] ∧ rem <:+ script ∧ FeedShape rem ∧
      (rem ≠ [] → (st.world.chan p.source).closed = false) ∧ 0 ≤ st.last 0 ∧
      st.last 0 ≤ st.now ∧
      (script.map FeedOp.pause).sum ≤ st.last 0 + (rem.map FeedOp.pause).sum) :
    ∃ rem, st'.world.feeders = [rem] ∧ rem <:+ script ∧ FeedShape rem ∧
      (rem ≠ [] → (st'.world.chan p.source).closed = false) ∧ 0 ≤ st'.last 0 ∧
      st'.last 0 ≤ st'.now ∧
      (script.map FeedOp.pause).sum ≤ st'.last 0 + (rem.map FeedOp.pause).sum := by
  induction ts generalizing st with
  | nil =>
    simp only [timedRun, Option.some.injEq] at h
    subst h
    exact hinv
  | cons x rest ih =>
    simp only [timedRun] at h
    cases ht : tick p st x with
    | none => simp [ht] at h
    | some st1 =>
      simp only [ht, Option.some_bind] at h
      exact ih st1 h (tick_clock p script st st1 x hw ht hinv)

/-! ## The callback is consulted only when a stage fails -/

theorem rearm_stages_getElem? (e : errFunc) (p : Pipeline V E) (i : Nat) :
    (p.rearm e).stages[i]? = (p.stages[i]?).map fun s => { s with errFn := e } := by
  simp [Pipeline.rearm, armed, List.getElem?_map]

theorem workerMove_rearm (b : Bool) (e : errFunc) (p : Pipeline V E) (w : World V E)
    (i j : Nat) (hnf : NoFail w) :
    workerMove b (p.rearm e) w i j = workerMove b p w i j := by
  unfold workerMove
  rw [rearm_stages_getElem?]
  cases hs : p.stages[i]? with
  | none => rfl
  | some s =>
    cases hp : w.pools[i]? with
    | none => rfl
    | some pool =>
      simp only [Option.map_some']
      cases hj : pool.workers[j]? with
      | none => rfl
      | some wk =>
        cases wk with
        | recv => rfl
        | send res => rfl
        | fail err => exact absurd (List.getElem?_mem hj) (hnf pool (List.getElem?_mem hp) err)
        | done => rfl

theorem closerMove_rearm (e : errFunc) (p : Pipeline V E) (w : World V E) (i : Nat) :
    closerMove (p.rearm e) w i = closerMove p w i := by
  unfold closerMove
  rw [rearm_stages_getElem?]
  cases hs : p.stages[i]? with
  | none => rfl
  | some s =>
    cases hp : w.pools[i]? with
    | none => rfl
    | some pool => rfl

theorem move_rearm (b : Bool) (e : errFunc) (p : Pipeline V E) (w : World V E) (a : Actor)
    (hnf : NoFail w) : move b (p.rearm e) w a = move b p w a := by
  cases a with
  | feeder k => rfl
  | worker i j => simp only [move, workerMove_rearm b e p w i j hnf]
  | closer i => simp only [move, closerMove_rearm]
  | consumer => rfl

theorem sendTarget_rearm (e : errFunc) (p : Pipeline V E) (w : World V E) (a : Actor) :
    sendTarget (p.rearm e) w a = sendTarget p w a := by
  cases a with
  | feeder k => rfl
  | worker i j =>
    simp only [sendTarget, rearm_stages_getElem?]
    cases hs : p.stages[i]? with
    | none => rfl
    | some s =>
      cases hp : w.pools[i]? with
      | none => rfl
      | some pool => rfl
  | closer i => rfl
  | consumer => rfl

theorem recvSource_rearm (e : errFunc) (p : Pipeline V E) (w : World V E) (a : Actor) :
    recvSource (p.rearm e) w a = recvSource p w a := by
  cases a with
  | feeder k => rfl
  | worker i j =>
    simp only [recvSource, rearm_stages_getElem?]
    cases hs : p.stages[i]? with
    | none => rfl
    | some s =>
      cases hp : w.pools[i]? with
      | none => rfl
      | some pool => rfl
  | closer i => rfl
  | consumer => rfl

theorem setWorker_NoFail (w : World V E) (i j : Nat) (wk : Worker V E)
    (hwk : ∀ err, wk ≠ Worker.fail err) (hnf : NoFail w) : NoFail (w.setWorker i j wk) := by
  unfold World.setWorker
  cases hp : w.pools[i]? with
  | none => exact hnf
  | some pool =>
    intro q hq err hmem
    rcases List.mem_or_eq_of_mem_set hq with h1 | h1
    · exact hnf q h1 err hmem
    · subst h1
      rcases List.mem_or_eq_of_mem_set hmem with h2 | h2
      · exact hnf pool (List.getElem?_mem hp) err h2
      · exact hwk err h2.symm

theorem NoFail_pools {w w' : World V E} (h : w'.pools = w.pools) (hnf : NoFail w) :
    NoFail w' := by
  intro q hq
  rw [h] at hq
  exact hnf q hq

theorem sender_move_NoFail (b : Bool) (p : Pipeline V E) (w w1 : World V E) (snd : Actor)
    (c : Nat) (hsnd : sendTarget p w snd = some c) (hm : move b p w snd = some w1)
    (hnf : NoFail w) : NoFail w1 := by
  cases snd with
  | feeder k =>
    have hnp := move_not_panicked b p w w1 _ hm
    simp only [move, hnp, Bool.false_eq_true, if_false] at hm
    unfold feederMove at hm
    split at hm
    · rename_i op rest hk
      cases op with
      | wait d =>
        simp only [Option.some.injEq] at hm
        subst hm
        exact hnf
      | send v =>
        simp only at hm
        split at hm
        · simp only [Option.some.injEq] at hm
          subst hm
          exact hnf
        · exact NoFail_pools (World.sendOn_pools _ _ _ _ _ hm) hnf
      | close =>
        simp only [Option.some.injEq] at hm
        subst hm
        refine NoFail_pools ?_ hnf
        simp only [World.closeChan]
        split <;> rfl
    · simp at hm
  | worker i j =>
    have hnp := move_not_panicked b p w w1 _ hm
    simp only [move, hnp, Bool.false_eq_true, if_false] at hm
    unfold workerMove at hm
    simp only [sendTarget] at hsnd
    cases hs : p.stages[i]? with
    | none => simp [hs] at hsnd
    | some s =>
      cases hp : w.pools[i]? with
      | none => simp [hs, hp] at hsnd
      | some pool =>
        cases hj : pool.workers[j]? with
        | none => simp [hs, hp, hj] at hsnd
        | some wk =>
          cases wk with
          | send res =>
            simp only [hs, hp, hj] at hm
            exact NoFail_pools (World.sendOn_pools _ _ _ _ _ hm)
              (setWorker_NoFail w i j _ (fun err => by simp) hnf)
          | recv => simp [hs, hp, hj] at hsnd
          | fail err => simp [hs, hp, hj] at hsnd
          | done => simp [hs, hp, hj] at hsnd
  | closer i => simp [sendTarget] at hsnd
  | consumer => simp [sendTarget] at hsnd

theorem step_rearm (e : errFunc) (p : Pipeline V E) (w : World V E) (act : Action)
    (hnf : NoFail w) : step (p.rearm e) w act = step p w act := by
  cases act with
  | solo a => exact move_rearm true e p w a hnf
  | handoff snd rcv =>
    simp only [step, sendTarget_rearm, recvSource_rearm]
    cases hsnd : sendTarget p w snd with
    | none => rfl
    | some c =>
      cases hrcv : recvSource p w rcv with
      | none => rfl
      | some c' =>
        simp only [Pipeline.rearm]
        split
        · rw [show move false { p with errFn := e, stages := armed e p.stages } w snd =
            move false p w snd from move_rearm false e p w snd hnf]
          cases hm : move false p w snd with
          | none => rfl
          | some w1 =>
            simp only [Option.some_bind]
            exact move_rearm true e p w1 rcv (sender_move_NoFail false p w w1 snd c hsnd hm hnf)
        · rfl

theorem mem_pendLinks_fail (inp : Chan V) (links : List (Link V E)) (l : Link V E) (err : E)
    (hl : l ∈ links) (hw : Worker.fail err ∈ l.pool.workers) :
    Except.error err ∈ pendLinks inp links := by
  induction links generalizing inp with
  | nil => cases hl
  | cons a rest ih =>
    simp only [pendLinks, List.mem_append]
    rcases List.mem_cons.mp hl with rfl | hm
    · refine Or.inl (Or.inr ?_)
      rw [List.mem_flatMap]
      exact ⟨Worker.fail err, hw, by simp [Worker.pending]⟩
    · exact Or.inl (Or.inl (ih a.out hm))

theorem NoFail_of_ledger (p : Pipeline V E) (w : World V E)
    (hlen : w.pools.length = p.stages.length)
    (hok : ∀ x ∈ (chainOf p w).ledger, ∃ y, x = Except.ok y) : NoFail w := by
  intro pool hpool err hmem
  obtain ⟨i, hi, hget⟩ := List.getElem_of_mem hpool
  have hp : w.pools[i]? = some pool := by
    rw [List.getElem?_eq_getElem hi, hget]
  cases hs : p.stages[i]? with
  | none =>
    rw [List.getElem?_eq_none_iff] at hs
    omega
  | some s =>
    have hl : (chainOf p w).links[i]? =
        some { fn := s.fn, errFn := s.errFn, pool := pool, out := w.chan s.out } := by
      simp only [chainOf, linksOf_getElem?, hs, hp]
    have := mem_pendLinks_fail (chainOf p w).source _ _ err (List.getElem?_mem hl) hmem
    obtain ⟨y, hy⟩ := hok (Except.error err) (by
      simp only [Chain.ledger, List.mem_append]
      exact Or.inl (Or.inr this))
    cases hy

theorem launched_NoFail (opts : PipelineOpts) (e : Handler)
    (specs : List (stageFunc V E × Nat)) (script : List (FeedOp V)) (sched : List Action)
    (w' : World V E) (hne : specs ≠ []) (hpos : ∀ sp ∈ specs, 1 ≤ sp.2)
    (hs : FeedShape script) (hsne : script ≠ [])
    (hokf : ∀ x ∈ script.flatMap (FeedOp.pending (specs.map Prod.fst)), ∃ y, x = Except.ok y)
    (hrun : run (launched opts (some e) specs script).1
      (launched opts (some e) specs script).2 sched = some w') : NoFail w' := by
  obtain ⟨_, hlen, hled, _⟩ := launched_run opts e specs script sched w' hne hpos hs hsne hrun
  have hperm := (hled false (fun h => by simp at h)).2
  exact NoFail_of_ledger _ w' hlen fun x hx => hokf x (hperm.subset hx)

theorem launched_rearm_eq (opts : PipelineOpts) (e e' : errFunc)
    (specs : List (stageFunc V E × Nat)) (script : List (FeedOp V)) :
    (launched opts e specs script).1 = (launched opts e' specs script).1.rearm e ∧
      (launched opts e specs script).2 = (launched opts e' specs script).2 := by
  refine ⟨?_, rfl⟩
  simp [launched, Pipeline.rearm, armed, List.map_map, Function.comp_def]

/-- A pipeline whose inputs make no stage fail runs as it does with any other
callback: the callback is never consulted. -/
theorem launched_run_rearm (opts : PipelineOpts) (e : errFunc) (h : Handler)
    (specs : List (stageFunc V E × Nat)) (script : List (FeedOp V)) (hne : specs ≠ [])
    (hpos : ∀ sp ∈ specs, 1 ≤ sp.2) (hs : FeedShape script) (hsne : script ≠ [])
    (hokf : ∀ x ∈ script.flatMap (FeedOp.pending (specs.map Prod.fst)), ∃ y, x = Except.ok y)
    (sched : List Action) :
    run (launched opts e specs script).1 (launched opts e specs script).2 sched =
      run (launched opts (some h) specs script).1 (launched opts (some h) specs script).2
        sched := by
  induction sched using List.reverseRecOn with
  | nil => rfl
  | append_singleton pre a ih =>
    rw [run_snoc, run_snoc, ih]
    cases hpre : run (launched opts (some h) specs script).1
        (launched opts (some h) specs script).2 pre with
    | none => rfl
    | some w =>
      simp only [Option.some_bind]
      rw [(launched_rearm_eq opts e (some h) specs script).1]
      exact step_rearm e _ w a
        (launched_NoFail opts h specs script pre w hne hpos hs hsne hokf hpre)

/-- Whatever the callback, when it is a function or the inputs make no stage
fail, an execution is an execution of the pipeline with a callback that is a
function, and the same steps are possible at its end. -/
theorem launched_safe (opts : PipelineOpts) (e : errFunc)
    (specs : List (stageFunc V E × Nat)) (script : List (FeedOp V)) (sched : List Action)
    (w' : World V E) (hne : specs ≠ []) (hpos : ∀ sp ∈ specs, 1 ≤ sp.2)
    (hs : FeedShape script) (hsne : script ≠ [])
    (hsafe : e ≠ none ∨
      ∀ x ∈ script.flatMap (FeedOp.pending (specs.map Prod.fst)), ∃ y, x = Except.ok y)
    (hrun : run (launched opts e specs script).1 (launched opts e specs script).2 sched =
      some w') :
    ∃ h : Handler, (e ≠ none → e = some h) ∧
      run (launched opts (some h) specs script).1 (launched opts (some h) specs script).2
        sched = some w' ∧
      ∀ act, step (launched opts e specs script).1 w' act =
        step (launched opts (some h) specs script).1 w' act := by
  cases e with
  | some h => exact ⟨h, fun _ => rfl, hrun, fun _ => rfl⟩
  | none =>
    rcases hsafe with hx | hokf
    · exact absurd rfl hx
    · have hrun' := hrun
      rw [launched_run_rearm opts none Handler.defaultErrFunc specs script hne hpos hs hsne
        hokf sched] at hrun'
      refine ⟨Handler.defaultErrFunc, fun hx => absurd rfl hx, hrun', fun act => ?_⟩
      rw [(launched_rearm_eq opts none (some Handler.defaultErrFunc) specs script).1]
      exact step_rearm none _ w' act
        (launched_NoFail opts _ specs script sched w' hne hpos hs hsne hokf hrun')

theorem launched_accounts_safe (opts : PipelineOpts) (e : errFunc)
    (specs : List (stageFunc V E × Nat)) (script : List (FeedOp V)) (sched : List Action)
    (w' : World V E) (hne : specs ≠ []) (hpos : ∀ sp ∈ specs, 1 ≤ sp.2)
    (hs : FeedShape script) (hsne : script ≠ [])
    (hsafe : e ≠ none ∨
      ∀ x ∈ script.flatMap (FeedOp.pending (specs.map Prod.fst)), ∃ y, x = Except.ok y)
    (hrun : run (launched opts e specs script).1 (launched opts e specs script).2 sched =
      some w') :
    w'.panicked = false ∧
      (∀ x ∈ w'.calls, e = some x.1 ∧
        Except.error x.2 ∈ script.flatMap (FeedOp.pending (specs.map Prod.fst))) ∧
      (∀ x ∈ w'.received,
        Except.ok x ∈ script.flatMap (FeedOp.pending (specs.map Prod.fst))) ∧
      (w'.sawClose = true →
        w'.received.Perm
            ((script.flatMap (FeedOp.pending (specs.map Prod.fst))).filterMap okOf) ∧
          (w'.calls.map Prod.snd).Perm
            ((script.flatMap (FeedOp.pending (specs.map Prod.fst))).filterMap errOf)) ∧
      (w'.sawClose = false →
        ∃ act w'', step (launched opts e specs script).1 w' act = some w'') ∧
      sched.length ≤
        2 + (script.map (FeedOp.weight specs.length)).sum +
          (specs.map fun sp => sp.2 + 1).sum := by
  obtain ⟨h, he, hrun', hstep⟩ := launched_safe opts e specs script sched w' hne hpos hs hsne
    hsafe hrun
  obtain ⟨_, _, _, hmu⟩ := launched_run opts h specs script sched w' hne hpos hs hsne hrun'
  obtain ⟨hnp, hcalls, hrecv, hfin, hprog⟩ := launched_accounts opts h specs script sched w'
    hne hpos hs hsne hrun'
  refine ⟨hnp, fun x hx => ⟨?_, (hcalls x hx).2⟩, hrecv, hfin, fun hsc => ?_, hmu⟩
  · by_cases hn : e = none
    · rcases hsafe with hx' | hokf
      · exact absurd hn hx'
      · obtain ⟨y, hy⟩ := hokf _ (hcalls x hx).2
        cases hy
    · rw [he hn, (hcalls x hx).1]
  · obtain ⟨act, w'', hst⟩ := hprog hsc
    exact ⟨act, w'', (hstep act).trans hst⟩

theorem launched_barrier_safe (opts : PipelineOpts) (e : errFunc)
    (specs : List (stageFunc V E × Nat)) (script : List (FeedOp V)) (sched : List Action)
    (w' : World V E) (hne : specs ≠ []) (hpos : ∀ sp ∈ specs, 1 ≤ sp.2)
    (hs : FeedShape script) (hsne : script ≠ [])
    (hsafe : e ≠ none ∨
      ∀ x ∈ script.flatMap (FeedOp.pending (specs.map Prod.fst)), ∃ y, x = Except.ok y)
    (hrun : run (launched opts e specs script).1 (launched opts e specs script).2 sched =
      some w') :
    (∀ (i : Nat) (s : stage V E) (pool : Pool V E),
        (launched opts e specs script).1.stages[i]? = some s →
        w'.pools[i]? = some pool →
        1 ≤ s.workerCount ∧ pool.workers.length = s.workerCount ∧ Barrier w' s pool ∧
          (w'.sawClose = true → pool.closed = true ∧ (w'.chan s.out).buf = [])) ∧
      w'.pools.length = (launched opts e specs script).1.stages.length ∧
      (w'.sawClose = true →
        (w'.chan (launched opts e specs script).1.sink).closed = true ∧
          w'.feeders = [[]]) := by
  obtain ⟨h, _, hrun', _⟩ := launched_safe opts e specs script sched w' hne hpos hs hsne
    hsafe hrun
  obtain ⟨hb, hlen, hfin⟩ := launched_barrier opts h specs script sched w' hne hpos hs hsne
    hrun'
  refine ⟨fun i s pool hst hp => ?_, ?_, hfin⟩
  · have hst' : (launched opts (some h) specs script).1.stages[i]? =
        some { s with errFn := some h } := by
      simp only [launched, armed, List.getElem?_map] at hst ⊢
      cases hx : (wiredFrom (V := V) (E := E) 0 2 1 specs)[i]? with
      | none => simp [hx] at hst
      | some t =>
        simp only [hx, Option.map_some', Option.some.injEq] at hst ⊢
        subst hst
        rfl
    have hres := hb i { s with errFn := some h } pool hst' hp
    exact hres
  · rw [hlen]
    simp [launched, armed]

theorem builtWorld_quiet (opts : PipelineOpts) (specs : List (stageFunc V E × Nat))
    (hpos : ∀ sp ∈ specs, 1 ≤ sp.2) (p : Pipeline V E) (act : Action) :
    step p (builtWorld opts specs) act = none := by
  have hpool : ∀ (i : Nat) (pool : Pool V E), (builtWorld opts specs).pools[i]? = some pool →
      ∃ n, 1 ≤ n ∧ pool = { workers := List.replicate n Worker.recv, closed := false } := by
    intro i pool hp
    simp only [builtWorld, List.getElem?_map] at hp
    cases hs : specs[i]? with
    | none => simp [hs] at hp
    | some sp =>
      simp only [hs, Option.map_some', Option.some.injEq] at hp
      exact ⟨sp.2, hpos sp (List.getElem?_mem hs), hp.symm⟩
  have hwk : ∀ (n j : Nat) (wk : Worker V E),
      (List.replicate n (Worker.recv : Worker V E))[j]? = some wk → wk = Worker.recv := by
    intro n j wk h
    exact (List.mem_replicate.mp (List.getElem?_mem h)).2
  have hmove : ∀ b a, move b p (builtWorld opts specs) a = none := by
    intro b a
    cases a with
    | feeder k => simp [move, feederMove, builtWorld]
    | worker i j =>
      simp only [move]
      split
      · rfl
      · unfold workerMove
        cases hs : p.stages[i]? with
        | none => rfl
        | some s =>
          cases hp : (builtWorld opts specs).pools[i]? with
          | none => rfl
          | some pool =>
            obtain ⟨n, _, rfl⟩ := hpool i pool hp
            simp only
            cases hj : (List.replicate n (Worker.recv : Worker V E))[j]? with
            | none => rfl
            | some wk =>
              rw [hwk n j wk hj]
              simp [builtWorld]
    | closer i =>
      simp only [move]
      split
      · rfl
      · unfold closerMove
        cases hs : p.stages[i]? with
        | none => rfl
        | some s =>
          cases hp : (builtWorld opts specs).pools[i]? with
          | none => rfl
          | some pool =>
            obtain ⟨n, hn, rfl⟩ := hpool i pool hp
            obtain ⟨m, rfl⟩ : ∃ m, n = m + 1 := ⟨n - 1, by omega⟩
            simp [List.replicate_succ, Worker.isDone]
    | consumer => simp [move, consumerMove, builtWorld]
  cases act with
  | solo a => exact hmove true a
  | handoff snd rcv =>
    have hst : sendTarget p (builtWorld opts specs) snd = none := by
      cases snd with
      | feeder k => simp [sendTarget, builtWorld]
      | worker i j =>
        simp only [sendTarget]
        cases hs : p.stages[i]? with
        | none => rfl
        | some s =>
          cases hp : (builtWorld opts specs).pools[i]? with
          | none => rfl
          | some pool =>
            obtain ⟨n, _, rfl⟩ := hpool i pool hp
            simp only
            cases hj : (List.replicate n (Worker.recv : Worker V E))[j]? with
            | none => rfl
            | some wk =>
              rw [hwk n j wk hj]
      | closer i => rfl
      | consumer => rfl
    simp only [step, hst]

/-- Before the emission call no goroutine of a pipeline whose stages all have
at least one worker can move: every worker waits on an empty open queue and
every closer on its workers. -/
theorem setup_quiet (opts : PipelineOpts) (cs cs0 : List (Setup V E))
    (hpos : ∀ sp ∈ registered cs, 1 ≤ sp.2) (hpre : cs0 <+: cs) (act : Action) :
    step (setup opts cs0).1 (setup opts cs0).2 act = none := by
  obtain ⟨t, rfl⟩ := hpre
  have hpos0 : ∀ sp ∈ registered cs0, 1 ≤ sp.2 := by
    intro sp hsp
    apply hpos
    simp only [registered, List.filterMap_append, List.mem_append]
    exact Or.inl hsp
  have h2 : (setup opts cs0).2 = builtWorld opts (registered cs0) := by
    rw [setup_eq, build_eq]
    rfl
  rw [h2]
  exact builtWorld_quiet opts _ hpos0 _ act

theorem step_of_panicked (p : Pipeline V E) (w : World V E) (act : Action)
    (h : w.panicked = true) : step p w act = none := by
  have hm : ∀ b a, move b p w a = none := by
    intro b a
    cases a <;> simp [move, h]
  cases act with
  | solo a => exact hm true a
  | handoff snd rcv =>
    simp only [step]
    split
    · split
      · rw [hm false snd]
        rfl
      · rfl
    · rfl


theorem move_rearm_calm (b : Bool) (e : errFunc) (p : Pipeline V E) (w : World V E)
    (a : Actor) (hc : Calm w a) : move b (p.rearm e) w a = move b p w a := by
  cases a with
  | feeder k => rfl
  | worker i j =>
    simp only [move]
    congr 1
    unfold workerMove
    rw [rearm_stages_getElem?]
    cases hs : p.stages[i]? with
    | none => rfl
    | some s =>
      cases hp : w.pools[i]? with
      | none => rfl
      | some pool =>
        simp only [Option.map_some']
        cases hj : pool.workers[j]? with
        | none => rfl
        | some wk =>
          cases wk with
          | recv => rfl
          | send res => rfl
          | fail err => exact absurd hj (hc i j rfl pool hp err)
          | done => rfl
  | closer i => simp only [move, closerMove_rearm]
  | consumer => rfl

theorem sender_calm (p : Pipeline V E) (w : World V E) (snd : Actor) (c : Nat)
    (hsnd : sendTarget p w snd = some c) : Calm w snd := by
  intro i j ha pool hp err hj
  subst ha
  simp only [sendTarget, hp] at hsnd
  cases hs : p.stages[i]? with
  | none => simp [hs] at hsnd
  | some s => simp [hs, hj] at hsnd

theorem setWorker_getElem? (w : World V E) (i j : Nat) (wk : Worker V E) (i' j' : Nat)
    (pool : Pool V E) (h : (w.setWorker i j wk).pools[i']? = some pool) :
    ∃ pool0, w.pools[i']? = some pool0 ∧
      (pool.workers[j']? = pool0.workers[j']? ∨ pool.workers[j']? = some wk) := by
  unfold World.setWorker at h
  cases hp : w.pools[i]? with
  | none =>
    simp only [hp] at h
    exact ⟨pool, h, Or.inl rfl⟩
  | some q =>
    simp only [hp] at h
    rw [List.getElem?_set] at h
    split at h
    · rename_i hii
      subst hii
      split at h
      · simp only [Option.some.injEq] at h
        subst h
        refine ⟨q, hp, ?_⟩
        simp only [List.getElem?_set]
        split
        · split
          · exact Or.inr rfl
          · rename_i hlt
            exact Or.inl (List.getElem?_eq_none_iff.mpr (by omega)).symm
        · exact Or.inl rfl
      · cases h
    · exact ⟨pool, h, Or.inl rfl⟩

theorem receiver_calm (b : Bool) (p : Pipeline V E) (w w1 : World V E) (snd rcv : Actor)
    (c c' : Nat) (hsnd : sendTarget p w snd = some c) (hrcv : recvSource p w rcv = some c')
    (hm : move b p w snd = some w1) : Calm w1 rcv := by
  intro i j ha pool hp err hj
  subst ha
  have hrecv : ∀ pool0, w.pools[i]? = some pool0 → pool0.workers[j]? = some Worker.recv := by
    intro pool0 hp0
    simp only [recvSource, hp0] at hrcv
    cases hs : p.stages[i]? with
    | none => simp [hs] at hrcv
    | some s =>
      simp only [hs] at hrcv
      cases hw : pool0.workers[j]? with
      | none => simp [hw] at hrcv
      | some wk =>
        cases wk with
        | recv => rfl
        | send res => simp [hw] at hrcv
        | fail err => simp [hw] at hrcv
        | done => simp [hw] at hrcv
  have hnp := move_not_panicked b p w w1 _ hm
  cases snd with
  | feeder k =>
    simp only [move, hnp, Bool.false_eq_true, if_false] at hm
    have hpools : w1.pools = w.pools := by
      unfold feederMove at hm
      split at hm
      · rename_i op rest hk
        cases op with
        | wait d =>
          simp only [Option.some.injEq] at hm
          subst hm
          rfl
        | send v =>
          simp only at hm
          split at hm
          · simp only [Option.some.injEq] at hm
            subst hm
            rfl
          · have hpl := World.sendOn_pools _ _ _ _ _ hm
            exact hpl
        | close =>
          simp only [Option.some.injEq] at hm
          subst hm
          simp only [World.closeChan]
          split <;> rfl
      · simp at hm
    rw [hpools] at hp
    rw [hrecv pool hp] at hj
    cases hj
  | worker i' j' =>
    simp only [move, hnp, Bool.false_eq_true, if_false] at hm
    unfold workerMove at hm
    simp only [sendTarget] at hsnd
    cases hs : p.stages[i']? with
    | none => simp [hs] at hsnd
    | some s =>
      cases hp' : w.pools[i']? with
      | none => simp [hs, hp'] at hsnd
      | some pool' =>
        cases hj' : pool'.workers[j']? with
        | none => simp [hs, hp', hj'] at hsnd
        | some wk =>
          cases wk with
          | send res =>
            simp only [hs, hp', hj'] at hm
            rw [World.sendOn_pools _ _ _ _ _ hm] at hp
            obtain ⟨pool0, hp0, h3 | h3⟩ := setWorker_getElem? w i' j' Worker.recv i j pool hp
            · rw [h3, hrecv pool0 hp0] at hj
              cases hj
            · rw [h3] at hj
              cases hj
          | recv => simp [hs, hp', hj'] at hsnd
          | fail err => simp [hs, hp', hj'] at hsnd
          | done => simp [hs, hp', hj'] at hsnd
  | closer i' => simp [sendTarget] at hsnd
  | consumer => simp [sendTarget] at hsnd

/-- With a `nil` callback a step is the step with any other callback, except
the step of a worker about to call the callback, which panics. -/
theorem step_rearm_none (p : Pipeline V E) (w w' : World V E) (act : Action)
    (h : step (p.rearm none) w act = some w') :
    step p w act = some w' ∨ (w' = w.panic ∧ ¬ NoFail w) := by
  cases act with
  | solo a =>
    by_cases hc : Calm w a
    · exact Or.inl ((move_rearm_calm true none p w a hc).symm.trans h)
    · right
      simp only [Calm] at hc
      push_neg at hc
      obtain ⟨i, j, rfl, pool, hp, err, hj⟩ := hc
      have h' : move true (p.rearm none) w (Actor.worker i j) = some w' := h
      have hnp := move_not_panicked true _ w w' _ h'
      simp only [move, hnp, Bool.false_eq_true, if_false] at h'
      unfold workerMove at h'
      rw [rearm_stages_getElem?] at h'
      cases hs : p.stages[i]? with
      | none => simp [hs] at h'
      | some s =>
        simp only [hs, hp, Option.map_some', hj, Option.some.injEq] at h'
        exact ⟨h'.symm, fun hnf => hnf pool (List.getElem?_mem hp) err (List.getElem?_mem hj)⟩
  | handoff snd rcv =>
    left
    simp only [step, sendTarget_rearm, recvSource_rearm] at h ⊢
    cases hsnd : sendTarget p w snd with
    | none => simp [hsnd] at h
    | some c =>
      cases hrcv : recvSource p w rcv with
      | none => simp [hsnd, hrcv] at h
      | some c' =>
        simp only [hsnd, hrcv] at h ⊢
        split at h
        · rename_i hg
          rw [if_pos hg]
          have hm0 : move false (p.rearm none) w snd = move false p w snd :=
            move_rearm_calm false none p w snd (sender_calm p w snd c hsnd)
          rw [hm0] at h
          cases hm : move false p w snd with
          | none => simp [hm] at h
          | some w1 =>
            simp only [hm, Option.some_bind] at h ⊢
            rw [← move_rearm_calm true none p w1 rcv
              (receiver_calm false p w w1 snd rcv c c' hsnd hrcv hm)]
            exact h
        · simp at h

theorem step_not_panicked (p : Pipeline V E) (w w' : World V E) (act : Action)
    (h : step p w act = some w') : w.panicked = false := by
  cases hp : w.panicked with
  | false => rfl
  | true =>
    rw [step_of_panicked p w act hp] at h
    cases h

/-- An execution with a `nil` callback is an execution with any other
callback, or such an execution followed by the panic of a worker that calls
the callback. -/
theorem launched_run_none (opts : PipelineOpts) (h : Handler)
    (specs : List (stageFunc V E × Nat)) (script : List (FeedOp V)) (sched : List Action)
    (w' : World V E)
    (hrun : run (launched opts none specs script).1 (launched opts none specs script).2
      sched = some w') :
    run (launched opts (some h) specs script).1 (launched opts (some h) specs script).2
        sched = some w' ∨
      ∃ pre a w, sched = pre ++ [a] ∧
        run (launched opts (some h) specs script).1 (launched opts (some h) specs script).2
          pre = some w ∧ ¬ NoFail w ∧ w' = w.panic := by
  induction sched using List.reverseRecOn generalizing w' with
  | nil => exact Or.inl hrun
  | append_singleton pre a ih =>
    rw [run_snoc] at hrun
    cases hpre : run (launched opts none specs script).1
        (launched opts none specs script).2 pre with
    | none => simp [hpre] at hrun
    | some w0 =>
      simp only [hpre, Option.some_bind] at hrun
      have hnp := step_not_panicked _ w0 w' a hrun
      have hpe : run (launched opts (some h) specs script).1
          (launched opts (some h) specs script).2 pre = some w0 := by
        rcases ih w0 hpre with h1 | ⟨_, _, w, _, _, _, h4⟩
        · exact h1
        · rw [h4] at hnp
          simp [World.panic] at hnp
      rw [(launched_rearm_eq opts none (some h) specs script).1] at hrun
      rcases step_rearm_none _ w0 w' a hrun with h1 | ⟨h1, h2⟩
      · left
        rw [run_snoc, hpe]
        exact h1
      · exact Or.inr ⟨pre, a, w0, rfl, hpe, h2, h1⟩

theorem launched_closed_NoFail (opts : PipelineOpts) (h : Handler)
    (specs : List (stageFunc V E × Nat)) (script : List (FeedOp V)) (sched : List Action)
    (w : World V E) (hne : specs ≠ []) (hpos : ∀ sp ∈ specs, 1 ≤ sp.2)
    (hs : FeedShape script) (hsne : script ≠ [])
    (hrun : run (launched opts (some h) specs script).1
      (launched opts (some h) specs script).2 sched = some w)
    (hsc : w.sawClose = true) : NoFail w := by
  obtain ⟨hb, hlen, _⟩ := launched_barrier opts h specs script sched w hne hpos hs hsne hrun
  intro pool hpool err hmem
  obtain ⟨i, hi, hget⟩ := List.getElem_of_mem hpool
  have hp : w.pools[i]? = some pool := by
    rw [List.getElem?_eq_getElem hi, hget]
  cases hst : (launched opts (some h) specs script).1.stages[i]? with
  | none =>
    rw [List.getElem?_eq_none_iff] at hst
    omega
  | some s =>
    obtain ⟨_, _, hbar, hcl⟩ := hb i s pool hst hp
    have := hbar.2.1 (hcl hsc).1 _ hmem
    simp [Worker.isDone] at this

/-- Whatever the callback: when every stage has at least one worker and the
caller's loop has ended, the feeder has run to its end. -/
theorem launched_feeder_done (opts : PipelineOpts) (e : errFunc)
    (specs : List (stageFunc V E × Nat)) (script : List (FeedOp V)) (sched : List Action)
    (w' : World V E) (hne : specs ≠ []) (hpos : ∀ sp ∈ specs, 1 ≤ sp.2)
    (hs : FeedShape script) (hsne : script ≠ [])
    (hrun : run (launched opts e specs script).1 (launched opts e specs script).2 sched =
      some w')
    (hsc : w'.sawClose = true) : w'.feeders = [[]] := by
  cases e with
  | some h =>
    exact ((launched_barrier opts h specs script sched w' hne hpos hs hsne hrun).2.2 hsc).2
  | none =>
    rcases launched_run_none opts Handler.defaultErrFunc specs script sched w' hrun with
      h1 | ⟨pre, a, w, _, h2, h3, h4⟩
    · exact ((launched_barrier opts _ specs script sched w' hne hpos hs hsne h1).2.2 hsc).2
    · exfalso
      apply h3
      refine launched_closed_NoFail opts _ specs script pre w hne hpos hs hsne h2 ?_
      rw [h4] at hsc
      exact hsc

/-! ## Claims about executions -/

theorem through_eq_ok (fns : List (stageFunc V E)) (h : ∀ f ∈ fns, ∀ v, (f v).2 = none)
    (v : V) : through fns v = Except.ok (compose fns v) := by
  induction fns generalizing v with
  | nil => rfl
  | cons f rest ih =>
    simp only [through, h f (List.mem_cons_self _ _) v, compose, List.foldl_cons]
    exact ih (fun g hg => h g (List.mem_cons_of_mem _ hg)) _

theorem map_ok_append_eq {xs ys : List V} {rest : List (Except E V)}
    (h : xs.map Except.ok ++ rest = ys.map Except.ok) : xs <+: ys := by
  induction xs generalizing ys with
  | nil => exact ⟨ys, rfl⟩
  | cons x xs ih =>
    cases ys with
    | nil => simp at h
    | cons y ys =>
      simp only [List.map_cons, List.cons_append, List.cons.injEq, Except.ok.injEq] at h
      obtain ⟨t, ht⟩ := ih h.2
      exact ⟨t, by rw [h.1, List.cons_append, ht]⟩

theorem map_ok_injective {xs ys : List V} (h : xs.map (Except.ok (ε := E)) = ys.map Except.ok) :
    xs = ys := by
  induction xs generalizing ys with
  | nil =>
    cases ys with
    | nil => rfl
    | cons y ys => simp at h
  | cons x xs ih =>
    cases ys with
    | nil => simp at h
    | cons y ys =>
      simp only [List.map_cons, List.cons.injEq, Except.ok.injEq] at h
      rw [h.1, ih h.2]

theorem calls_nil_of_ledger {calls : List (Handler × E)} {rest : List (Except E V)}
    {ys : List V} (h : calls.map (fun x => Except.error x.2) ++ rest = ys.map Except.ok) :
    calls = [] := by
  cases calls with
  | nil => rfl
  | cons c cs =>
    cases ys with
    | nil => simp at h
    | cons y ys => simp at h

/-- C1. Order preservation. A pipeline built by `New` and any sequence of
`Next` and `OnError` calls, with at least one stage, every stage with one
worker and a function that never fails, is fed by `Emit(values...)`. In every
execution the caller has at every moment received a leading part of
`f(v1), ..., f(vn)` (`f` the composition of the stage functions in
registration order), and exactly that list once its range loop over the sink
has ended; nothing panics; as long as the loop has not ended some goroutine
can move, and no execution is longer than the stated bound, so the loop does
end. -/
theorem emit_preserves_order (opts : PipelineOpts) (cs : List (Setup V E))
    (values : List V) (r : (Pipeline V E × World V E) × Nat) (sched : List Action)
    (w' : World V E) (hne : registered cs ≠ []) (hone : ∀ sp ∈ registered cs, sp.2 = 1)
    (hnf : ∀ sp ∈ registered cs, ∀ v, (sp.1 v).2 = none)
    (hE : Emit values (setup opts cs) = Except.ok r)
    (hrun : run r.1.1 r.1.2 sched = some w') :
    r.2 = r.1.1.sink ∧
      w'.received <+: values.map (compose ((registered cs).map Prod.fst)) ∧
      (w'.sawClose = true → w'.received = values.map (compose ((registered cs).map Prod.fst))) ∧
      w'.panicked = false ∧
      (w'.sawClose = false → ∃ act w'', step r.1.1 w' act = some w'') ∧
      sched.length ≤
        3 + values.length * (2 * (registered cs).length + 2) +
          ((registered cs).map fun sp => sp.2 + 1).sum := by
  rw [Emit_setup opts cs values hne] at hE
  simp only [Except.ok.injEq] at hE
  subst hE
  have hpos : ∀ sp ∈ (registered cs), 1 ≤ sp.2 := fun sp hsp => by rw [hone sp hsp]
  have hfn : ∀ f ∈ (registered cs).map Prod.fst, ∀ v, (f v).2 = none := by
    intro f hf v
    obtain ⟨sp, hsp, rfl⟩ := List.mem_map.mp hf
    exact hnf sp hsp v
  have hokf : ∀ x ∈ (emitFeeder values).flatMap
      (FeedOp.pending ((registered cs).map Prod.fst)), ∃ y, x = Except.ok y := by
    intro x hx
    rw [emitFeeder_pending] at hx
    obtain ⟨v, _, rfl⟩ := List.mem_map.mp hx
    exact ⟨_, through_eq_ok _ hfn v⟩
  obtain ⟨h, _, hrun', hstep⟩ := launched_safe opts (lastOnError cs) (registered cs)
    (emitFeeder values) sched w' hne hpos (FeedShape_emitFeeder values)
    (by simp [emitFeeder]) (Or.inr hokf) hrun
  obtain ⟨hok, hlen, hled, hmu⟩ := launched_run opts h (registered cs)
    (emitFeeder values) sched w' hne hpos (FeedShape_emitFeeder values)
    (by simp [emitFeeder]) hrun'
  have hw := launched_wired opts (some h) (registered cs) (emitFeeder values) hne
  have hex := (hled true fun _ => initChain_Lane _ _ (registered cs) _ hone hnf).1 rfl
  rw [emitFeeder_pending] at hex
  have hmap : values.map (through ((registered cs).map Prod.fst)) =
      (values.map (compose ((registered cs).map Prod.fst))).map Except.ok := by
    rw [List.map_map]
    exact List.map_congr_left fun v _ => through_eq_ok _ hfn v
  rw [hmap] at hex
  have hcalls : w'.calls = [] := by
    simp only [Chain.ledger, List.append_assoc] at hex
    exact calls_nil_of_ledger hex
  have hc : (chainOf (launched opts (some h) (registered cs) (emitFeeder values)).1 w').calls
      = [] := hcalls
  refine ⟨rfl, ?_, ?_, hok.1, fun hsc => ?_, ?_⟩
  · simp only [Chain.ledger, List.append_assoc] at hex
    rw [hc] at hex
    exact map_ok_append_eq hex
  · intro hsc
    have hfin := (hok.final_ledger hsc).1
    rw [hfin] at hex
    rw [hc] at hex
    exact map_ok_injective hex
  · obtain ⟨act, w'', hs⟩ := step_progress _ w' hw hlen hok hsc
    exact ⟨act, w'', (hstep act).trans hs⟩
  · rw [emitFeeder_weight] at hmu
    omega

theorem mem_map_through {fns : List (stageFunc V E)} {values : List V} {x : Except E V}
    (h : x ∈ (emitFeeder values).flatMap (FeedOp.pending fns)) :
    ∃ v ∈ values, through fns v = x := by
  rw [emitFeeder_pending] at h
  obtain ⟨v, hv, rfl⟩ := List.mem_map.mp h
  exact ⟨v, hv, rfl⟩

/-- C2. Composition. A pipeline built by `New` and any sequence of `Next` and
`OnError` calls, with at least one stage, every stage with a positive worker
count and a function that never fails, is fed by `Emit(values...)`. In every
execution each value the caller has received is `f(v)` for an emitted `v`
(`f` the composition of the stage functions in registration order), no error
callback is invoked, nothing panics, and once the caller's range loop over the
sink has ended the received values are, as a multiset, exactly
`f(v1), ..., f(vn)`. As long as the loop has not ended some goroutine can
move, and no execution is longer than the stated bound, so the loop does
end. -/
theorem emit_composes_stages (opts : PipelineOpts) (cs : List (Setup V E))
    (values : List V) (r : (Pipeline V E × World V E) × Nat) (sched : List Action)
    (w' : World V E) (hne : registered cs ≠ []) (hpos : ∀ sp ∈ registered cs, 1 ≤ sp.2)
    (hnf : ∀ sp ∈ registered cs, ∀ v, (sp.1 v).2 = none)
    (hE : Emit values (setup opts cs) = Except.ok r)
    (hrun : run r.1.1 r.1.2 sched = some w') :
    r.2 = r.1.1.sink ∧
      (∀ x ∈ w'.received, ∃ v ∈ values, x = compose ((registered cs).map Prod.fst) v) ∧
      (w'.sawClose = true →
        w'.received.Perm (values.map (compose ((registered cs).map Prod.fst)))) ∧
      w'.calls = [] ∧
      w'.panicked = false ∧
      (w'.sawClose = false → ∃ act w'', step r.1.1 w' act = some w'') ∧
      sched.length ≤
        3 + values.length * (2 * (registered cs).length + 2) +
          ((registered cs).map fun sp => sp.2 + 1).sum := by
  rw [Emit_setup opts cs values hne] at hE
  simp only [Except.ok.injEq] at hE
  subst hE
  have hfn : ∀ f ∈ (registered cs).map Prod.fst, ∀ v, (f v).2 = none := by
    intro f hf v
    obtain ⟨sp, hsp, rfl⟩ := List.mem_map.mp hf
    exact hnf sp hsp v
  have hokf : ∀ x ∈ (emitFeeder values).flatMap
      (FeedOp.pending ((registered cs).map Prod.fst)), ∃ y, x = Except.ok y := by
    intro x hx
    obtain ⟨v, _, rfl⟩ := mem_map_through hx
    exact ⟨_, through_eq_ok _ hfn v⟩
  obtain ⟨hnp, hcalls, hrecv, hfin, hprog, hmu⟩ := launched_accounts_safe opts
    (lastOnError cs) (registered cs) (emitFeeder values) sched w' hne hpos
    (FeedShape_emitFeeder values) (by simp [emitFeeder]) (Or.inr hokf) hrun
  refine ⟨rfl, fun x hx => ?_, fun hsc => ?_, ?_, hnp, hprog, ?_⟩
  · obtain ⟨v, hv, h⟩ := mem_map_through (hrecv x hx)
    rw [through_eq_ok _ hfn] at h
    exact ⟨v, hv, (Except.ok.inj h).symm⟩
  · have h := (hfin hsc).1
    rw [emitFeeder_pending, List.filterMap_map] at h
    have hid : (okOf ∘ through ((registered cs).map Prod.fst) : V → Option V) =
        some ∘ compose ((registered cs).map Prod.fst) := by
      funext v
      simp only [Function.comp, through_eq_ok _ hfn, okOf]
    rw [hid, List.filterMap_eq_map] at h
    exact h
  · cases hc : w'.calls with
    | nil => rfl
    | cons x xs =>
      obtain ⟨y, hy⟩ := hokf _ (hcalls x (by rw [hc]; exact List.mem_cons_self _ _)).2
      cases hy
  · rw [emitFeeder_weight] at hmu
    omega

/-- C3, with two conditions: every stage has at least one worker, and the
error callback is not `nil` unless no input makes a stage fail. A pipeline
built by `New` and any sequence of `Next` and `OnError` calls, with at least
one `Next` call, is fed by `Emit(values...)`. Before the call no goroutine
can move. In every execution after it each value the caller has received is
the full transform of an emitted value on which no stage fails, each callback
invocation is an invocation of the registered callback (the default one when
`OnError` was never called) with the error of the first failing stage on an
emitted value, and nothing panics. Once the
caller's range loop over the sink has ended, the received values are, as a
multiset, exactly the full transforms of the inputs on which no stage fails,
and the callback invocations are, as a multiset, exactly one per failing input
with the error that stage returned. As long as the loop has not ended some
goroutine can move, and no execution is longer than the stated bound, so the
loop does end. -/
theorem emit_isolates_errors (opts : PipelineOpts) (cs : List (Setup V E)) (values : List V)
    (r : (Pipeline V E × World V E) × Nat) (sched : List Action) (w' : World V E)
    (hne : registered cs ≠ []) (hpos : ∀ sp ∈ registered cs, 1 ≤ sp.2)
    (hcb : lastOnError cs ≠ none ∨
      ∀ v ∈ values, ∃ x, through ((registered cs).map Prod.fst) v = Except.ok x)
    (hE : Emit values (setup opts cs) = Except.ok r)
    (hrun : run r.1.1 r.1.2 sched = some w') :
    (∀ cs0, cs0 <+: cs → ∀ act, step (setup opts cs0).1 (setup opts cs0).2 act = none) ∧
      (∀ x ∈ w'.received,
        ∃ v ∈ values, through ((registered cs).map Prod.fst) v = Except.ok x) ∧
      (∀ x ∈ w'.calls, lastOnError cs = some x.1 ∧
        ∃ v ∈ values, through ((registered cs).map Prod.fst) v = Except.error x.2) ∧
      (w'.sawClose = true →
        w'.received.Perm
            (values.filterMap fun v => okOf (through ((registered cs).map Prod.fst) v)) ∧
          (w'.calls.map Prod.snd).Perm
            (values.filterMap fun v => errOf (through ((registered cs).map Prod.fst) v))) ∧
      w'.panicked = false ∧
      (w'.sawClose = false → ∃ act w'', step r.1.1 w' act = some w'') ∧
      sched.length ≤
        3 + values.length * (2 * (registered cs).length + 2) +
          ((registered cs).map fun sp => sp.2 + 1).sum := by
  rw [Emit_setup opts cs values hne] at hE
  simp only [Except.ok.injEq] at hE
  subst hE
  have hsafe : lastOnError cs ≠ none ∨ ∀ x ∈ (emitFeeder values).flatMap
      (FeedOp.pending ((registered cs).map Prod.fst)), ∃ y, x = Except.ok y := by
    rcases hcb with h | h
    · exact Or.inl h
    · refine Or.inr fun x hx => ?_
      obtain ⟨v, hv, rfl⟩ := mem_map_through hx
      obtain ⟨y, hy⟩ := h v hv
      exact ⟨y, hy⟩
  obtain ⟨hnp, hcalls, hrecv, hfin, hprog, hmu⟩ := launched_accounts_safe opts
    (lastOnError cs) (registered cs) (emitFeeder values) sched w' hne hpos
    (FeedShape_emitFeeder values) (by simp [emitFeeder]) hsafe hrun
  refine ⟨fun cs0 hpre act => setup_quiet opts cs cs0 hpos hpre act,
    fun x hx => mem_map_through (hrecv x hx),
    fun x hx => ⟨(hcalls x hx).1, mem_map_through (hcalls x hx).2⟩,
    fun hsc => ?_, hnp, hprog, ?_⟩
  · have h := hfin hsc
    rw [emitFeeder_pending, List.filterMap_map, List.filterMap_map] at h
    exact h
  · rw [emitFeeder_weight] at hmu
    omega

/-- C3 as stated fails in two ways. For a stage registered with worker count
0: after `OnError(cb)`, `Next(fn, 0)` and `Emit("one", "two", nil)` the closer
of the stage closes the sink at once, and the caller's range loop over the sink
ends with no value received, although two of the inputs make no stage fail.
For a `nil` callback: after `OnError(nil)`, `Next(fn, 1)` and
`Emit("one", "two", nil)` the worker's call `s.errFn(err)` on the failing input
panics; the callback was not invoked for the failing input and the caller's
loop never ends. -/
theorem emit_isolation_broken :
    (∃ r w', Emit [some "one", some "two", none]
          (setup WithDefault
            [Setup.onError (some (Handler.callback 0)), Setup.next testFailNil 0]) =
        Except.ok r ∧
      run r.1.1 r.1.2 [Action.solo (Actor.closer 0), Action.solo Actor.consumer] = some w' ∧
      w'.sawClose = true ∧ w'.received = [] ∧ w'.calls = [] ∧ w'.panicked = false ∧
      [some "one", some "two", none].filterMap (fun v => okOf (through [testFailNil] v)) =
        [some "one", some "two"]) ∧
    (∃ r w', Emit [some "one", some "two", none]
          (setup WithDefault [Setup.onError none, Setup.next testFailNil 1]) =
        Except.ok r ∧
      run r.1.1 r.1.2 nilSched = some w' ∧
      w'.panicked = true ∧ w'.calls = [] ∧ w'.sawClose = false ∧
      w'.received = [some "one", some "two"] ∧
      [some "one", some "two", none].filterMap (fun v => errOf (through [testFailNil] v)) =
        ["test"] ∧
      ∀ act, step r.1.1 w' act = none) := by
  constructor
  · have h1 : (run (V := Option String) (E := String)
        (launched WithDefault (some (Handler.callback 0)) [(testFailNil, 0)]
          (emitFeeder [some "one", some "two", none])).1
        (launched WithDefault (some (Handler.callback 0)) [(testFailNil, 0)]
          (emitFeeder [some "one", some "two", none])).2
        [Action.solo (Actor.closer 0), Action.solo Actor.consumer]).map
          (fun w => (w.sawClose, w.received, w.calls, w.panicked)) =
        some (true, [], [], false) := by
      rfl
    obtain ⟨w', hw, h2⟩ := Option.map_eq_some'.mp h1
    simp only [Prod.mk.injEq] at h2
    exact ⟨(launched WithDefault (some (Handler.callback 0)) [(testFailNil, 0)]
      (emitFeeder [some "one", some "two", none]), 1), w',
      Emit_setup _ _ _ (List.cons_ne_nil _ _), hw, h2.1, h2.2.1, h2.2.2.1, h2.2.2.2, rfl⟩
  · have h1 : (run (V := Option String) (E := String)
        (launched WithDefault none [(testFailNil, 1)]
          (emitFeeder [some "one", some "two", none])).1
        (launched WithDefault none [(testFailNil, 1)]
          (emitFeeder [some "one", some "two", none])).2 nilSched).map
          (fun w => (w.panicked, w.calls, w.sawClose, w.received)) =
        some (true, [], false, [some "one", some "two"]) := by
      rfl
    obtain ⟨w', hw, h2⟩ := Option.map_eq_some'.mp h1
    simp only [Prod.mk.injEq] at h2
    exact ⟨(launched WithDefault none [(testFailNil, 1)]
      (emitFeeder [some "one", some "two", none]), 1), w',
      Emit_setup _ _ _ (List.cons_ne_nil _ _), hw, h2.1, h2.2.1, h2.2.2.1, h2.2.2.2, rfl,
      fun act => step_of_panicked _ w' act h2.1⟩

/-- C9, with two conditions: every stage of the pipeline has at least one
worker, and the error callback is not `nil` unless no input makes a stage
fail. A pipeline built by `New` and any sequence of `Next` and `OnError` calls
is fed by one `Emit` or `EmitWithDelay` call. Before the call, and between
the calls that build the pipeline, no goroutine can move. In every execution
after the call, at every moment: nothing has panicked (no send on a closed
queue and no second close has happened); each stage has its `workerCount`
workers; its outbound queue is closed exactly when its closer has run; the
closer has run only if all its workers have left their loop; a worker has left
its loop only if the inbound queue is closed and drained; a worker about to
send has an open outbound queue. As long as the caller's range loop over the
sink has not ended some goroutine can move, and no execution is longer than
the stated bound, so the loop does end; when it has ended the sink is closed,
every stage's closer has run, every outbound queue is drained and the feeder
has run to its end. -/
theorem stage_completion_barrier (opts : PipelineOpts) (cs : List (Setup V E)) (dur : Int)
    (values : List V) (r : (Pipeline V E × World V E) × Nat) (sched : List Action)
    (w' : World V E) (hne : registered cs ≠ []) (hpos : ∀ sp ∈ registered cs, 1 ≤ sp.2)
    (hcb : lastOnError cs ≠ none ∨
      ∀ v ∈ values, ∃ x, through ((registered cs).map Prod.fst) v = Except.ok x)
    (hE : Emit values (setup opts cs) = Except.ok r ∨
      EmitWithDelay dur values (setup opts cs) = Except.ok r)
    (hrun : run r.1.1 r.1.2 sched = some w') :
    (∀ cs0, cs0 <+: cs → ∀ act, step (setup opts cs0).1 (setup opts cs0).2 act = none) ∧
      w'.panicked = false ∧
      (∀ (i : Nat) (s : stage V E) (pool : Pool V E),
        r.1.1.stages[i]? = some s → w'.pools[i]? = some pool →
        1 ≤ s.workerCount ∧ pool.workers.length = s.workerCount ∧ Barrier w' s pool ∧
          (w'.sawClose = true → pool.closed = true ∧ (w'.chan s.out).buf = [])) ∧
      w'.pools.length = r.1.1.stages.length ∧
      (w'.sawClose = true → (w'.chan r.1.1.sink).closed = true ∧ w'.feeders = [[]]) ∧
      (w'.sawClose = false → ∃ act w'', step r.1.1 w' act = some w'') ∧
      sched.length ≤
        3 + values.length * (2 * (registered cs).length + 3) +
          ((registered cs).map fun sp => sp.2 + 1).sum := by
  have key : ∀ script : List (FeedOp V), FeedShape script → script ≠ [] →
      (script.map (FeedOp.weight (registered cs).length)).sum ≤
        values.length * (2 * (registered cs).length + 3) + 1 →
      script.flatMap (FeedOp.pending ((registered cs).map Prod.fst)) =
        values.map (through ((registered cs).map Prod.fst)) →
      r = (launched opts (lastOnError cs) (registered cs) script, 1) →
      w'.panicked = false ∧
      (∀ (i : Nat) (s : stage V E) (pool : Pool V E),
        r.1.1.stages[i]? = some s → w'.pools[i]? = some pool →
        1 ≤ s.workerCount ∧ pool.workers.length = s.workerCount ∧ Barrier w' s pool ∧
          (w'.sawClose = true → pool.closed = true ∧ (w'.chan s.out).buf = [])) ∧
      w'.pools.length = r.1.1.stages.length ∧
      (w'.sawClose = true → (w'.chan r.1.1.sink).closed = true ∧ w'.feeders = [[]]) ∧
      (w'.sawClose = false → ∃ act w'', step r.1.1 w' act = some w'') ∧
      sched.length ≤
        3 + values.length * (2 * (registered cs).length + 3) +
          ((registered cs).map fun sp => sp.2 + 1).sum := by
    intro script hs hsne hwt hpend hr
    subst hr
    have hsafe : lastOnError cs ≠ none ∨ ∀ x ∈ script.flatMap
        (FeedOp.pending ((registered cs).map Prod.fst)), ∃ y, x = Except.ok y := by
      rcases hcb with h | h
      · exact Or.inl h
      · refine Or.inr fun x hx => ?_
        rw [hpend] at hx
        obtain ⟨v, hv, rfl⟩ := List.mem_map.mp hx
        obtain ⟨y, hy⟩ := h v hv
        exact ⟨y, hy⟩
    obtain ⟨hnp, _, _, _, hprog, hmu⟩ := launched_accounts_safe opts (lastOnError cs)
      (registered cs) script sched w' hne hpos hs hsne hsafe hrun
    obtain ⟨hb, hlen, hfin⟩ := launched_barrier_safe opts (lastOnError cs) (registered cs)
      script sched w' hne hpos hs hsne hsafe hrun
    exact ⟨hnp, hb, hlen, hfin, hprog, by omega⟩
  refine ⟨fun cs0 hpre act => setup_quiet opts cs cs0 hpos hpre act, ?_⟩
  rcases hE with hE | hE
  · rw [Emit_setup opts cs values hne] at hE
    simp only [Except.ok.injEq] at hE
    refine key (emitFeeder values) (FeedShape_emitFeeder values) (by simp [emitFeeder]) ?_
      (emitFeeder_pending _ values) hE.symm
    rw [emitFeeder_weight]
    have := Nat.mul_le_mul_left values.length
      (show 2 * (registered cs).length + 2 ≤ 2 * (registered cs).length + 3 by omega)
    omega
  · rw [EmitWithDelay_setup opts cs dur values hne] at hE
    simp only [Except.ok.injEq] at hE
    refine key (delayFeeder dur values) (FeedShape_delayFeeder dur values)
      (by simp [delayFeeder]) ?_ (delayFeeder_pending _ dur values) hE.symm
    rw [delayFeeder_weight]

/-- C9 as stated fails in two ways. For a stage with one worker in a pipeline
that also has a stage with no worker: after `Next(f, 0)` the closer of that
stage can close the sink before `Next(g, 1)` makes the sink the outbound queue
of the new stage, so that after `Emit(1)` the outbound queue of the stage with
one worker is closed while its worker is still in its loop. For a `nil`
callback: after `OnError(nil)`, `Next(fn, 1)` and `Emit("one", "two", nil)`
the worker's call of the callback panics; the inbound queue of the stage is
closed and drained and the caller is reading the sink, but the sink is not
closed and no goroutine can move any more. -/
theorem barrier_broken_by_early_closer :
    (∃ wA r s pool,
      run (Next demoInc 0 (New WithDefault World.init)).1
          (Next demoInc 0 (New WithDefault World.init)).2 [Action.solo (Actor.closer 0)] =
        some wA ∧
      Emit [1] (Next demoInc 1 ((Next demoInc 0 (New WithDefault World.init)).1, wA)) =
        Except.ok r ∧
      r.1.1.stages[1]? = some s ∧ r.1.2.pools[1]? = some pool ∧ s.workerCount = 1 ∧
      s.out = r.1.1.sink ∧ (r.1.2.chan s.out).closed = true ∧
      pool.workers.map Worker.isDone = [false] ∧ pool.closed = false) ∧
    (∃ r w' s, Emit [some "one", some "two", none]
          (setup WithDefault [Setup.onError none, Setup.next testFailNil 1]) =
        Except.ok r ∧
      run r.1.1 r.1.2 nilSched = some w' ∧ r.1.1.stages[0]? = some s ∧
      w'.panicked = true ∧ (w'.chan s.inp).closed = true ∧ (w'.chan s.inp).buf = [] ∧
      (w'.chan s.out).closed = false ∧ w'.sawClose = false ∧
      ∀ act, step r.1.1 w' act = none) := by
  constructor
  · have h1 : ((run (Next demoInc 0 (New WithDefault World.init)).1
          (Next demoInc 0 (New WithDefault World.init)).2
          [Action.solo (Actor.closer 0)]).bind fun wA =>
        (Emit [1] (Next demoInc 1
          ((Next demoInc 0 (New WithDefault World.init)).1, wA))).toOption.bind fun r =>
        (r.1.1.stages[1]?).bind fun s => (r.1.2.pools[1]?).map fun pool =>
          (s.workerCount, s.out, r.1.1.sink, (r.1.2.chan s.out).closed,
            pool.workers.map Worker.isDone, pool.closed)) =
        some (1, 1, 1, true, [false], false) := by
      rfl
    obtain ⟨wA, hA, h2⟩ := Option.bind_eq_some.mp h1
    cases hE : Emit [1] (Next demoInc 1
        ((Next demoInc 0 (New WithDefault World.init)).1, wA)) with
    | error e =>
      rw [hE] at h2
      cases h2
    | ok r =>
      rw [hE] at h2
      simp only [Except.toOption, Option.some_bind] at h2
      obtain ⟨s, hs, h3⟩ := Option.bind_eq_some.mp h2
      obtain ⟨pool, hp, h4⟩ := Option.map_eq_some'.mp h3
      simp only [Prod.mk.injEq] at h4
      exact ⟨wA, r, s, pool, hA, hE, hs, hp, h4.1, h4.2.1.trans h4.2.2.1.symm, h4.2.2.2.1,
        h4.2.2.2.2.1, h4.2.2.2.2.2⟩
  · have h1 : ((run (V := Option String) (E := String)
        (launched WithDefault none [(testFailNil, 1)]
          (emitFeeder [some "one", some "two", none])).1
        (launched WithDefault none [(testFailNil, 1)]
          (emitFeeder [some "one", some "two", none])).2 nilSched).bind fun w =>
        ((launched (V := Option String) (E := String) WithDefault none [(testFailNil, 1)]
          (emitFeeder [some "one", some "two", none])).1.stages[0]?).map fun s =>
          (w.panicked, (w.chan s.inp).closed, (w.chan s.inp).buf, (w.chan s.out).closed,
            w.sawClose)) =
        some (true, true, [], false, false) := by
      rfl
    obtain ⟨w', hw, h2⟩ := Option.bind_eq_some.mp h1
    obtain ⟨s, hs, h3⟩ := Option.map_eq_some'.mp h2
    simp only [Prod.mk.injEq] at h3
    exact ⟨(launched WithDefault none [(testFailNil, 1)]
      (emitFeeder [some "one", some "two", none]), 1), w', s,
      Emit_setup _ _ _ (List.cons_ne_nil _ _), hw, hs, h3.1, h3.2.1, h3.2.2.1, h3.2.2.2.1,
      h3.2.2.2.2, fun act => step_of_panicked _ w' act h3.1⟩

theorem feeder_step_after_close (p : Pipeline V E) (w : World V E) (k : Nat) (op : FeedOp V)
    (rest : List (FeedOp V)) (hnp : w.panicked = false)
    (hk : w.feeders[k]? = some (op :: rest)) (hcl : (w.chan p.source).closed = true) :
    ∃ w3, step p w (Action.solo (Actor.feeder k)) = some w3 ∧
      ((op = FeedOp.close ∨ ∃ v, op = FeedOp.send v) → w3.panicked = true) := by
  simp only [step, move, hnp, Bool.false_eq_true, if_false, feederMove, hk]
  cases op with
  | wait d => exact ⟨_, rfl, fun h => by rcases h with h | ⟨v, h⟩ <;> cases h⟩
  | send v =>
    simp only [hcl, if_true]
    exact ⟨_, rfl, fun _ => rfl⟩
  | close =>
    refine ⟨_, rfl, fun _ => ?_⟩
    simp [World.closeChan, hcl, World.panic]

/-- C10. Single-use source. On a pipeline on which no emission call has been
made (one built by `New` and any sequence of `Next` and `OnError` calls, in
whatever state its goroutines are) an emission call (`Emit` or
`EmitWithDelay`, any arguments) is made, the goroutines run for a while, and a
second emission call is made. Both calls succeed only if the pipeline has a
stage; each starts its own feeder and leaves the source queue the one `New`
created. In every execution after the second call: if both feeders are at
their end, the last step was a send on, or the `close(p.source)` of, the
already closed source queue by one of the feeders, and the process has
panicked; and as long as nothing has panicked, a feeder that has operations
left while the other is at its end can take its next step, which panics when
it is a send or the close. -/
theorem second_emission_panics (pw : Pipeline V E × World V E)
    (c1 c2 : EmitCall V) (r1 r2 : (Pipeline V E × World V E) × Nat)
    (sched1 sched2 : List Action) (w1 w2 : World V E)
    (hfresh : pw.2.feeders = [])
    (h1 : c1.apply pw = Except.ok r1)
    (hr1 : run r1.1.1 r1.1.2 sched1 = some w1)
    (h2 : c2.apply (r1.1.1, w1) = Except.ok r2)
    (hr2 : run r2.1.1 r2.1.2 sched2 = some w2) :
    (∀ (opts : PipelineOpts) (cs : List (Setup V E)),
        (setup opts cs).2.feeders = [] ∧
        (setup opts cs).1.source = (New opts (World.init (V := V) (E := E))).1.source) ∧
      r1.1.1.source = pw.1.source ∧ r2.1.1.source = pw.1.source ∧
      r1.1.2.feeders = [c1.feeder] ∧ r2.1.2.feeders = w1.feeders ++ [c2.feeder] ∧
      w2.feeders.length = 2 ∧
      ((∀ f ∈ w2.feeders, f = []) →
        w2.panicked = true ∧
        ∃ pre k op rest w, sched2 = pre ++ [Action.solo (Actor.feeder k)] ∧
          run r2.1.1 r2.1.2 pre = some w ∧ w.panicked = false ∧
          w.feeders[k]? = some (op :: rest) ∧ (op = FeedOp.close ∨ ∃ v, op = FeedOp.send v) ∧
          (w.chan r2.1.1.source).closed = true) ∧
      (w2.panicked = false → (∃ f ∈ w2.feeders, f = []) →
        ∀ (k : Nat) (op : FeedOp V) (rest : List (FeedOp V)),
          w2.feeders[k]? = some (op :: rest) →
          ∃ w3, step r2.1.1 w2 (Action.solo (Actor.feeder k)) = some w3 ∧
            ((op = FeedOp.close ∨ ∃ v, op = FeedOp.send v) → w3.panicked = true)) := by
  obtain ⟨hs1, hg1, _, _⟩ := EmitCall.apply_ok c1 _ r1 h1
  obtain ⟨hs2, hg2, _, _⟩ := EmitCall.apply_ok c2 _ r2 h2
  have hfe := hfresh
  simp only at hs2 hg2
  have hf1 : r1.1.2.feeders = [c1.feeder] := by
    rw [hg1]
    simp [World.go, hfe]
  have hf2 : r2.1.2.feeders = w1.feeders ++ [c2.feeder] := by
    rw [hg2]
    rfl
  have hl1 : w1.feeders.length = 1 := by
    rw [run_feeders_length _ _ _ _ hr1, hf1]
    rfl
  have hl2 : r2.1.2.feeders.length = 2 := by
    rw [hf2, List.length_append, hl1]
    rfl
  have hS0 : SingleUse r1.1.1.source pw.2 := by
    refine ⟨fun f hf => ?_, fun _ => ⟨fun _ f hf => ?_, fun i j hi _ => ?_⟩⟩
    · rw [hfe] at hf
      cases hf
    · rw [hfe] at hf
      cases hf
    · rw [hfe] at hi
      simp at hi
  have hS1 : SingleUse r1.1.1.source r1.1.2 := by
    rw [hg1]
    exact go_SingleUse _ _ _ c1.feeder_shape.1 c1.feeder_shape.2 hS0
  have hS2 : SingleUse r2.1.1.source r2.1.2 := by
    rw [hg2, hs2]
    exact go_SingleUse _ _ _ c2.feeder_shape.1 c2.feeder_shape.2
      (run_SingleUse _ _ _ _ hr1 hS1)
  have hSw2 := run_SingleUse _ _ _ _ hr2 hS2
  have hlw2 : w2.feeders.length = 2 := by
    rw [run_feeders_length _ _ _ _ hr2, hl2]
  refine ⟨fun opts cs => ⟨(setup_fresh opts cs).2.1, (setup_fresh opts cs).1⟩, hs1,
    hs2.trans hs1, hf1, hf2, hlw2, fun hend => ?_, fun hnp2 hex k op rest hk => ?_⟩
  · have hne : sched2 ≠ [] := by
      intro h0
      subst h0
      simp only [run, Option.some.injEq] at hr2
      subst hr2
      have : c2.feeder ∈ r2.1.2.feeders := by
        rw [hf2]
        simp
      exact c2.feeder_shape.2 (hend _ this)
    have hsplit := (List.dropLast_append_getLast hne).symm
    rw [hsplit, run_snoc] at hr2
    cases hpre : run r2.1.1 r2.1.2 sched2.dropLast with
    | none => simp [hpre] at hr2
    | some w =>
      simp only [hpre, Option.some_bind] at hr2
      have hSw := run_SingleUse _ _ _ _ hpre hS2
      have hlw : w.feeders.length = 2 := by
        rw [run_feeders_length _ _ _ _ hpre, hl2]
      obtain ⟨k, op, rest, hact, hk, hop, hcl, hnpw, hp2⟩ :=
        step_completes _ w w2 _ hSw hlw hr2 hend
      refine ⟨hp2, sched2.dropLast, k, op, rest, w, ?_, hpre, hnpw, hk, hop, hcl⟩
      rw [← hact]
      exact hsplit
  · obtain ⟨f, hf, hfe0⟩ := hex
    have hcl : (w2.chan r2.1.1.source).closed = true := by
      cases hx : (w2.chan r2.1.1.source).closed with
      | true => rfl
      | false => exact absurd hfe0 ((hSw2.2 hnp2).1 hx f hf)
    exact feeder_step_after_close r2.1.1 w2 k op rest hnp2 hk hcl

theorem pending_length (fns : List (stageFunc V E)) (rem : List (FeedOp V)) :
    (rem.flatMap (FeedOp.pending fns)).length = (pushed rem).length := by
  induction rem with
  | nil => rfl
  | cons op rest ih =>
    cases op <;>
      simp only [List.flatMap_cons, FeedOp.pending, pushed, List.filterMap_cons, FeedOp.sent,
        List.length_append, List.length_cons, List.length_nil, List.nil_append] at ih ⊢ <;>
      omega

theorem launched_received_le (opts : PipelineOpts) (e : errFunc)
    (specs : List (stageFunc V E × Nat)) (script : List (FeedOp V)) (sched : List Action)
    (w' : World V E) (rem : List (FeedOp V)) (hne : specs ≠ [])
    (hrun : run (launched opts e specs script).1 (launched opts e specs script).2 sched =
      some w')
    (hf : w'.feeders = [rem]) (hnp : w'.panicked = false) :
    w'.received.length + (pushed rem).length ≤ (pushed script).length := by
  have hw := launched_wired opts e specs script hne
  have hlen := launched_pools opts e specs script
  obtain ⟨hsim, _⟩ := run_chainOf _ _ w' sched hw hlen hrun
  rw [launched_chainOf opts e specs script hne] at hsim
  have hperm := (Chain.run_ledger _ _ sched false (fun h => by simp at h) hsim hnp).2.1.2
  rw [initChain_ledger] at hperm
  have hl := hperm.length_eq
  rw [pending_length] at hl
  have hfe : (chainOf (launched opts e specs script).1 w').feeders = [rem] := hf
  have hre : (chainOf (launched opts e specs script).1 w').received = w'.received := rfl
  simp only [Chain.ledger, hfe, hre, List.length_append, List.length_map, List.flatMap_cons,
    List.flatMap_nil, List.append_nil, pending_length] at hl
  omega

/-- C7. Delayed emission. `EmitWithDelay(d, values...)` on a pipeline built by
`New` and any sequence of `Next` and `OnError` calls with at least one stage
starts one feeder whose program is, for `K` values: `K` waits, each of `d`,
the wait at position `2i` immediately followed by the send of the `i`-th value
at position `2i + 1`, and the close of the source as the last of its `2K + 1`
operations; it sends the same values in the same order as the feeder of `Emit`.
On a logical clock that starts at 0 at the call, in every execution at every
moment, what the feeder has left is a tail of that program, and when it has
sent `i` values the time is at least `i * d`; when it has closed the source
the time is at least `K * d`; the caller has received at most `i` values
unless the process has panicked. When every stage has at least one worker and
the caller's range loop over the sink has ended, the feeder has run to its
end and the time is at least `K * d`. -/
theorem delayed_emission_waits (opts : PipelineOpts) (cs : List (Setup V E)) (d : Int)
    (values : List V) (r : (Pipeline V E × World V E) × Nat) (ts : List (Action × Int))
    (st' : Clocked V E)
    (hE : EmitWithDelay d values (setup opts cs) = Except.ok r)
    (hrun : timedRun r.1.1 (Clocked.start r.1.2) ts = some st') :
    r.1.2.feeders = [delayFeeder d values] ∧
      waits (delayFeeder d values) = List.replicate values.length d ∧
      (∀ (i : Nat) (v : V), values[i]? = some v →
        (delayFeeder d values)[2 * i]? = some (FeedOp.wait d) ∧
          (delayFeeder d values)[2 * i + 1]? = some (FeedOp.send v)) ∧
      (delayFeeder d values)[2 * values.length]? = some FeedOp.close ∧
      (delayFeeder d values).length = 2 * values.length + 1 ∧
      pushed (delayFeeder d values) = pushed (emitFeeder values) ∧
      pushed (delayFeeder d values) = values ∧
      (∃ (rem : List (FeedOp V)) (i : Nat), st'.world.feeders = [rem] ∧
        rem <:+ delayFeeder d values ∧ i ≤ values.length ∧ pushed rem = values.drop i ∧
        i * d ≤ st'.now ∧ (rem = [] → values.length * d ≤ st'.now) ∧
        (st'.world.panicked = false → st'.world.received.length ≤ i)) ∧
      ((∀ sp ∈ registered cs, 1 ≤ sp.2) → st'.world.sawClose = true →
        st'.world.feeders = [[]] ∧ values.length * d ≤ st'.now) := by
  have hne : registered cs ≠ [] := by
    intro h0
    have hst : (setup opts cs).1.stages = [] := by
      rw [setup_eq, h0]
      rfl
    simp [EmitWithDelay, mustHaveStages_fatal _ hst] at hE
  rw [EmitWithDelay_setup opts cs d values hne] at hE
  simp only [Except.ok.injEq] at hE
  subst hE
  have hf0 : (launched opts (lastOnError cs) (registered cs) (delayFeeder d values)).2.feeders =
      [delayFeeder d values] := by
    simp [launched, builtWorld, World.go]
  have hopen : ((launched opts (lastOnError cs) (registered cs)
      (delayFeeder d values)).2.chan
        (launched opts (lastOnError cs) (registered cs) (delayFeeder d values)).1.source).closed
      = false := by
    simp [launched, builtWorld, World.go]
  have hw := launched_wired opts (lastOnError cs) (registered cs) (delayFeeder d values) hne
  have hrun' := timedRun_run _ _ _ _ hrun
  obtain ⟨rem, hf, hsuf, _, _, h0, hln, hsum⟩ := timedRun_clock _ (delayFeeder d values) _ _ _
    hw hrun
    ⟨delayFeeder d values, hf0, List.suffix_refl _, FeedShape_delayFeeder d values,
      fun _ => hopen, le_refl _, le_refl _, by simp [Clocked.start]⟩
  obtain ⟨i, m, him, hp, hs⟩ := delayFeeder_suffix d values rem hsuf
  rw [pause_sum_delayFeeder, hs] at hsum
  have hK : (values.length : Int) * d ≤ st'.now + m * d := by omega
  have hi : (i : Int) * d ≤ st'.now := by
    rcases le_or_lt 0 d with hd | hd
    · have h1 : (0 : Int) ≤ (values.length : Int) - m - i := by omega
      nlinarith [mul_nonneg h1 hd]
    · have h1 : (0 : Int) ≤ (i : Int) := Int.ofNat_nonneg i
      nlinarith [mul_nonneg h1 (le_of_lt (neg_pos.mpr hd))]
  have hend : rem = [] → (values.length : Int) * d ≤ st'.now := by
    intro hr
    rw [hr] at hs
    simp only [List.map_nil, List.sum_nil] at hs
    rw [← hs] at hK
    omega
  refine ⟨hf0, waits_delayFeeder d values, delayFeeder_getElem? d values,
    delayFeeder_last d values, delayFeeder_length d values, ?_, pushed_delayFeeder d values,
    ⟨rem, i, hf, hsuf, by omega, hp, hi, hend, fun hnp => ?_⟩, fun hpos hsc => ?_⟩
  · rw [pushed_delayFeeder, pushed_emitFeeder]
  · have := launched_received_le opts (lastOnError cs) (registered cs) (delayFeeder d values)
      _ _ rem hne hrun' hf hnp
    rw [hp, pushed_delayFeeder, List.length_drop] at this
    omega
  · have hfin := launched_feeder_done opts (lastOnError cs) (registered cs)
      (delayFeeder d values) _ _ hne hpos (FeedShape_delayFeeder d values)
      (by simp [delayFeeder]) hrun' hsc
    refine ⟨hfin, hend ?_⟩
    rw [hf] at hfin
    simpa using hfin

/-! ## Instances at concrete pipelines -/

theorem next_chain_unbroken_witness :
    demoSpecs ≠ [] ∧
      ∃ p w, build WithDefault demoSpecs = (p, w) ∧ p.stages.length = 3 ∧
        p.stages.head?.map (fun s => s.inp) = some p.source ∧
        p.stages.getLast?.map (fun s => s.out) = some p.sink ∧
        (p.source :: p.sink :: p.stages.tail.map fun s => s.inp).Nodup := by
  have h : demoSpecs ≠ [] := List.cons_ne_nil _ _
  obtain ⟨p, w, hb, h1, _, h3, _, h5, h6, _⟩ := next_chain_unbroken WithDefault demoSpecs h
  exact ⟨h, p, w, hb, h1, h3, h5, h6⟩

theorem emit_propagates_error_callback_witness :
    (setup (V := Nat) (E := String) WithDefault
        [Setup.onError (some (Handler.callback 7)), Setup.next demoInc 1]).1.stages ≠ [] ∧
      ∃ p', mustHaveStages (setup (V := Nat) (E := String) WithDefault
          [Setup.onError (some (Handler.callback 7)), Setup.next demoInc 1]).1 = Except.ok p' ∧
        ∀ s ∈ p'.stages, s.errFn = some (Handler.callback 7) := by
  have h : (setup (V := Nat) (E := String) WithDefault
      [Setup.onError (some (Handler.callback 7)), Setup.next demoInc 1]).1.stages ≠ [] := by
    simp [setup, Next, OnError, New]
  obtain ⟨p', h1, _, _, h4, _, _, _, _, _, _, _, h12⟩ :=
    emit_propagates_error_callback _ (setup (V := Nat) (E := String) WithDefault
      [Setup.onError (some (Handler.callback 7)), Setup.next demoInc 1]).2 [1, 2] 250 h
  refine ⟨h, p', h1, fun s hs => ?_⟩
  rw [h4 s hs, h12]
  rfl

theorem emit_preserves_order_witness :
    ∃ r w', Emit [1, 2] (setup WithDefault laneCalls) = Except.ok r ∧
      run r.1.1 r.1.2 laneSched = some w' ∧ w'.sawClose = true ∧ w'.received = [4, 6] := by
  have h1 : (run (launched WithDefault (lastOnError laneCalls) (registered laneCalls)
        (emitFeeder [1, 2])).1
      (launched WithDefault (lastOnError laneCalls) (registered laneCalls)
        (emitFeeder [1, 2])).2 laneSched).map (fun w => w.sawClose) = some true := by
    rfl
  obtain ⟨w', hw, hsc⟩ := Option.map_eq_some'.mp h1
  have hE : Emit [1, 2] (setup WithDefault laneCalls) = Except.ok
      (launched WithDefault (lastOnError laneCalls) (registered laneCalls)
        (emitFeeder [1, 2]), 1) := Emit_setup _ _ _ (List.cons_ne_nil _ _)
  have h := emit_preserves_order WithDefault laneCalls [1, 2] _ laneSched w'
    (List.cons_ne_nil _ _)
    (by
      intro sp hsp
      simp [registered, laneCalls, Setup.nextArg] at hsp
      rcases hsp with rfl | rfl <;> rfl)
    (by
      intro sp hsp
      simp [registered, laneCalls, Setup.nextArg] at hsp
      rcases hsp with rfl | rfl <;> intro v <;> rfl)
    hE hw
  exact ⟨_, w', hE, hw, hsc, h.2.2.1 hsc⟩

theorem emit_composes_stages_witness :
    ∃ r w', Emit [1, 2] (setup WithDefault demoCalls) = Except.ok r ∧
      run r.1.1 r.1.2 demoSched = some w' ∧ w'.sawClose = true ∧ w'.received = [7, 5] ∧
      w'.received.Perm [5, 7] ∧ w'.calls = [] := by
  have h1 : (run (launched WithDefault (lastOnError demoCalls) (registered demoCalls)
        (emitFeeder [1, 2])).1
      (launched WithDefault (lastOnError demoCalls) (registered demoCalls)
        (emitFeeder [1, 2])).2 demoSched).map (fun w => (w.sawClose, w.received)) =
      some (true, [7, 5]) := by
    rfl
  obtain ⟨w', hw, h2⟩ := Option.map_eq_some'.mp h1
  simp only [Prod.mk.injEq] at h2
  have hE : Emit [1, 2] (setup WithDefault demoCalls) = Except.ok
      (launched WithDefault (lastOnError demoCalls) (registered demoCalls)
        (emitFeeder [1, 2]), 1) := Emit_setup _ _ _ (List.cons_ne_nil _ _)
  have h := emit_composes_stages WithDefault demoCalls [1, 2] _ demoSched w'
    (List.cons_ne_nil _ _)
    (by
      intro sp hsp
      simp [registered, demoCalls, Setup.nextArg] at hsp
      rcases hsp with rfl | rfl | rfl <;> decide)
    (by
      intro sp hsp
      simp [registered, demoCalls, Setup.nextArg] at hsp
      rcases hsp with rfl | rfl | rfl <;> intro v <;> rfl)
    hE hw
  exact ⟨_, w', hE, hw, h2.1, h2.2, h.2.2.1 h2.1, h.2.2.2.1⟩

theorem emit_isolates_errors_witness :
    ∃ r w', Emit [some "one", some "two", none] (setup WithDefault dumpCalls) = Except.ok r ∧
      run r.1.1 r.1.2 dumpSched = some w' ∧ w'.sawClose = true ∧
      w'.received.Perm [some "one", some "two"] ∧ (w'.calls.map Prod.snd).Perm ["test"] ∧
      w'.received.length = 2 ∧ w'.calls.length = 1 := by
  have h1 : (run (launched WithDefault (lastOnError dumpCalls) (registered dumpCalls)
        (emitFeeder [some "one", some "two", none])).1
      (launched WithDefault (lastOnError dumpCalls) (registered dumpCalls)
        (emitFeeder [some "one", some "two", none])).2 dumpSched).map (fun w => w.sawClose) =
      some true := by
    rfl
  obtain ⟨w', hw, hsc⟩ := Option.map_eq_some'.mp h1
  have hE : Emit [some "one", some "two", none] (setup WithDefault dumpCalls) = Except.ok
      (launched WithDefault (lastOnError dumpCalls) (registered dumpCalls)
        (emitFeeder [some "one", some "two", none]), 1) :=
    Emit_setup _ _ _ (List.cons_ne_nil _ _)
  have h := emit_isolates_errors WithDefault dumpCalls [some "one", some "two", none] _
    dumpSched w' (List.cons_ne_nil _ _)
    (by
      intro sp hsp
      simp [registered, dumpCalls, Setup.nextArg] at hsp
      rcases hsp with rfl
      decide)
    (Or.inl (by simp [lastOnError, dumpCalls, Setup.onErrorArg])) hE hw
  have hr : w'.received.Perm [some "one", some "two"] := (h.2.2.2.1 hsc).1
  have hc : (w'.calls.map Prod.snd).Perm ["test"] := (h.2.2.2.1 hsc).2
  refine ⟨_, w', hE, hw, hsc, hr, hc, hr.length_eq, ?_⟩
  have := hc.length_eq
  simpa using this

theorem stage_completion_barrier_witness :
    ∃ r w', EmitWithDelay 250 [1, 2] (setup WithDefault laneCalls) = Except.ok r ∧
      run r.1.1 r.1.2 delaySched = some w' ∧ w'.sawClose = true ∧ w'.panicked = false ∧
      (w'.chan r.1.1.sink).closed = true ∧ w'.feeders = [[]] ∧ w'.received = [4, 6] := by
  have h1 : (run (launched WithDefault (lastOnError laneCalls) (registered laneCalls)
        (delayFeeder 250 [1, 2])).1
      (launched WithDefault (lastOnError laneCalls) (registered laneCalls)
        (delayFeeder 250 [1, 2])).2 delaySched).map (fun w => (w.sawClose, w.received)) =
      some (true, [4, 6]) := by
    rfl
  obtain ⟨w', hw, h2⟩ := Option.map_eq_some'.mp h1
  simp only [Prod.mk.injEq] at h2
  have hE : EmitWithDelay 250 [1, 2] (setup WithDefault laneCalls) = Except.ok
      (launched WithDefault (lastOnError laneCalls) (registered laneCalls)
        (delayFeeder 250 [1, 2]), 1) := EmitWithDelay_setup _ _ _ _ (List.cons_ne_nil _ _)
  have h := stage_completion_barrier WithDefault laneCalls 250 [1, 2] _ delaySched w'
    (List.cons_ne_nil _ _)
    (by
      intro sp hsp
      simp [registered, laneCalls, Setup.nextArg] at hsp
      rcases hsp with rfl | rfl <;> decide)
    (Or.inl (by simp [lastOnError, laneCalls, Setup.onErrorArg])) (Or.inr hE) hw
  exact ⟨_, w', hE, hw, h2.1, h.2.1, (h.2.2.2.2.1 h2.1).1, (h.2.2.2.2.1 h2.1).2, h2.2⟩

theorem second_emission_panics_witness :
    ∃ r1 w1 r2 w2, (EmitCall.emit [1, 2]).apply (setup WithDefault laneCalls) = Except.ok r1 ∧
      run r1.1.1 r1.1.2 laneSched = some w1 ∧ w1.sawClose = true ∧ w1.received = [4, 6] ∧
      (EmitCall.emit [3]).apply (r1.1.1, w1) = Except.ok r2 ∧
      run r2.1.1 r2.1.2 [Action.solo (Actor.feeder 1)] = some w2 ∧
      (∀ f ∈ w2.feeders, f = []) ∧ w2.panicked = true := by
  have hE : (EmitCall.emit [1, 2]).apply (setup WithDefault laneCalls) = Except.ok
      (launched WithDefault (lastOnError laneCalls) (registered laneCalls)
        (emitFeeder [1, 2]), 1) := Emit_setup WithDefault laneCalls [1, 2] (List.cons_ne_nil _ _)
  have h3 : ((run (launched WithDefault (lastOnError laneCalls) (registered laneCalls)
        (emitFeeder [1, 2])).1
      (launched WithDefault (lastOnError laneCalls) (registered laneCalls)
        (emitFeeder [1, 2])).2 laneSched).bind fun w1 =>
      ((EmitCall.emit [3]).apply
        ((launched (V := Nat) (E := String) WithDefault (lastOnError laneCalls)
          (registered laneCalls) (emitFeeder [1, 2])).1, w1)).toOption.bind fun r2 =>
        (run r2.1.1 r2.1.2 [Action.solo (Actor.feeder 1)]).map fun w2 =>
          (w1.sawClose, w1.received, w2.feeders)) = some (true, [4, 6], [[], []]) := by
    rfl
  obtain ⟨w1, hr1, h4⟩ := Option.bind_eq_some.mp h3
  cases h2 : (EmitCall.emit [3]).apply
      ((launched (V := Nat) (E := String) WithDefault (lastOnError laneCalls)
        (registered laneCalls) (emitFeeder [1, 2])).1, w1) with
  | error e =>
    rw [h2] at h4
    cases h4
  | ok r2 =>
    rw [h2] at h4
    simp only [Except.toOption, Option.some_bind] at h4
    obtain ⟨w2, hr2, h5⟩ := Option.map_eq_some'.mp h4
    simp only [Prod.mk.injEq] at h5
    have hend : ∀ f ∈ w2.feeders, f = [] := by
      intro f hfm
      rw [h5.2.2] at hfm
      simp only [List.mem_cons, List.mem_singleton, List.not_mem_nil, or_false, or_self] at hfm
      exact hfm
    have h := second_emission_panics (setup WithDefault laneCalls) (EmitCall.emit [1, 2])
      (EmitCall.emit [3]) _ r2 laneSched _ w1 w2 (setup_fresh WithDefault laneCalls).2.1
      hE hr1 h2 hr2
    exact ⟨_, w1, r2, w2, hE, hr1, h5.1, h5.2.1, h2, hr2, hend, (h.2.2.2.2.2.2.1 hend).1⟩

theorem delayed_emission_waits_witness :
    ∃ r st', EmitWithDelay 250 [1, 2] (setup WithDefault laneCalls) = Except.ok r ∧
      timedRun r.1.1 (Clocked.start r.1.2) delayTimed = some st' ∧
      st'.world.sawClose = true ∧ st'.world.feeders = [[]] ∧ 500 ≤ st'.now := by
  have h1 : (timedRun (launched WithDefault (lastOnError laneCalls) (registered laneCalls)
        (delayFeeder 250 [1, 2])).1
      (Clocked.start (launched WithDefault (lastOnError laneCalls) (registered laneCalls)
        (delayFeeder 250 [1, 2])).2) delayTimed).map (fun st => st.world.sawClose) =
      some true := by
    rfl
  obtain ⟨st', hw, hsc⟩ := Option.map_eq_some'.mp h1
  have hE : EmitWithDelay 250 [1, 2] (setup WithDefault laneCalls) = Except.ok
      (launched WithDefault (lastOnError laneCalls) (registered laneCalls)
        (delayFeeder 250 [1, 2]), 1) :=
    EmitWithDelay_setup WithDefault laneCalls 250 [1, 2] (List.cons_ne_nil _ _)
  have h := delayed_emission_waits WithDefault laneCalls 250 [1, 2] _ delayTimed st' hE hw
  have hpos : ∀ sp ∈ registered laneCalls, 1 ≤ sp.2 := by
    intro sp hsp
    simp [registered, laneCalls, Setup.nextArg] at hsp
    rcases hsp with rfl | rfl <;> decide
  have h2 := h.2.2.2.2.2.2.2.2 hpos hsc
  exact ⟨_, st', hE, hw, hsc, h2.1, by simpa using h2.2⟩

end GoPipeline
